import Mathlib

/-!
Shallow embedding of the resilient-summarization core of the
`webcrawlagent` repository, together with theorems settling the frozen
claims about it.

Text is modelled as `List Char` (Python `str`), bytes as `List Nat`
(each `< 256`), and JSON values as the inductive `Json` below.  Python
functions from the repository keep their source names where Lean's
syntax permits.
-/

set_option maxHeartbeats 1000000

/-- Python strings are modelled as lists of characters. -/
abbrev Str := List Char

/-- The four JSON whitespace characters accepted by `json.loads`
(CPython `json.decoder.WHITESPACE_STR`). -/
def isJsonWs (c : Char) : Bool :=
  c = ' ' || c = '\t' || c = '\n' || c = '\r'

/-- Characters removed by Python `str.strip()` (characters for which
`str.isspace()` holds): the ASCII whitespace and the common Unicode
whitespace code points. -/
def isPyWs (c : Char) : Bool :=
  c = ' ' || c = '\t' || c = '\n' || c = '\r' ||
  c = Char.ofNat 0x0b || c = Char.ofNat 0x0c ||
  c = Char.ofNat 0x1c || c = Char.ofNat 0x1d ||
  c = Char.ofNat 0x1e || c = Char.ofNat 0x1f ||
  c = Char.ofNat 0x85 || c = Char.ofNat 0xa0 ||
  c = Char.ofNat 0x1680 ||
  (Char.ofNat 0x2000 ≤ c && c ≤ Char.ofNat 0x200a) ||
  c = Char.ofNat 0x2028 || c = Char.ofNat 0x2029 ||
  c = Char.ofNat 0x202f || c = Char.ofNat 0x205f ||
  c = Char.ofNat 0x3000

/-- Python `str.lstrip()`. -/
def pyLstrip (s : Str) : Str := s.dropWhile isPyWs

/-- Python `str.rstrip()`. -/
def pyRstrip (s : Str) : Str := (s.reverse.dropWhile isPyWs).reverse

/-- Python `str.strip()`. -/
def pyStrip (s : Str) : Str := pyRstrip (pyLstrip s)

/-- Python `sep.join(parts)`. -/
def joinSep (sep : Str) : List Str → Str
  | [] => []
  | [x] => x
  | x :: xs => x ++ sep ++ joinSep sep xs

/-- Decimal rendering of a natural number (Python `str(n)` / f-string
interpolation of a non-negative `int`). -/
def natStr (n : Nat) : Str := (Nat.repr n).data

/-- Replace every occurrence of character `a` by character `b`
(Python `s.replace(a, b)` for single characters). -/
def replaceChar (a b : Char) (s : Str) : Str :=
  s.map (fun c => if c = a then b else c)

/-- Count occurrences of a character (Python `s.count(c)`). -/
def countChar (c : Char) (s : Str) : Nat :=
  (s.filter (fun x => x = c)).length

/-- The characters `str.splitlines()` treats as line boundaries:
`\n`, `\r` (with `\r\n` counting as a single break), `\v`, `\f`, the
file/group/record separators `\x1c`-`\x1e`, `\x85` (NEL), `\u2028`
(LINE SEPARATOR) and `\u2029` (PARAGRAPH SEPARATOR). -/
def isLineBoundary (c : Char) : Bool :=
  c = '\n' || c = '\r' || c = Char.ofNat 0x0b || c = Char.ofNat 0x0c ||
  c = Char.ofNat 0x1c || c = Char.ofNat 0x1d || c = Char.ofNat 0x1e ||
  c = Char.ofNat 0x85 || c = Char.ofNat 0x2028 || c = Char.ofNat 0x2029

/-- Python `str.splitlines()`. -/
def pySplitlines : Str → List Str
  | [] => []
  | s => splitGo s []
where
  /-- Accumulates the current line (reversed) while scanning. -/
  splitGo : Str → Str → List Str
  | [], acc => [acc.reverse]
  | '\r' :: '\n' :: rest, acc => acc.reverse :: splitGo rest []
  | c :: rest, acc =>
    if isLineBoundary c then acc.reverse :: splitGo rest []
    else splitGo rest (c :: acc)

/-- Python `str.lower()` (ASCII case folding; the repository only ever
lowercases ASCII marker strings). -/
def pyLower (s : Str) : Str := s.map Char.toLower

/-- Boolean infix test on lists (Python `needle in haystack` uses it on
strings: substring containment). -/
def listIsInfix (needle haystack : Str) : Bool :=
  decide (needle <:+: haystack)

/-- Python `needle in haystack` for strings: substring containment. -/
def strContains (haystack needle : Str) : Bool :=
  listIsInfix needle haystack

/-- Python `str.startswith`. -/
def strStartsWith (s pre : Str) : Bool :=
  pre.isPrefixOf s

/-- JSON values as produced by `json.loads`.  Numbers keep their source
lexeme: no claim depends on numeric arithmetic, only on which texts
decode and to which structure.  Objects are insertion-ordered key/value
lists with distinct keys (Python `dict`). -/
inductive Json where
  | null : Json
  | bool (b : Bool) : Json
  | num (lexeme : Str) : Json
  | str (s : Str) : Json
  | arr (items : List Json) : Json
  | obj (entries : List (Str × Json)) : Json

instance : Inhabited Json := ⟨Json.null⟩

/-- Insert into an object's entry list with Python `dict` semantics:
an existing key keeps its position and gets the new value, a fresh key
is appended. -/
def objInsert (entries : List (Str × Json)) (k : Str) (v : Json) :
    List (Str × Json) :=
  if entries.any (fun e => e.1 = k) then
    entries.map (fun e => if e.1 = k then (k, v) else e)
  else
    entries ++ [(k, v)]

/-- Python `dict.get` on an object's entry list. -/
def objGet (entries : List (Str × Json)) (k : Str) : Option Json :=
  (entries.find? (fun e => e.1 = k)).map (·.2)

/-- Python `key in dict` on an object's entry list. -/
def objHasKey (entries : List (Str × Json)) (k : Str) : Bool :=
  entries.any (fun e => e.1 = k)

/-- Whether a JSON number lexeme denotes zero (all of its digit
characters are `0`, as in `0`, `-0.00`, `0e5`). -/
def numLexemeIsZero (lexeme : Str) : Bool :=
  (lexeme.filter (fun c => '1' ≤ c && c ≤ '9')).isEmpty

/-- Python truthiness of a decoded JSON value (`bool(v)`). -/
def jsonTruthy : Json → Bool
  | .null => false
  | .bool b => b
  | .num lexeme => !(numLexemeIsZero lexeme)
  | .str s => !s.isEmpty
  | .arr items => !items.isEmpty
  | .obj entries => !entries.isEmpty

/-- Value of a hexadecimal digit character, if any (the per-character
content of CPython int(esc, 16) on the 4-character escape body). -/
def hexDigitVal (c : Char) : Option Nat :=
  let n := c.toNat
  if 0x30 ≤ n && n ≤ 0x39 then some (n - 0x30)
  else if 0x61 ≤ n && n ≤ 0x66 then some (n - 0x57)
  else if 0x41 ≤ n && n ≤ 0x46 then some (n - 0x37)
  else none

/-- Combine four hex digits into a code unit (the `\uXXXX` escape of
`json.loads`). -/
def hexQuad (a b c d : Char) : Option Nat :=
  match hexDigitVal a, hexDigitVal b, hexDigitVal c, hexDigitVal d with
  | some x, some y, some z, some w => some (((x * 16 + y) * 16 + z) * 16 + w)
  | _, _, _, _ => none

/-- ASCII decimal digit test. -/
def isDigitCh (c : Char) : Bool := decide ('0' ≤ c) && decide (c ≤ '9')

/-- Body of a JSON string literal, starting after the opening quote.
Returns the decoded content and the input remaining after the closing
quote.  Models CPython `json.decoder.py_scanstring` with `strict=True`:
unescaped control characters are rejected; `\uXXXX` escapes are decoded
with surrogate-pair combination.  A lone surrogate, which Python keeps
as a surrogate code unit, is mapped to U+FFFD because a Lean `Char`
cannot hold it (no claim exercises lone surrogates). -/
def parseStrBody : Nat → Str → Option (Str × Str)
  | 0, _ => none
  | _, [] => none
  | _, '"' :: rest => some ([], rest)
  | fuel + 1, '\\' :: 'u' :: u1 :: u2 :: u3 :: u4 :: '\\' :: 'u' :: w1 :: w2 :: w3 :: w4 :: rest2 =>
    match hexQuad u1 u2 u3 u4 with
    | none => none
    | some n =>
      if 0xD800 ≤ n && n ≤ 0xDBFF then
        match hexQuad w1 w2 w3 w4 with
        | none => none
        | some m =>
          if 0xDC00 ≤ m && m ≤ 0xDFFF then
            (parseStrBody fuel rest2).map (fun p =>
              (Char.ofNat (0x10000 + (n - 0xD800) * 0x400 + (m - 0xDC00)) :: p.1, p.2))
          else
            (parseStrBody fuel ('\\' :: 'u' :: w1 :: w2 :: w3 :: w4 :: rest2)).map
              (fun p => (Char.ofNat 0xFFFD :: p.1, p.2))
      else if 0xDC00 ≤ n && n ≤ 0xDFFF then
        (parseStrBody fuel ('\\' :: 'u' :: w1 :: w2 :: w3 :: w4 :: rest2)).map
          (fun p => (Char.ofNat 0xFFFD :: p.1, p.2))
      else
        (parseStrBody fuel ('\\' :: 'u' :: w1 :: w2 :: w3 :: w4 :: rest2)).map
          (fun p => (Char.ofNat n :: p.1, p.2))
  | fuel + 1, '\\' :: 'u' :: u1 :: u2 :: u3 :: u4 :: rest =>
    match hexQuad u1 u2 u3 u4 with
    | none => none
    | some n =>
      if (0xD800 ≤ n && n ≤ 0xDBFF) || (0xDC00 ≤ n && n ≤ 0xDFFF) then
        (parseStrBody fuel rest).map (fun p => (Char.ofNat 0xFFFD :: p.1, p.2))
      else
        (parseStrBody fuel rest).map (fun p => (Char.ofNat n :: p.1, p.2))
  | _, '\\' :: 'u' :: _ => none
  | fuel + 1, '\\' :: w1 :: rest =>
    match
      (if w1 = '"' then some '"'
       else if w1 = '\\' then some '\\'
       else if w1 = '/' then some '/'
       else if w1 = 'b' then some (Char.ofNat 0x08)
       else if w1 = 'f' then some (Char.ofNat 0x0c)
       else if w1 = 'n' then some '\n'
       else if w1 = 'r' then some '\r'
       else if w1 = 't' then some '\t'
       else none) with
    | none => none
    | some ch => (parseStrBody fuel rest).map (fun p => (ch :: p.1, p.2))
  | _, '\\' :: [] => none
  | fuel + 1, c :: rest =>
    if c.toNat < 0x20 then none
    else (parseStrBody fuel rest).map (fun p => (c :: p.1, p.2))

/-- The optional fraction group `(?:\.\d+)?` of CPython's `NUMBER_RE`:
consumed only when a dot is directly followed by at least one digit;
returns the consumed lexeme part and the rest. -/
def numFrac (s2 : Str) : Str × Str :=
  match s2 with
  | '.' :: r2 =>
    let ds := r2.takeWhile isDigitCh
    if ds.isEmpty then ([], s2) else ('.' :: ds, r2.dropWhile isDigitCh)
  | _ => ([], s2)

/-- The optional exponent group `(?:[eE][-+]?\d+)?` of `NUMBER_RE`:
consumed only when `e`/`E` (with an optional sign) is followed by at
least one digit. -/
def expSgn : Str → Str × Str
  | '+' :: r4 => (['+'], r4)
  | '-' :: r4 => (['-'], r4)
  | s3 => ([], s3)

def numExp (s3 : Str) : Str × Str :=
  match s3 with
  | e :: r3 =>
    if e = 'e' || e = 'E' then
      let sgnAndRest : Str × Str := expSgn r3
      let ds := sgnAndRest.2.takeWhile isDigitCh
      if ds.isEmpty then ([], s3)
      else (e :: sgnAndRest.1 ++ ds, sgnAndRest.2.dropWhile isDigitCh)
    else ([], s3)
  | _ => ([], s3)

/-- JSON number lexeme, modelling CPython's `NUMBER_RE`
`-?(?:0|[1-9]\d*)(?:\.\d+)?(?:[eE][-+]?\d+)?`: the fraction and
exponent groups are optional and are not consumed when incomplete
(`1.` matches `1` leaving `.`). Returns the matched lexeme and the
rest. -/
def numSign : Str → Str × Str
  | '-' :: r => (['-'], r)
  | s => ([], s)

def parseNum (s : Str) : Option (Str × Str) :=
  let signAndRest : Str × Str := numSign s
  match signAndRest.2 with
  | [] => none
  | c :: r =>
    if c = '0' then some (assemble signAndRest.1 ['0'] r)
    else if '1' ≤ c && c ≤ '9' then
      some (assemble signAndRest.1 (c :: r.takeWhile isDigitCh) (r.dropWhile isDigitCh))
    else none
where
  /-- Attach the optional fraction and exponent groups after the
  integer part and assemble the lexeme. -/
  assemble (sign intPart s2 : Str) : Str × Str :=
    let f := numFrac s2
    let e := numExp f.2
    (sign ++ intPart ++ f.1 ++ e.1, e.2)

/-- Skip JSON whitespace. -/
def skipWs (s : Str) : Str := s.dropWhile isJsonWs

/-- Strip an exact literal prefix (CPython compares a slice such as
`s[idx:idx + 4] == 'null'`; here the literal is peeled one character
at a time). -/
def stripLit : Str → Str → Option Str
  | [], s => some s
  | l :: ls, c :: cs => if c = l then stripLit ls cs else none
  | _ :: _, [] => none

mutual

/-- One JSON value, dispatching on the first character exactly as
CPython's `py_scan_once` does (string, object, array, then the
literals `null`, `true`, `false`, `NaN`, `Infinity`, `-Infinity` by
slice comparison, and finally the number regex). `fuel` only bounds
recursion depth; `json_loads` supplies enough for any input. -/
def parseVal : Nat → Str → Option (Json × Str)
  | 0, _ => none
  | fuel + 1, s =>
    match s with
    | [] => none
    | c :: rest =>
      if c = '"' then (parseStrBody (rest.length + 1) rest).map (fun p => (.str p.1, p.2))
      else if c = '\x7b' then
        (if (skipWs rest).head? = some '\x7d' then some (.obj [], (skipWs rest).tail)
         else parseObjRest fuel (skipWs rest) [])
      else if c = '[' then
        (if (skipWs rest).head? = some ']' then some (.arr [], (skipWs rest).tail)
         else
           match parseVal fuel (skipWs rest) with
           | none => none
           | some (v, r2) => parseArrRest fuel (skipWs r2) [v])
      else if c = 'n' then
        (match stripLit ['u', 'l', 'l'] rest with
         | some r => some (.null, r)
         | none => (parseNum s).map (fun p => (.num p.1, p.2)))
      else if c = 't' then
        (match stripLit ['r', 'u', 'e'] rest with
         | some r => some (.bool true, r)
         | none => (parseNum s).map (fun p => (.num p.1, p.2)))
      else if c = 'f' then
        (match stripLit ['a', 'l', 's', 'e'] rest with
         | some r => some (.bool false, r)
         | none => (parseNum s).map (fun p => (.num p.1, p.2)))
      else if c = 'N' then
        (match stripLit ['a', 'N'] rest with
         | some r => some (.num ['N', 'a', 'N'], r)
         | none => (parseNum s).map (fun p => (.num p.1, p.2)))
      else if c = 'I' then
        (match stripLit ['n', 'f', 'i', 'n', 'i', 't', 'y'] rest with
         | some r => some (.num ['I', 'n', 'f', 'i', 'n', 'i', 't', 'y'], r)
         | none => (parseNum s).map (fun p => (.num p.1, p.2)))
      else if c = '-' then
        (match stripLit ['I', 'n', 'f', 'i', 'n', 'i', 't', 'y'] rest with
         | some r => some (.num ['-', 'I', 'n', 'f', 'i', 'n', 'i', 't', 'y'], r)
         | none => (parseNum s).map (fun p => (.num p.1, p.2)))
      else (parseNum s).map (fun p => (.num p.1, p.2))

/-- Members of a JSON object after the opening brace (and any
whitespace), when the object is not empty: expects a quoted key,
`:`, a value, and then `,` (more members) or the closing brace
(done), checking each delimiter character the way CPython's
`py_make_scanner` object parser does.  Duplicate keys follow Python
`dict` assignment via `objInsert`. -/
def parseObjRest : Nat → Str → List (Str × Json) → Option (Json × Str)
  | 0, _, _ => none
  | fuel + 1, s, acc =>
    match s with
    | [] => none
    | c :: r1 =>
      if c = '"' then
        (match parseStrBody (r1.length + 1) r1 with
         | none => none
         | some (key, r2) =>
           if (skipWs r2).head? = some ':' then
             match parseVal fuel (skipWs ((skipWs r2).tail)) with
             | none => none
             | some (v, r4) =>
               if (skipWs r4).head? = some ',' then
                 parseObjRest fuel (skipWs ((skipWs r4).tail)) (objInsert acc key v)
               else if (skipWs r4).head? = some '\x7d' then
                 some (.obj (objInsert acc key v), (skipWs r4).tail)
               else none
           else none)
      else none

/-- Items of a JSON array after the first item: expects `,` (another
item) or `]` (done). -/
def parseArrRest : Nat → Str → List Json → Option (Json × Str)
  | 0, _, _ => none
  | fuel + 1, s, acc =>
    match s with
    | [] => none
    | c :: r =>
      if c = ']' then some (.arr acc.reverse, r)
      else if c = ',' then
        (match parseVal fuel (skipWs r) with
         | none => none
         | some (v, r2) => parseArrRest fuel (skipWs r2) (v :: acc))
      else none

end

/-- Python `json.loads`: decode one JSON value, allowing surrounding
whitespace and rejecting any trailing data. -/
def json_loads (s : Str) : Option Json :=
  match parseVal (2 * s.length + 2) (skipWs s) with
  | some (v, rest) => if (skipWs rest).isEmpty then some v else none
  | none => none

/-- The three-backtick fence marker. -/
def fence3 : Str := ['`', '`', '`']

/-- The fence-scanning loop of `_strip_code_block`
(`src/webcrawlagent/llm/gemini_client.py`): before the first fence line
every line is skipped; after it, lines are collected until the next
fence line. -/
def collectBody : List Str → Bool → List Str
  | [], _ => []
  | line :: rest, started =>
    let fence := strStartsWith (pyStrip line) fence3
    if !started then collectBody rest (started || fence)
    else if fence then []
    else line :: collectBody rest true

/-- `_strip_code_block` from `gemini_client.py`: strip the text; if it
does not start with a fence return it; otherwise collect the lines of
the first fenced block, and return the whole stripped text when that
body is empty, else the stripped joined body. -/
def _strip_code_block (text : Str) : Str :=
  let stripped := pyStrip text
  if !(strStartsWith stripped fence3) then stripped
  else
    let body := collectBody (pySplitlines stripped) false
    if body.isEmpty then stripped
    else pyStrip (joinSep ['\n'] body)

/-- Auto-closing step of `_try_extract_partial_json`: append one `}`
per unbalanced `{` and then one `]` per unbalanced `[` (counts taken on
the original candidate; Python's `> 0` guards coincide with truncated
`Nat` subtraction). -/
def autoClose (cand : Str) : Str :=
  cand ++ List.replicate (countChar '{' cand - countChar '}' cand) '}'
       ++ List.replicate (countChar '[' cand - countChar ']' cand) ']'

/-- One iteration of the truncation loop: the candidate
`text[start_idx : len(text) - end_offset]`, auto-closed, parsed, and
accepted only when it is a non-empty mapping. -/
def tryCandidate (text : Str) (startIdx endOffset : Nat) :
    Option (List (Str × Json)) :=
  let candidate := (text.take (text.length - endOffset)).drop startIdx
  match json_loads (autoClose candidate) with
  | some (.obj entries) => if entries.isEmpty then none else some entries
  | _ => none

/-- The `for end_offset in range(0, len(text) - start_idx)` loop:
try offsets `k, k+1, ...` for `n` steps, returning the first accepted
candidate. -/
def scanTruncations (text : Str) (startIdx : Nat) :
    Nat → Nat → Option (List (Str × Json))
  | _, 0 => none
  | k, n + 1 =>
    match tryCandidate text startIdx k with
    | some m => some m
    | none => scanTruncations text startIdx (k + 1) n

/-- `lit.isPrefixOf s` returning the rest on success (helper for the
regex model). -/
def dropLit (lit s : Str) : Option Str :=
  if lit.isPrefixOf s then some (s.drop lit.length) else none

/-- One anchored attempt of the pattern
`"overview"\s*:\s*"([^"]*(?:\\.[^"]*)*)"` at the start of `s`.
Because `[^"]*` only stops at a quote (or the end), the
`(?:\\.[^"]*)*` alternation never consumes anything, so the capture is
exactly the maximal quote-free run; `\s` is Python's Unicode
whitespace. -/
def overviewMatchAt (s : Str) : Option Str :=
  match dropLit ['"', 'o', 'v', 'e', 'r', 'v', 'i', 'e', 'w', '"'] s with
  | none => none
  | some s1 =>
    match s1.dropWhile isPyWs with
    | ':' :: s3 =>
      (match s3.dropWhile isPyWs with
       | '"' :: s5 =>
         let grp := s5.takeWhile (fun c => c ≠ '"')
         (match s5.dropWhile (fun c => c ≠ '"') with
          | '"' :: _ => some grp
          | _ => none)
       | _ => none)
    | _ => none

/-- `re.search` for the overview pattern: leftmost successful anchored
attempt. -/
def overviewSearch : Str → Option Str
  | [] => none
  | c :: rest =>
    match overviewMatchAt (c :: rest) with
    | some grp => some grp
    | none => overviewSearch rest

/-- Python `s.replace(ab, r)` for a two-character pattern replaced by a
single character (left-to-right, non-overlapping). -/
def replace2 (a b rep : Char) : Str → Str
  | [] => []
  | [x] => [x]
  | x :: y :: rest =>
    if x = a && y = b then rep :: replace2 a b rep rest
    else x :: replace2 a b rep (y :: rest)

/-- `_try_extract_partial_json` from `gemini_client.py`: strip, locate
the first `{`; try every truncation length in increasing order of
characters removed from the tail, auto-closing and accepting the first
candidate that parses to a non-empty mapping; otherwise scrape the
`overview` field with the regex and synthesize a minimal mapping;
otherwise return `None`. -/
def _try_extract_partial_json (text0 : Str) : Option (List (Str × Json)) :=
  let text := pyStrip text0
  match text.findIdx? (fun c => c = '{') with
  | none => none
  | some start_idx =>
    match scanTruncations text start_idx 0 (text.length - start_idx) with
    | some m => some m
    | none =>
      match overviewSearch text with
      | some grp =>
        let overview := replace2 '\\' 'n' '\n' (replace2 '\\' '"' '"' grp)
        some [(['o', 'v', 'e', 'r', 'v', 'i', 'e', 'w'], .str overview),
              ("content_type".data, .str "document".data),
              ("sections".data,
               .obj [("note".data,
                 .arr [.str "JSON response was incomplete. Only partial data extracted.".data])])]
      | none => none

/-- The fixed prefix of the invalid-JSON `GeminiContentError` message. -/
def invalidJsonMsg : Str := "Gemini returned invalid JSON: ".data

/-- The preview construction of `_parse_summary_text`: strip, replace
newlines by spaces, and cut to 237 characters plus `...` when longer
than 240. -/
def preview240 (cleaned : Str) : Str :=
  let preview := replaceChar '\n' ' ' (pyStrip cleaned)
  if 240 < preview.length then preview.take 237 ++ ['.', '.', '.'] else preview

/-- `_parse_summary_text` from `gemini_client.py`: strip a fenced code
block, strictly decode, fall back to partial extraction, and otherwise
fail with a `GeminiContentError` carrying the bounded preview (the
`Except` error is the exception's message). -/
def _parse_summary_text (text : Str) : Except Str Json :=
  let cleaned := _strip_code_block text
  match json_loads cleaned with
  | some v => .ok v
  | none =>
    match _try_extract_partial_json cleaned with
    | some entries =>
      if entries.isEmpty then .error (invalidJsonMsg ++ preview240 cleaned)
      else .ok (.obj entries)
    | none => .error (invalidJsonMsg ++ preview240 cleaned)

/-- Modelled from the spec: page records of a `CrawlResult`
(`webcrawlagent.crawler.extractor` is not under `src/`); §3 lists
"url, title, description, status, word count, headings" as attributes
of each crawled page. -/
structure PageRecord where
  url : Str
  title : Str
  description : Str
  status : Nat
  word_count : Nat
  headings : List Str

/-- Modelled from the spec: `CrawlResult` is an "ordered sequence of
page records"; its prompt-text accessor (`aggregate_text`) feeds only
the prompt builder, which no claim touches, and is omitted. -/
structure CrawlResult where
  pages : List PageRecord

/-- Modelled from the spec: the per-page summaries inside an
`AnalysisSummary` are "mapping-like records", i.e. Python dicts whose
keys may be absent; the fields are the ones `build_fallback_summary`
reads with `dict.get`. -/
structure PageSummaryRecord where
  title : Option Str
  description : Option Str
  headings : Option (List Str)
  word_count : Option Nat
  status : Option Nat

/-- Modelled from the spec (§3): root URL, total page count,
internal/external link counts, top headings, extracted keywords,
detected call-to-action phrases, per-page summaries. -/
structure AnalysisSummary where
  root_url : Str
  total_pages : Nat
  internal_links : Nat
  external_links : Nat
  top_headings : List Str
  keywords : List Str
  ctas : List Str
  page_summaries : List PageSummaryRecord

/-- Python f-string rendering of an `Option`al string (`None` prints as
`None`). -/
def showOptStr : Option Str → Str
  | none => ['N', 'o', 'n', 'e']
  | some s => s

/-- Python f-string rendering of an `Option`al non-negative int. -/
def showOptNat : Option Nat → Str
  | none => ['N', 'o', 'n', 'e']
  | some n => natStr n

/-- `SiteSummary` from `report/models.py`.  The dataclass declares
`str`/`dict`/`list` annotations but Python does not enforce them, and
`from_llm_payload` stores whatever the decoded payload held, so the
fields are modelled as JSON values. -/
structure SiteSummary where
  overview : Json
  content_type : Json
  sections : Json
  highlights : Option Json := none
  recommendations : Option Json := none

/-- Truthiness of `payload.get(k)` (`None` when the key is absent). -/
def pyGetTruthy (payload : List (Str × Json)) (k : Str) : Bool :=
  match objGet payload k with
  | some v => jsonTruthy v
  | none => false

/-- `SiteSummary.from_llm_payload` from `report/models.py`. -/
def SiteSummary.from_llm_payload (payload : List (Str × Json)) : SiteSummary :=
  if objHasKey payload "sections".data &&
      (match objGet payload "sections".data with
       | some (.obj _) => true
       | _ => false) then
    { overview := (objGet payload "overview".data).getD (.str [])
      content_type := (objGet payload "content_type".data).getD (.str "document".data)
      sections := (objGet payload "sections".data).getD (.obj [])
      highlights := objGet payload "highlights".data
      recommendations := objGet payload "recommendations".data }
  else
    let sections_dict : List (Str × Json) :=
      (if pyGetTruthy payload "sections".data then
        [("key_sections".data, (objGet payload "sections".data).getD (.arr []))]
      else []) ++
      (if pyGetTruthy payload "highlights".data then
        [("highlights".data, (objGet payload "highlights".data).getD (.arr []))]
      else []) ++
      (if pyGetTruthy payload "recommendations".data then
        [("recommendations".data, (objGet payload "recommendations".data).getD (.arr []))]
      else [])
    { overview := (objGet payload "overview".data).getD (.str [])
      content_type := (objGet payload "content_type".data).getD (.str "website".data)
      sections := .obj sections_dict
      highlights := objGet payload "highlights".data
      recommendations := objGet payload "recommendations".data }

/-- The per-page line of `build_fallback_summary`: the description, or
the joined headings, or a word-count/status placeholder, prefixed with
the page title (Python's `or` chain on string truthiness). -/
def fallbackPageLine (page : PageSummaryRecord) : Str :=
  let desc := page.description.getD []
  let joined := joinSep [' ', '/', ' '] (page.headings.getD [])
  let placeholder :=
    natStr (page.word_count.getD 0) ++ " words (status ".data ++
      showOptNat page.status ++ [')']
  let snippet :=
    if !desc.isEmpty then desc
    else if !joined.isEmpty then joined
    else placeholder
  showOptStr page.title ++ [':', ' '] ++ snippet

/-- The two fixed recommendation lines of `build_fallback_summary`. -/
def fallbackRecommendations : List Str :=
  ["Review the crawler output manually because the LLM blocked the content.".data,
   "Retry with sanitized text or a different site if you need an AI-authored summary.".data]

/-- `build_fallback_summary` from `llm/summary.py`. -/
def build_fallback_summary (crawl : CrawlResult) (analysis : AnalysisSummary)
    (reason : Str) : SiteSummary :=
  let sections_list0 := (analysis.page_summaries.take 3).map fallbackPageLine
  let sections_list :=
    if sections_list0.isEmpty then
      match crawl.pages with
      | [] => sections_list0
      | first_page :: _ =>
        [(if !first_page.title.isEmpty then first_page.title else first_page.url) ++
          [':', ' '] ++ first_page.description]
    else sections_list0
  let highlights :=
    (if analysis.keywords.isEmpty then []
     else ["Top keywords: ".data ++ joinSep [',', ' '] (analysis.keywords.take 6)]) ++
    ["Internal links: ".data ++ natStr analysis.internal_links ++
      " · External links: ".data ++ natStr analysis.external_links] ++
    (if analysis.ctas.isEmpty then []
     else ["Detected CTAs: ".data ++ joinSep [',', ' '] (analysis.ctas.take 5)])
  let overview :=
    "Crawled ".data ++ natStr analysis.total_pages ++ " page(s) from ".data ++
      analysis.root_url ++ ". LLM output unavailable (".data ++ reason ++
      "); showing crawler-derived summary.".data
  { overview := .str overview
    content_type := .str "website".data
    sections := .obj
      [("key_sections".data,
        .arr ((if sections_list.isEmpty then [analysis.root_url] else sections_list).map .str)),
       ("highlights".data, .arr (highlights.map .str)),
       ("recommendations".data, .arr (fallbackRecommendations.map .str))]
    highlights := some (.arr (highlights.map .str))
    recommendations := some (.arr (fallbackRecommendations.map .str)) }

/-- The `RuntimeError` message `GeminiClient.summarize_site` raises
when no credential is configured — the spec's `ConfigurationError`. -/
def gemini_missing_key_msg : Str :=
  "GEMINI_API_KEY is not configured. Please set a valid API key in your environment variables or .env file.".data

/-- Outcome of `await self.llm.summarize_site(crawl, analysis)` as seen
by `CrawlAgentService.run`: a summary, or one of the exception classes
the surrounding `try` distinguishes (`RuntimeError`,
`LLMContentError`, anything else). -/
inductive LlmAttempt where
  | success (s : SiteSummary)
  | runtimeError (msg : Str)
  | llmContentError (msg : Str)
  | otherError (msg : Str)

/-- The summarizing stage of `CrawlAgentService.run`
(`app/service.py` lines 45-67): `RuntimeError`s whose message passes
the code's credential test and every `LLMContentError` are absorbed
into `build_fallback_summary`; every other failure propagates
(`Except.error`).  The second disjunct of each credential test is the
code's literal `"API key" in error_msg.lower()` — a mixed-case needle
searched in a lowercased haystack, so it can never match (proved in
`strContains_pyLower_apikey`); the live condition is membership of
`API_KEY` (resp. `API Key not found`). -/
def run_summarize_stage (attempt : LlmAttempt) (crawl : CrawlResult)
    (analysis : AnalysisSummary) : Except Str SiteSummary :=
  match attempt with
  | .success s => .ok s
  | .runtimeError msg =>
    if strContains msg "API_KEY".data ||
        strContains (pyLower msg) "API key".data then
      .ok (build_fallback_summary crawl analysis
        ("API key configuration error: ".data ++ msg))
    else .error msg
  | .llmContentError msg =>
    let reason :=
      if strContains msg "API Key not found".data ||
          strContains (pyLower msg) "API key".data then
        "API key error: ".data ++ msg
      else msg
    .ok (build_fallback_summary crawl analysis reason)
  | .otherError msg => .error msg

/-- Split a string on a separator character (used for `/`-separated
path components). -/
def splitOnChar (c : Char) (s : Str) : List Str := splitGo s []
where
  /-- Accumulates the current piece (reversed) while scanning. -/
  splitGo : Str → Str → List Str
  | [], acc => [acc.reverse]
  | x :: rest, acc =>
    if x = c then acc.reverse :: splitGo rest []
    else splitGo rest (x :: acc)

/-- `Path.resolve()` on `base / fileName` modelled over absolute-path
component lists: `..` pops a component, `.` and empty components vanish
(symbolic links are not modelled). -/
def resolveComponents (base : List Str) (parts : List Str) : List Str :=
  parts.foldl
    (fun acc p =>
      if p = ['.', '.'] then acc.dropLast
      else if p = ['.'] || p.isEmpty then acc
      else acc ++ [p])
    base

/-- `str(path)` for an absolute component list. -/
def pathToStr (comps : List Str) : Str := ['/'] ++ joinSep ['/'] comps

/-- `download_report` from `app/api.py`: resolve
`report_dir / file_name` and serve it only when its string form starts
with the report directory's string form and the file exists
(`fileExists` abstracts the filesystem).  `none` is the 404
rejection. -/
def download_report (report_dir : List Str) (fileExists : List Str → Bool)
    (file_name : Str) : Option (List Str) :=
  let safe_path := resolveComponents report_dir (splitOnChar '/' file_name)
  if strStartsWith (pathToStr safe_path) (pathToStr report_dir) &&
      fileExists safe_path then
    some safe_path
  else
    none

/-- Whether a resolved path lies inside a directory: the directory's
components are a prefix of the path's components. -/
def insideDir (dir path : List Str) : Prop := dir <+: path

/-- Events of the `/api/stream` SSE generator (`app/api.py`): progress
statuses, the final summary payload, or a terminal error.  The summary
and error payloads are kept abstract as their serialized text. -/
inductive StreamEv where
  | status (msg : Str)
  | summaryEv (payload : Str)
  | errorEv (msg : Str)

/-- The terminal event of a run: `summary` when `await task` returns,
`error` when it raises. -/
def terminalEv : Except Str Str → StreamEv
  | .ok payload => .summaryEv payload
  | .error msg => .errorEv msg

/-- Joint state of the producer task (`service.run` emitting progress
into the `asyncio.Queue`) and the consumer loop of `stream`:
`pending` are the status messages the producer has not yet emitted,
`finished` is `task.done()`, `queue` the FIFO queue contents, `out`
the events yielded to the SSE consumer so far, and `closed` whether the
generator has returned. -/
structure StreamState where
  pending : List Str
  finished : Bool
  queue : List StreamEv
  out : List StreamEv
  closed : Bool

/-- Initial state of a run that will emit `msgs` before completing. -/
def streamInit (msgs : List Str) : StreamState :=
  ⟨msgs, false, [], [], false⟩

/-- Interleaved small-step semantics of the producer/consumer pair of
`stream` (cancellation paths excluded — the claim is about runs that
complete).  `prodPut` is `await queue.put(...)` from the progress
hook; `prodFinish` is the task completing (every put precedes it);
`consGet` is a successful `asyncio.wait_for(queue.get(), 0.2)` followed
by the yield; `consClose` is the loop-top exit (`task.done() and
queue.empty()`) followed by `await task` and the yield of the single
terminal event.  `consTimeoutClose` is the timeout branch's exit
(`except asyncio.TimeoutError: if task.done(): break`), which checks
only `task.done()` and not `queue.empty()`: it is reachable with a
non-empty queue under the schedule in which `wait_for` times out on an
empty queue and the producer then enqueues its remaining statuses and
finishes before the consumer's `done()` check runs, so the queued
events are never yielded. -/
inductive StreamStep (res : Except Str Str) : StreamState → StreamState → Prop where
  | prodPut (m : Str) (rest : List Str) (q : List StreamEv) (out : List StreamEv) :
      StreamStep res ⟨m :: rest, false, q, out, false⟩
        ⟨rest, false, q ++ [.status m], out, false⟩
  | prodFinish (q : List StreamEv) (out : List StreamEv) :
      StreamStep res ⟨[], false, q, out, false⟩ ⟨[], true, q, out, false⟩
  | consGet (p : List Str) (f : Bool) (e : StreamEv) (q : List StreamEv)
      (out : List StreamEv) :
      StreamStep res ⟨p, f, e :: q, out, false⟩ ⟨p, f, q, out ++ [e], false⟩
  | consClose (out : List StreamEv) :
      StreamStep res ⟨[], true, [], out, false⟩
        ⟨[], true, [], out ++ [terminalEv res], true⟩
  | consTimeoutClose (q : List StreamEv) (out : List StreamEv) :
      StreamStep res ⟨[], true, q, out, false⟩
        ⟨[], true, q, out ++ [terminalEv res], true⟩

/-- Reachability under the stream semantics. -/
def StreamReach (res : Except Str Str) : StreamState → StreamState → Prop :=
  Relation.ReflTransGen (StreamStep res)

/-- Continuation-byte test for UTF-8. -/
def isContByte (b : Nat) : Bool := 0x80 ≤ b && b ≤ 0xBF

/-- Strict UTF-8 decoding of a byte sequence (Python
`bytes.decode("utf-8")`): RFC 3629 ranges, rejecting overlong forms,
surrogates and code points above U+10FFFF. -/
def utf8DecodeBytes : List Nat → Option Str
  | [] => some []
  | b :: rest =>
    if b ≤ 0x7F then (utf8DecodeBytes rest).map (Char.ofNat b :: ·)
    else if b < 0xC2 then none
    else if b ≤ 0xDF then
      match rest with
      | c1 :: r =>
        if isContByte c1 then
          (utf8DecodeBytes r).map (Char.ofNat ((b - 0xC0) * 0x40 + (c1 - 0x80)) :: ·)
        else none
      | [] => none
    else if b ≤ 0xEF then
      match rest with
      | c1 :: c2 :: r =>
        if ((if b = 0xE0 then 0xA0 else 0x80) ≤ c1 &&
            c1 ≤ (if b = 0xED then 0x9F else 0xBF)) && isContByte c2 then
          (utf8DecodeBytes r).map
            (Char.ofNat (((b - 0xE0) * 0x40 + (c1 - 0x80)) * 0x40 + (c2 - 0x80)) :: ·)
        else none
      | _ => none
    else if b ≤ 0xF4 then
      match rest with
      | c1 :: c2 :: c3 :: r =>
        if ((if b = 0xF0 then 0x90 else 0x80) ≤ c1 &&
            c1 ≤ (if b = 0xF4 then 0x8F else 0xBF)) && isContByte c2 && isContByte c3 then
          (utf8DecodeBytes r).map
            (Char.ofNat ((((b - 0xF0) * 0x40 + (c1 - 0x80)) * 0x40 + (c2 - 0x80)) * 0x40
              + (c3 - 0x80)) :: ·)
        else none
      | _ => none
    else none

/-- Latin-1 decoding (Python `bytes.decode("latin-1")`): every byte
value maps directly to the code point of the same value, so it is
defined on every byte (`< 256`) sequence. -/
def latin1DecodeBytes (bs : List Nat) : Option Str :=
  if bs.all (fun b => b < 256) then some (bs.map Char.ofNat) else none

/-- Lossy UTF-8 decoding (Python `decode("utf-8", errors="replace")`).
One replacement character per rejected byte; Python can merge several
bytes of a truncated sequence into one replacement, but this branch is
proved unreachable (see the claim on `extract_text_from_file`), so the
difference is never observable. -/
def lossyUtf8Decode : List Nat → Str
  | [] => []
  | b :: [] => if b ≤ 0x7F then [Char.ofNat b] else [Char.ofNat 0xFFFD]
  | b :: c1 :: r =>
    if b ≤ 0x7F then Char.ofNat b :: lossyUtf8Decode (c1 :: r)
    else if 0xC2 ≤ b && b ≤ 0xDF then
      (if isContByte c1 then Char.ofNat ((b - 0xC0) * 0x40 + (c1 - 0x80)) :: lossyUtf8Decode r
       else Char.ofNat 0xFFFD :: lossyUtf8Decode (c1 :: r))
    else Char.ofNat 0xFFFD :: lossyUtf8Decode (c1 :: r)

/-- The text-file decode chain of `extract_text_from_file`
(`utils/document.py` lines 15-22): UTF-8, then Latin-1, then lossy
UTF-8. -/
def decode_text_bytes (content : List Nat) : Str :=
  match utf8DecodeBytes content with
  | some s => s
  | none =>
    match latin1DecodeBytes content with
    | some s => s
    | none => lossyUtf8Decode content

/-- Last index of a character in a string (`str.rfind`), if any. -/
def rfindIdx (c : Char) (s : Str) : Option Nat :=
  match s.reverse.findIdx? (fun x => x = c) with
  | none => none
  | some j => some (s.length - 1 - j)

/-- `PurePath.name`: the last non-empty `/`-separated component. -/
def pathName (s : Str) : Str :=
  (((splitOnChar '/' s).filter (fun piece => !piece.isEmpty)).getLast?).getD []

/-- `Path(filename).suffix.lower()`: the final component's extension
including the dot, empty when the only dot is leading or trailing. -/
def pySuffixLower (filename : Str) : Str :=
  let name := pathName filename
  match rfindIdx '.' name with
  | none => []
  | some i =>
    if 0 < i && i < name.length - 1 then pyLower (name.drop i) else []

/-- `extract_text_from_file` from `utils/document.py`.  The PDF branch
delegates to the external `PyPDF2` library and is abstracted as the
`pdfExtract` parameter; no claim depends on it. -/
def extract_text_from_file (pdfExtract : List Nat → Except Str Str)
    (filename : Str) (content : List Nat) : Except Str Str :=
  let ext := pySuffixLower filename
  if ext = ".txt".data || ext = ".md".data || ext = ".markdown".data then
    .ok (decode_text_bytes content)
  else if ext = ".pdf".data then pdfExtract content
  else
    match utf8DecodeBytes content with
    | some s => .ok s
    | none =>
      match latin1DecodeBytes content with
      | some s => .ok s
      | none =>
        .error ("Unsupported file type: ".data ++ ext ++
          ". Supported types: .txt, .md, .pdf".data)


/-- Spec-side transcription (claim C7) of the per-page line rule:
"one line using, in priority order, its description, else its joined
headings, else a `N words, status S` placeholder", prefixed by the
page's title.  Written as first-truthy selection to be compared with
the `or`-chain in `build_fallback_summary`. -/
def claimC7Line (page : PageSummaryRecord) : Str :=
  let snippet :=
    match [page.description.getD [],
           joinSep [' ', '/', ' '] (page.headings.getD [])].filter
        (fun s => !s.isEmpty) with
    | s :: _ => s
    | [] =>
      natStr (page.word_count.getD 0) ++ " words (status ".data ++
        showOptNat page.status ++ [')']
  showOptStr page.title ++ [':', ' '] ++ snippet

/-- Spec-side transcription (claim C7) of the `key_sections` content:
one line for each of at most the first 3 page summaries; when there are
no page summaries but at least one crawled page exists, a line from
that page's title/url and description instead; the root URL when there
is nothing at all. -/
def claimC7KeySections (crawl : CrawlResult) (analysis : AnalysisSummary) : List Str :=
  if analysis.page_summaries.isEmpty then
    match crawl.pages with
    | first_page :: _ =>
      [(if !first_page.title.isEmpty then first_page.title else first_page.url) ++
        [':', ' '] ++ first_page.description]
    | [] => [analysis.root_url]
  else
    (analysis.page_summaries.take 3).map claimC7Line

/-- Spec-side transcription (claim C7) of the highlight lines: the
first 6 top keywords (when any), the internal/external link counts,
and the first 5 detected CTAs (when any). -/
def claimC7Highlights (analysis : AnalysisSummary) : List Str :=
  [if analysis.keywords.isEmpty then none
   else some ("Top keywords: ".data ++ joinSep [',', ' '] (analysis.keywords.take 6)),
   some ("Internal links: ".data ++ natStr analysis.internal_links ++
     " · External links: ".data ++ natStr analysis.external_links),
   if analysis.ctas.isEmpty then none
   else some ("Detected CTAs: ".data ++ joinSep [',', ' '] (analysis.ctas.take 5))].reduceOption

/-- A text wrapped in a single leading fenced code block: opening fence
line (with an optional language tag), body lines, closing fence, and
arbitrary discarded text after the closing fence (claim C6). -/
def mkFenced (tag : Str) (bodyLines : List Str) (post : Str) : Str :=
  fence3 ++ tag ++ ['\n'] ++ joinSep ['\n'] bodyLines ++ ['\n'] ++ fence3 ++ post

/-- Sample crawled page for concrete witnesses. -/
def samplePage : PageRecord :=
  { url := "https://example.com".data
    title := "Example".data
    description := "An example site.".data
    status := 200
    word_count := 120
    headings := ["Home".data] }

/-- Sample crawl result for concrete witnesses. -/
def sampleCrawl : CrawlResult := { pages := [samplePage] }

/-- Sample analysis for concrete witnesses. -/
def sampleAnalysis : AnalysisSummary :=
  { root_url := "https://example.com".data
    total_pages := 1
    internal_links := 3
    external_links := 2
    top_headings := []
    keywords := ["alpha".data]
    ctas := []
    page_summaries := [] }

/-- Extend an infix on the left. -/
theorem infix_ext_left (l₁ : Str) {l l₂ : Str} (h : l <:+: l₂) : l <:+: l₁ ++ l₂ :=
  h.trans (List.suffix_append l₁ l₂).isInfix

/-- Extend an infix on the right. -/
theorem infix_ext_right (l₃ : Str) {l l₂ : Str} (h : l <:+: l₂) : l <:+: l₂ ++ l₃ :=
  h.trans (List.prefix_append l₂ l₃).isInfix

/-- C3: for every CrawlResult, every AnalysisSummary (including one
with zero pages, zero keywords, and zero CTAs), and every reason
string, fallback-summary construction never raises (it is a total
function); the produced summary's sections mapping always contains the
key `key_sections`, and its overview mentions the total page count and
embeds the failure reason verbatim, containing the text
`LLM output unavailable`. -/
theorem claim_C3_fallback_never_fails
    (crawl : CrawlResult) (analysis : AnalysisSummary) (reason : Str) :
    (∃ entries, (build_fallback_summary crawl analysis reason).sections = .obj entries ∧
      objHasKey entries "key_sections".data = true) ∧
    (∃ o, (build_fallback_summary crawl analysis reason).overview = .str o ∧
      natStr analysis.total_pages <:+: o ∧
      reason <:+: o ∧
      "LLM output unavailable".data <:+: o) := by
  constructor
  · exact ⟨_, rfl, by simp [objHasKey]⟩
  · refine ⟨"Crawled ".data ++ natStr analysis.total_pages ++ " page(s) from ".data ++
      analysis.root_url ++ ". LLM output unavailable (".data ++ reason ++
      "); showing crawler-derived summary.".data, rfl, ?_, ?_, ?_⟩
    · exact infix_ext_right _ (infix_ext_right _ (infix_ext_right _ (infix_ext_right _
        (infix_ext_right _ ((List.suffix_append _ _).isInfix)))))
    · exact infix_ext_right _ ((List.suffix_append _ _).isInfix)
    · refine infix_ext_right _ (infix_ext_right _ (List.IsInfix.trans ?_
        ((List.suffix_append _ ". LLM output unavailable (".data).isInfix)))
      decide

/-- `str.lower()` never produces an uppercase `A`. -/
theorem toLower_ne_A (c : Char) : c.toLower ≠ 'A' := by
  unfold Char.toLower
  simp only []
  by_cases h : c.toNat ≥ 65 ∧ c.toNat ≤ 90
  · rw [if_pos h]
    obtain ⟨h1, h2⟩ := h
    intro he
    set n := c.toNat with hn
    interval_cases n <;> exact absurd he (by decide)
  · rw [if_neg h]
    intro he
    subst he
    exact h (by constructor <;> decide)

/-- The code's check `"API key" in error_msg.lower()` is dead: the
needle contains an uppercase `A`, the lowercased haystack never
does. -/
theorem strContains_pyLower_apikey (s : Str) :
    strContains (pyLower s) "API key".data = false := by
  unfold strContains listIsInfix
  rw [decide_eq_false_iff_not]
  intro hinf
  have hA : 'A' ∈ pyLower s := hinf.subset (by decide)
  rw [pyLower] at hA
  obtain ⟨a, _, ha⟩ := List.mem_map.mp hA
  exact toLower_ne_A a ha

/-- C2: during the summarizing stage, every `RuntimeError` that passes
the code's credential test — membership of `API_KEY` in the message,
which covers every credential `RuntimeError` this repository raises,
the spec's `ConfigurationError` — and every `LLMContentError` are
absorbed into a deterministic `build_fallback_summary`, so the run
completes with a report; the fallback transition happens on exactly
those error kinds and no others — any other failure propagates to the
caller, including every `RuntimeError` whose message lacks `API_KEY`
(the code's other disjunct, lowercased-haystack search for the
mixed-case needle `API key`, can never match). -/
theorem claim_C2_summarize_stage_fallback :
    (∀ msg crawl analysis,
      strContains msg "API_KEY".data = true →
      run_summarize_stage (.runtimeError msg) crawl analysis =
        .ok (build_fallback_summary crawl analysis
          ("API key configuration error: ".data ++ msg))) ∧
    (∀ msg crawl analysis, ∃ reason,
      run_summarize_stage (.llmContentError msg) crawl analysis =
        .ok (build_fallback_summary crawl analysis reason)) ∧
    (∀ msg crawl analysis,
      run_summarize_stage (.otherError msg) crawl analysis = .error msg) ∧
    (∀ msg crawl analysis,
      strContains msg "API_KEY".data = false →
      run_summarize_stage (.runtimeError msg) crawl analysis = .error msg) := by
  refine ⟨fun msg crawl analysis h => ?_, fun msg crawl analysis => ⟨_, rfl⟩,
    fun msg crawl analysis => rfl, fun msg crawl analysis h1 => ?_⟩
  · simp [run_summarize_stage, h]
  · have h2 := strContains_pyLower_apikey msg
    simp [run_summarize_stage, h1, h2]

/-- C2 witness: the client's missing-credential message is absorbed
into the fallback, a non-credential failure propagates, and a
`RuntimeError` mentioning `api key` only in lowercase also propagates
(the mixed-case needle never fires). -/
theorem claim_C2_summarize_stage_fallback_witness :
    run_summarize_stage (.runtimeError gemini_missing_key_msg) sampleCrawl sampleAnalysis =
      .ok (build_fallback_summary sampleCrawl sampleAnalysis
        ("API key configuration error: ".data ++ gemini_missing_key_msg)) ∧
    run_summarize_stage (.otherError "browser crashed".data) sampleCrawl sampleAnalysis =
      .error "browser crashed".data ∧
    run_summarize_stage (.runtimeError "bad api key".data) sampleCrawl sampleAnalysis =
      .error "bad api key".data :=
  ⟨claim_C2_summarize_stage_fallback.1 gemini_missing_key_msg sampleCrawl sampleAnalysis
     (by decide),
   claim_C2_summarize_stage_fallback.2.2.1 "browser crashed".data sampleCrawl sampleAnalysis,
   claim_C2_summarize_stage_fallback.2.2.2 "bad api key".data sampleCrawl sampleAnalysis
     (by decide)⟩

/-- The claim-side per-page line coincides with the implementation's
`or`-chain. -/
theorem claimC7Line_eq_fallbackPageLine (page : PageSummaryRecord) :
    claimC7Line page = fallbackPageLine page := by
  unfold claimC7Line fallbackPageLine
  by_cases hd : (page.description.getD []).isEmpty <;>
    by_cases hh : (joinSep [' ', '/', ' '] (page.headings.getD [])).isEmpty <;>
      simp [hd, hh, List.filter]

/-- C7: the fallback summary's content follows the fixed rules: one
line for each of at most the first 3 page summaries (description, else
joined headings, else word-count/status placeholder), the first
crawled page's title/url and description when there are no page
summaries, highlight lines from the first 6 keywords, the link counts
and the first 5 CTAs, and exactly two fixed recommendation lines
(manual review, retry). -/
theorem claim_C7_fallback_content_rules
    (crawl : CrawlResult) (analysis : AnalysisSummary) (reason : Str) :
    (build_fallback_summary crawl analysis reason).sections =
      .obj [("key_sections".data, .arr ((claimC7KeySections crawl analysis).map .str)),
            ("highlights".data, .arr ((claimC7Highlights analysis).map .str)),
            ("recommendations".data, .arr (fallbackRecommendations.map .str))] ∧
    fallbackRecommendations.length = 2 := by
  refine ⟨?_, rfl⟩
  have hl : claimC7Highlights analysis =
      (if analysis.keywords.isEmpty then []
       else ["Top keywords: ".data ++ joinSep [',', ' '] (analysis.keywords.take 6)]) ++
      ["Internal links: ".data ++ natStr analysis.internal_links ++
        " · External links: ".data ++ natStr analysis.external_links] ++
      (if analysis.ctas.isEmpty then []
       else ["Detected CTAs: ".data ++ joinSep [',', ' '] (analysis.ctas.take 5)]) := by
    by_cases hk : analysis.keywords.isEmpty <;> by_cases hc : analysis.ctas.isEmpty <;>
      simp [claimC7Highlights, hk, hc, List.reduceOption]
  unfold build_fallback_summary
  rw [← hl]
  cases hps : analysis.page_summaries with
  | nil =>
    cases hpg : crawl.pages with
    | nil => simp [claimC7KeySections, hps, hpg]
    | cons p ps => simp [claimC7KeySections, hps, hpg]
  | cons p ps =>
    simp only [hps]
    have : ((p :: ps).take 3).map fallbackPageLine ≠ [] := by
      simp [List.take]
    simp [claimC7KeySections, hps, this, funext claimC7Line_eq_fallbackPageLine]


/-- A successful `dict.get` implies key membership. -/
theorem objHasKey_of_objGet {entries : List (Str × Json)} {k : Str} {v : Json}
    (h : objGet entries k = some v) : objHasKey entries k = true := by
  induction entries with
  | nil => exact absurd h (by simp [objGet])
  | cons e es ih =>
    by_cases he : e.1 = k
    · simp [objHasKey, he]
    · have hpe : (decide (e.1 = k)) = false := by simp [he]
      simp only [objGet, List.find?, hpe] at h
      have hrec := ih h
      simpa [objHasKey, he] using hrec


theorem claim_C4_amended (payload : List (Str × Json)) :
    (∃ entries, (SiteSummary.from_llm_payload payload).sections = .obj entries) ∧
    (objGet payload "overview".data = none →
      (SiteSummary.from_llm_payload payload).overview = .str []) ∧
    (objGet payload "content_type".data = none →
      ∃ s, (SiteSummary.from_llm_payload payload).content_type = .str s ∧ s ≠ []) ∧
    (∀ v, objGet payload "overview".data = some v →
      (SiteSummary.from_llm_payload payload).overview = v) ∧
    (∀ v, objGet payload "content_type".data = some v →
      (SiteSummary.from_llm_payload payload).content_type = v) := by
  by_cases hcond : (objHasKey payload "sections".data &&
      (match objGet payload "sections".data with
       | some (.obj _) => true | _ => false)) = true
  · have hobj : ∃ es, objGet payload "sections".data = some (.obj es) := by
      rcases hg : objGet payload "sections".data with _ | v
      · rw [hg] at hcond; simp at hcond
      · cases v with
        | obj es => exact ⟨es, rfl⟩
        | null => rw [hg] at hcond; simp at hcond
        | bool b => rw [hg] at hcond; simp at hcond
        | num l => rw [hg] at hcond; simp at hcond
        | str s => rw [hg] at hcond; simp at hcond
        | arr xs => rw [hg] at hcond; simp at hcond
    obtain ⟨es, hget⟩ := hobj
    have hk := objHasKey_of_objGet hget
    refine ⟨⟨es, ?_⟩, fun hnone => ?_, fun hnone => ⟨"document".data, ?_, by simp⟩,
      fun v hv => ?_, fun v hv => ?_⟩ <;>
      simp [SiteSummary.from_llm_payload, hcond, hget, hk, *]
  · have hf : (objHasKey payload "sections".data &&
      (match objGet payload "sections".data with
       | some (.obj _) => true | _ => false)) = false := by
      revert hcond
      cases (objHasKey payload "sections".data &&
        (match objGet payload "sections".data with
         | some (.obj _) => true | _ => false)) <;> simp
    refine ⟨⟨(if pyGetTruthy payload "sections".data then
        [("key_sections".data, (objGet payload "sections".data).getD (.arr []))] else []) ++
      ((if pyGetTruthy payload "highlights".data then
        [("highlights".data, (objGet payload "highlights".data).getD (.arr []))] else []) ++
      (if pyGetTruthy payload "recommendations".data then
        [("recommendations".data, (objGet payload "recommendations".data).getD (.arr []))] else [])), ?_⟩,
      fun hnone => ?_, fun hnone => ⟨"website".data, ?_, by simp⟩,
      fun v hv => ?_, fun v hv => ?_⟩ <;>
      simp [SiteSummary.from_llm_payload, hf, *]


/-- C4 counterexample: constructing a summary from the empty payload
yields an empty `overview` string (`payload.get("overview", "")`
defaults to `""`), refuting "the resulting summary's overview and
content_type fields are non-empty strings". -/
theorem claim_C4_counterexample :
    (SiteSummary.from_llm_payload []).overview = Json.str [] := by rfl

/-- C4 witness: the amended claim instantiated at a concrete payload
that lacks both fields. -/
theorem claim_C4_amended_witness :
    (∃ entries, (SiteSummary.from_llm_payload
      [("highlights".data, Json.arr [])]).sections = .obj entries) ∧
    (SiteSummary.from_llm_payload [("highlights".data, Json.arr [])]).overview = .str [] ∧
    ∃ s, (SiteSummary.from_llm_payload
      [("highlights".data, Json.arr [])]).content_type = .str s ∧ s ≠ [] :=
  ⟨(claim_C4_amended [("highlights".data, Json.arr [])]).1,
   (claim_C4_amended [("highlights".data, Json.arr [])]).2.1 (by rfl),
   (claim_C4_amended [("highlights".data, Json.arr [])]).2.2.1 (by rfl)⟩

/-- Characters of a stripped string come from the original. -/
theorem mem_pyStrip {c : Char} {s : Str} (h : c ∈ pyStrip s) : c ∈ s := by
  unfold pyStrip pyRstrip pyLstrip at h
  have h1 := (List.dropWhile_sublist isPyWs).subset (List.mem_reverse.mp h)
  exact (List.dropWhile_sublist isPyWs).subset (List.mem_reverse.mp h1)

/-- Characters of any line produced by the splitlines loop come from
the input or the accumulator. -/
theorem mem_splitGo {c : Char} (s acc : Str) :
    ∀ line ∈ pySplitlines.splitGo s acc, c ∈ line → c ∈ s ∨ c ∈ acc := by
  induction s, acc using pySplitlines.splitGo.induct
  next acc =>
    intro line hline hc
    simp only [pySplitlines.splitGo, List.mem_singleton] at hline
    subst hline
    exact Or.inr (List.mem_reverse.mp hc)
  next rest acc ih =>
    intro line hline hc
    simp only [pySplitlines.splitGo, List.mem_cons] at hline
    rcases hline with h | h
    · subst h; exact Or.inr (List.mem_reverse.mp hc)
    · rcases ih line h hc with h2 | h2
      · exact Or.inl (by simp [h2])
      · exact absurd h2 (by simp)
  next x rest acc hno hb ih =>
    intro line hline hc
    rw [pySplitlines.splitGo, if_pos hb] at hline
    · rcases List.mem_cons.mp hline with h | h
      · subst h; exact Or.inr (List.mem_reverse.mp hc)
      · rcases ih line h hc with h2 | h2
        · exact Or.inl (by simp [h2])
        · exact absurd h2 (by simp)
    · exact hno
  next x rest acc hno hb ih =>
    intro line hline hc
    rw [pySplitlines.splitGo, if_neg hb] at hline
    · rcases ih line hline hc with h2 | h2
      · exact Or.inl (by simp [h2])
      · rcases List.mem_cons.mp h2 with h3 | h3
        · exact Or.inl (by simp [h3])
        · exact Or.inr h3
    · exact hno


/-- Characters of a joined list come from the separator or one of the
parts. -/
theorem mem_joinSep {c : Char} (sep : Str) (xs : List Str) (h : c ∈ joinSep sep xs) :
    c ∈ sep ∨ ∃ x ∈ xs, c ∈ x := by
  induction xs with
  | nil => simp [joinSep] at h
  | cons x ys ih =>
    cases ys with
    | nil =>
      simp only [joinSep] at h
      exact Or.inr ⟨x, by simp, h⟩
    | cons y zs =>
      simp only [joinSep, List.append_assoc, List.mem_append] at h
      rcases h with h | h | h
      · exact Or.inr ⟨x, by simp, h⟩
      · exact Or.inl h
      · rcases ih (by simpa [joinSep] using h) with h2 | ⟨z, hz, hcz⟩
        · exact Or.inl h2
        · exact Or.inr ⟨z, by simp [List.mem_cons] at hz ⊢; tauto, hcz⟩

/-- The fence-scanning loop only returns lines of its input. -/
theorem mem_collectBody (lines : List Str) (started : Bool) (line : Str)
    (h : line ∈ collectBody lines started) : line ∈ lines := by
  induction lines generalizing started with
  | nil => simp [collectBody] at h
  | cons l ls ih =>
    simp only [collectBody] at h
    cases started with
    | false =>
      simp only [Bool.not_false, if_true, Bool.false_or] at h
      exact List.mem_cons_of_mem l (ih _ h)
    | true =>
      simp only [Bool.not_true, Bool.false_eq_true, if_false] at h
      by_cases hf : strStartsWith (pyStrip l) fence3
      · simp [hf] at h
      · simp only [hf, if_false, Bool.false_eq_true, List.mem_cons] at h
        rcases h with h | h
        · exact h ▸ List.mem_cons_self l ls
        · exact List.mem_cons_of_mem l (ih _ h)


/-- Characters of any produced line come from the split string. -/
theorem mem_pySplitlines {c : Char} {s : Str} {line : Str}
    (hl : line ∈ pySplitlines s) (hc : c ∈ line) : c ∈ s := by
  cases s with
  | nil => simp [pySplitlines] at hl
  | cons x rest =>
    have := @mem_splitGo c (x :: rest) [] line (by simpa [pySplitlines] using hl) hc
    simpa using this

/-- Every character of `_strip_code_block t` is a character of `t` or
a newline inserted by the join. -/
theorem mem_strip_code_block {c : Char} {t : Str}
    (h : c ∈ _strip_code_block t) : c ∈ t ∨ c = '\n' := by
  unfold _strip_code_block at h
  by_cases hf : strStartsWith (pyStrip t) fence3
  · simp only [hf, Bool.not_true, Bool.false_eq_true, if_false] at h
    by_cases hb : (collectBody (pySplitlines (pyStrip t)) false).isEmpty
    · rw [if_pos hb] at h
      exact Or.inl (mem_pyStrip h)
    · rw [if_neg hb] at h
      have h2 := mem_pyStrip h
      rcases mem_joinSep _ _ h2 with h3 | ⟨line, hline, hcl⟩
      · simp only [List.mem_singleton] at h3
        exact Or.inr h3
      · have h4 := mem_collectBody _ _ _ hline
        exact Or.inl (mem_pyStrip (mem_pySplitlines h4 hcl))
  · simp only [hf, Bool.not_false, if_true] at h
    exact Or.inl (mem_pyStrip h)


/-- C5 (amended): for every input string containing no `\x7b` at all
and not decoding as JSON, the Parser fails with a `ContentError` whose
message includes a preview of the (stripped) text, and when that text
is longer than 240 characters the preview is truncated to 237
characters plus an ellipsis marker, 240 characters in all. -/
theorem claim_C5_amended (t : Str)
    (hnb : ∀ c ∈ t, c ≠ '\x7b')
    (hj : json_loads (_strip_code_block t) = none) :
    _parse_summary_text t = .error (invalidJsonMsg ++ preview240 (_strip_code_block t)) ∧
    (∀ p, p = replaceChar '\n' ' ' (pyStrip (_strip_code_block t)) →
      (p.length ≤ 240 → preview240 (_strip_code_block t) = p) ∧
      (240 < p.length → preview240 (_strip_code_block t) = p.take 237 ++ "...".data ∧
        (preview240 (_strip_code_block t)).length = 240)) := by
  have hclean : ∀ c ∈ _strip_code_block t, c ≠ '\x7b' := by
    intro c hc
    rcases mem_strip_code_block hc with h | h
    · exact hnb c h
    · subst h; decide
  have hfind : (pyStrip (_strip_code_block t)).findIdx? (fun c => c = '\x7b') = none := by
    rw [List.findIdx?_eq_none_iff]
    intro x hx
    simpa using hclean x (mem_pyStrip hx)
  have hext : _try_extract_partial_json (_strip_code_block t) = none := by
    unfold _try_extract_partial_json
    simp only [hfind]
  constructor
  · unfold _parse_summary_text
    simp only [hj, hext]
  · intro p hp
    constructor
    · intro hle
      unfold preview240
      rw [← hp, if_neg (by omega)]
    · intro hgt
      unfold preview240
      rw [← hp, if_pos hgt]
      refine ⟨rfl, ?_⟩
      simp [List.length_take]
      omega


/-- C5 counterexample: `3` contains no brace yet is valid JSON, so the
Parser returns it successfully instead of failing with a
`ContentError`, refuting the claim for all brace-free inputs. -/
theorem claim_C5_counterexample :
    (∀ c ∈ (['3'] : Str), c ≠ '\x7b') ∧
      _parse_summary_text ['3'] = .ok (.num ['3']) :=
  ⟨by decide, by rfl⟩

/-- C5 witness: the amended claim at a concrete garbage input; the
preview is the text itself since it is short. -/
theorem claim_C5_amended_witness :
    _parse_summary_text "hello world".data =
      .error (invalidJsonMsg ++ preview240 (_strip_code_block "hello world".data)) ∧
    preview240 (_strip_code_block "hello world".data) = "hello world".data :=
  ⟨(claim_C5_amended "hello world".data (by decide) (by rfl)).1, by rfl⟩


/-- C8: the report-retrieval path check is a string-prefix test, so a
file name using `../` into a sibling directory whose name extends the
report directory's name resolves OUTSIDE the directory yet is served
when it exists; plain parent traversal is rejected.  This refutes
"any name whose resolved path lies outside the configured report
directory is rejected" and evidences the code bug at the claim's cited
check. -/
theorem claim_C8_sibling_dir_escape :
    download_report ["app".data, "reports".data] (fun _ => true)
        "../reportsx/secret.pdf".data =
      some ["app".data, "reportsx".data, "secret.pdf".data] ∧
    ¬ insideDir ["app".data, "reports".data]
        ["app".data, "reportsx".data, "secret.pdf".data] ∧
    download_report ["app".data, "reports".data] (fun _ => true)
        "../../etc/passwd".data = none := by
  refine ⟨by rfl, by unfold insideDir; decide, by rfl⟩

/-- C9: refuted as stated — the consumer loop's timeout exit
(`except asyncio.TimeoutError: if task.done(): break`) checks only
`task.done()`, not `queue.empty()`.  Under the feasible schedule in
which `wait_for` times out while the queue is momentarily empty and
the producer then performs its final put(s) and finishes before the
consumer's `done()` check runs, the stream closes with status events
still queued: a one-status run reaches a closed state whose output is
the terminal event alone, not the status event followed by the
terminal event.  The loop-top exit's own `queue.empty()` conjunct
shows the drain-before-close intent, so the timeout branch is a code
bug rather than a spec error. -/
theorem claim_C9_status_drop :
    StreamReach (Except.ok "r".data) (streamInit ["a".data])
      ⟨[], true, [StreamEv.status "a".data],
        [terminalEv (Except.ok "r".data)], true⟩ ∧
    [terminalEv (Except.ok "r".data)] ≠
      ["a".data].map StreamEv.status ++ [terminalEv (Except.ok "r".data)] := by
  constructor
  · have st1 : StreamStep (Except.ok "r".data) (streamInit ["a".data])
        ⟨[], false, [StreamEv.status "a".data], [], false⟩ := by
      have := @StreamStep.prodPut (Except.ok "r".data) "a".data [] [] []
      simpa [streamInit] using this
    have st2 : StreamStep (Except.ok "r".data)
        ⟨[], false, [StreamEv.status "a".data], [], false⟩
        ⟨[], true, [StreamEv.status "a".data], [], false⟩ :=
      StreamStep.prodFinish _ _
    have st3 : StreamStep (Except.ok "r".data)
        ⟨[], true, [StreamEv.status "a".data], [], false⟩
        ⟨[], true, [StreamEv.status "a".data],
          [terminalEv (Except.ok "r".data)], true⟩ := by
      have := @StreamStep.consTimeoutClose (Except.ok "r".data)
        [StreamEv.status "a".data] []
      simpa using this
    exact Relation.ReflTransGen.tail (Relation.ReflTransGen.tail
      (Relation.ReflTransGen.tail Relation.ReflTransGen.refl st1) st2) st3
  · intro h
    simp at h


/-- C10: for every uploaded file whose extension is `.txt`, `.md` or
`.markdown`, text extraction never fails and returns a string: UTF-8
decoding is attempted first and used when it succeeds; on failure
Latin-1 decoding is used, and since Latin-1 is total over byte
sequences the final lossy branch is unreachable. -/
theorem claim_C10_text_decode_total (pdfExtract : List Nat → Except Str Str)
    (filename : Str) (content : List Nat)
    (hext : pySuffixLower filename = ".txt".data ∨ pySuffixLower filename = ".md".data ∨
      pySuffixLower filename = ".markdown".data)
    (hbytes : ∀ b ∈ content, b < 256) :
    extract_text_from_file pdfExtract filename content = .ok (decode_text_bytes content) ∧
    (∀ s, utf8DecodeBytes content = some s → decode_text_bytes content = s) ∧
    (utf8DecodeBytes content = none →
      latin1DecodeBytes content = some (content.map Char.ofNat) ∧
      decode_text_bytes content = content.map Char.ofNat) := by
  have hlat : latin1DecodeBytes content = some (content.map Char.ofNat) := by
    unfold latin1DecodeBytes
    rw [if_pos]
    rw [List.all_eq_true]
    intro b hb
    simpa using hbytes b hb
  refine ⟨?_, fun s hs => by simp [decode_text_bytes, hs], fun hn => ⟨hlat, ?_⟩⟩
  · unfold extract_text_from_file
    rcases hext with h | h | h <;> rw [h] <;> simp
  · simp [decode_text_bytes, hn, hlat]

/-- C10 witness: a `.txt` upload whose content is invalid UTF-8
decodes through the Latin-1 branch. -/
theorem claim_C10_text_decode_total_witness :
    extract_text_from_file (fun _ => .error []) "notes.txt".data [255] =
      .ok (decode_text_bytes [255]) ∧
    decode_text_bytes [255] = [Char.ofNat 255] :=
  ⟨(claim_C10_text_decode_total (fun _ => .error []) "notes.txt".data [255]
      (Or.inl (by rfl)) (by decide)).1,
   ((claim_C10_text_decode_total (fun _ => .error []) "notes.txt".data [255]
      (Or.inl (by rfl)) (by decide)).2.2 (by rfl)).2⟩


/-- The truncation loop returns the candidate with the fewest
characters removed among those that are accepted: every earlier offset
was rejected. -/
theorem scanTruncations_first_accept (text : Str) (startIdx : Nat) :
    ∀ (n k : Nat) (m : List (Str × Json)), scanTruncations text startIdx k n = some m →
      ∃ j, k ≤ j ∧ j < k + n ∧ tryCandidate text startIdx j = some m ∧
        ∀ i, k ≤ i → i < j → tryCandidate text startIdx i = none := by
  intro n
  induction n with
  | zero => intro k m h; simp [scanTruncations] at h
  | succ n ih =>
    intro k m h
    rw [scanTruncations] at h
    cases htry : tryCandidate text startIdx k with
    | some m0 =>
      rw [htry] at h
      refine ⟨k, Nat.le_refl k, by omega, ?_, fun i h1 h2 => by omega⟩
      rw [htry]
      exact h
    | none =>
      rw [htry] at h
      obtain ⟨j, hj1, hj2, hj3, hj4⟩ := ih (k + 1) m h
      refine ⟨j, by omega, by omega, hj3, fun i hi1 hi2 => ?_⟩
      by_cases hik : i = k
      · subst hik; exact htry
      · exact hj4 i (by omega) hi2

/-- An accepted truncation candidate is a non-empty mapping. -/
theorem tryCandidate_nonempty {text : Str} {startIdx k : Nat} {m : List (Str × Json)}
    (h : tryCandidate text startIdx k = some m) : m ≠ [] := by
  unfold tryCandidate at h
  simp only [] at h
  cases hl : json_loads (autoClose ((text.take (text.length - k)).drop startIdx)) with
  | none => simp only [hl] at h; exact absurd h (by simp)
  | some v =>
    simp only [hl] at h
    cases v with
    | obj entries =>
      by_cases he : entries.isEmpty
      · simp [he] at h
      · simp only [he, if_false, Bool.false_eq_true] at h
        injection h with h'
        subst h'
        simpa using he
    | null => exact absurd h (by simp)
    | bool b => exact absurd h (by simp)
    | num l => exact absurd h (by simp)
    | str s => exact absurd h (by simp)
    | arr xs => exact absurd h (by simp)


/-- Partial extraction never returns an empty mapping. -/
theorem tryExtract_nonempty {t : Str} {m : List (Str × Json)}
    (h : _try_extract_partial_json t = some m) : m ≠ [] := by
  unfold _try_extract_partial_json at h
  cases hf : (pyStrip t).findIdx? (fun c => c = '\x7b') with
  | none => simp only [hf] at h; exact absurd h (by simp)
  | some s =>
    simp only [hf] at h
    cases hs : scanTruncations (pyStrip t) s 0 ((pyStrip t).length - s) with
    | some m0 =>
      simp only [hs] at h
      injection h with h'
      subst h'
      obtain ⟨j, _, _, hj, _⟩ :=
        scanTruncations_first_accept (pyStrip t) s ((pyStrip t).length - s) 0 m0 hs
      exact tryCandidate_nonempty hj
    | none =>
      simp only [hs] at h
      cases hov : overviewSearch (pyStrip t) with
      | none => simp only [hov] at h; exact absurd h (by simp)
      | some grp =>
        simp only [hov] at h
        injection h with h'
        subst h'
        simp

/-- C1 (amended): partial recovery locates the first `\x7b` (returning
nothing when there is none); it tries every truncation length in
increasing order of characters removed from the tail and accepts the
first candidate that, after appending the matching number of `\x7d`
then `]` for unbalanced braces/brackets, parses to a non-empty mapping
(every earlier truncation having failed); any mapping it returns is
non-empty; on the spec's example prefix it recovers the fully-written
`overview` and `content_type` fields.  The original universal
guarantee — a mapping containing every fully-written field for EVERY
valid JSON object prefix — does not hold (see the counterexample):
recovery can fail entirely, e.g. when a written string value contains
`\x7d`. -/
theorem claim_C1_amended :
    (∀ text startIdx n k m, scanTruncations text startIdx k n = some m →
      ∃ j, k ≤ j ∧ j < k + n ∧ tryCandidate text startIdx j = some m ∧
        ∀ i, k ≤ i → i < j → tryCandidate text startIdx i = none) ∧
    (∀ t m, _try_extract_partial_json t = some m → m ≠ []) ∧
    (∀ t, (pyStrip t).findIdx? (fun c => c = '\x7b') = none →
      _try_extract_partial_json t = none) ∧
    (_try_extract_partial_json
        "\x7b\"overview\": \"hi\", \"content_type\": \"x\", \"sections\": \x7b\"a\": [\"b\"".data =
      some [("overview".data, .str "hi".data), ("content_type".data, .str ['x']),
            ("sections".data, .obj [])]) ∧
    (_try_extract_partial_json "\x7b\"a\": \"x\x7d\", \"b\": 1".data = none) := by
  refine ⟨fun text startIdx n k m h =>
      scanTruncations_first_accept text startIdx n k m h,
    fun t m h => tryExtract_nonempty h, fun t hf => ?_, by rfl, by rfl⟩
  unfold _try_extract_partial_json
  simp only [hf]


/-- C1 counterexample: `\x7b"a": "x\x7d", "b": 1` is a valid JSON
object prefix (appending `\x7d` completes it to an object with the
fully-written fields `a` and `b`), yet the Parser recovers nothing and
raises a `ContentError`: the `\x7d` inside the string value defeats
the brace-count auto-closing for every truncation length. -/
theorem claim_C1_counterexample :
    json_loads ("\x7b\"a\": \"x\x7d\", \"b\": 1".data ++ ['\x7d']) =
      some (.obj [("a".data, .str "x\x7d".data), ("b".data, .num ['1'])]) ∧
    _parse_summary_text "\x7b\"a\": \"x\x7d\", \"b\": 1".data =
      .error ("Gemini returned invalid JSON: \x7b\"a\": \"x\x7d\", \"b\": 1".data) :=
  ⟨by rfl, by rfl⟩

/-- C1 witness: the first-accept characterization instantiated at the
spec's example prefix, where the scan succeeds. -/
theorem claim_C1_amended_witness :
    ∃ j, 0 ≤ j ∧
      j < 0 + ("\x7b\"overview\": \"hi\", \"content_type\": \"x\", \"sections\": \x7b\"a\": [\"b\"".data).length ∧
      tryCandidate
        "\x7b\"overview\": \"hi\", \"content_type\": \"x\", \"sections\": \x7b\"a\": [\"b\"".data 0 j =
        some [("overview".data, .str "hi".data), ("content_type".data, .str ['x']),
              ("sections".data, .obj [])] ∧
      ∀ i, 0 ≤ i → i < j →
        tryCandidate
          "\x7b\"overview\": \"hi\", \"content_type\": \"x\", \"sections\": \x7b\"a\": [\"b\"".data 0 i =
          none :=
  claim_C1_amended.1
    "\x7b\"overview\": \"hi\", \"content_type\": \"x\", \"sections\": \x7b\"a\": [\"b\"".data 0
    ("\x7b\"overview\": \"hi\", \"content_type\": \"x\", \"sections\": \x7b\"a\": [\"b\"".data).length 0
    [("overview".data, .str "hi".data), ("content_type".data, .str ['x']),
     ("sections".data, .obj [])] (by rfl)


theorem dropWhile_append_stop {p : Char → Bool} {x : Str} (y : Str)
    (h : x.dropWhile p ≠ []) : (x ++ y).dropWhile p = x.dropWhile p ++ y := by
  induction x with
  | nil => simp [List.dropWhile] at h
  | cons c cs ih =>
    rw [List.cons_append, List.dropWhile_cons, List.dropWhile_cons]
    by_cases hc : p c
    · rw [if_pos hc, if_pos hc]
      rw [List.dropWhile_cons, if_pos hc] at h
      exact ih h
    · rw [if_neg hc, if_neg hc, List.cons_append]

theorem dropWhile_append_all {p : Char → Bool} {x : Str} (y : Str)
    (h : x.all p) : (x ++ y).dropWhile p = y.dropWhile p := by
  induction x with
  | nil => simp
  | cons c cs ih =>
    simp only [List.all_cons, Bool.and_eq_true] at h
    simp [List.dropWhile_cons, h.1, ih h.2]

theorem pyLstrip_of_head {c : Char} {s : Str} (h : isPyWs c = false) :
    pyLstrip (c :: s) = c :: s := by
  simp [pyLstrip, List.dropWhile_cons, h]

theorem pyRstrip_append {a : Str} (b : Str)
    (h : ∀ c, a.getLast? = some c → isPyWs c = false) (ha : a ≠ []) :
    pyRstrip (a ++ b) = a ++ pyRstrip b := by
  have hhead : ∃ c t, a.reverse = c :: t ∧ isPyWs c = false := by
    cases hr : a.reverse with
    | nil => exact absurd (by simpa using hr) ha
    | cons c t =>
      refine ⟨c, t, rfl, h c ?_⟩
      rw [List.getLast?_eq_head?_reverse, hr]
      rfl
  obtain ⟨c, t, hct, hc⟩ := hhead
  unfold pyRstrip
  rw [List.reverse_append]
  by_cases hb : b.reverse.dropWhile isPyWs = []
  · rw [dropWhile_append_all _ (by
      rw [List.dropWhile_eq_nil_iff] at hb
      rw [List.all_eq_true]
      intro x hx
      exact hb x hx)]
    rw [hb, hct, List.dropWhile_cons, if_neg (by simp [hc]), ← hct]
    simp
  · rw [dropWhile_append_stop _ hb]
    simp

theorem pyStrip_of_ends {c : Char} {s : Str} (hh : isPyWs c = false)
    (hl : ∀ d, (c :: s).getLast? = some d → isPyWs d = false) :
    pyStrip (c :: s) = c :: s := by
  unfold pyStrip
  rw [pyLstrip_of_head hh]
  have := pyRstrip_append ([] : Str) hl (by simp)
  simpa [pyRstrip] using this

theorem splitGo_append_nl (a : Str) (ha : ∀ c ∈ a, isLineBoundary c = false) :
    ∀ (rest acc : Str), pySplitlines.splitGo (a ++ '\n' :: rest) acc =
      (acc.reverse ++ a) :: pySplitlines.splitGo rest [] := by
  induction a with
  | nil =>
    intro rest acc
    rw [List.nil_append, pySplitlines.splitGo, if_pos (by decide)]
    · simp
    · intro rest' h _
      exact absurd h (by decide)
  | cons x xs ih =>
    intro rest acc
    have hx := ha x (by simp)
    rw [List.cons_append, pySplitlines.splitGo, if_neg (by simp [hx]),
      ih (fun c hc => ha c (by simp [hc]))]
    · simp
    · intro rest' hxr hrest
      rw [hxr] at hx
      exact absurd hx (by decide)


theorem splitGo_no_nl (a : Str) (ha : ∀ c ∈ a, isLineBoundary c = false) :
    ∀ acc : Str, pySplitlines.splitGo a acc = [acc.reverse ++ a] := by
  induction a with
  | nil => intro acc; simp [pySplitlines.splitGo]
  | cons x xs ih =>
    intro acc
    have hx := ha x (by simp)
    rw [pySplitlines.splitGo, if_neg (by simp [hx]),
      ih (fun c hc => ha c (by simp [hc]))]
    · simp
    · intro rest' hxr hrest
      rw [hxr] at hx
      exact absurd hx (by decide)

theorem splitGo_joinSep (ls : List Str) (hne : ls ≠ [])
    (hl : ∀ line ∈ ls, ∀ c ∈ line, isLineBoundary c = false) (rest : Str) :
    pySplitlines.splitGo (joinSep ['\n'] ls ++ '\n' :: rest) [] =
      ls ++ pySplitlines.splitGo rest [] := by
  induction ls with
  | nil => exact absurd rfl hne
  | cons l ls2 ih =>
    cases ls2 with
    | nil =>
      rw [show joinSep ['\n'] [l] = l from rfl,
        splitGo_append_nl l (hl l (by simp)) rest []]
      simp
    | cons l2 ls3 =>
      rw [show joinSep ['\n'] (l :: l2 :: ls3) = (l ++ ['\n']) ++ joinSep ['\n'] (l2 :: ls3) from rfl]
      rw [List.append_assoc, List.append_assoc, List.singleton_append]
      rw [splitGo_append_nl l (hl l (by simp)) _ []]
      rw [ih (by simp) (fun line hline => hl line (by simp [hline]))]
      simp


theorem pySplitlines_mkFenced (tag : Str) (bodyLines : List Str) (post : Str)
    (htag : ∀ c ∈ tag, isLineBoundary c = false)
    (hbody : ∀ line ∈ bodyLines, ∀ c ∈ line, isLineBoundary c = false)
    (hpost : ∀ c ∈ post, isLineBoundary c = false)
    (hne : bodyLines ≠ []) :
    pySplitlines (mkFenced tag bodyLines post) =
      (fence3 ++ tag) :: bodyLines ++ [fence3 ++ post] := by
  unfold mkFenced
  have hstep : pySplitlines
      (fence3 ++ tag ++ ['\n'] ++ joinSep ['\n'] bodyLines ++ ['\n'] ++ fence3 ++ post) =
      pySplitlines.splitGo
        ((fence3 ++ tag) ++ '\n' :: (joinSep ['\n'] bodyLines ++ '\n' :: (fence3 ++ post))) [] := by
    have hass : fence3 ++ tag ++ ['\n'] ++ joinSep ['\n'] bodyLines ++ ['\n'] ++ fence3 ++ post =
        (fence3 ++ tag) ++ '\n' :: (joinSep ['\n'] bodyLines ++ '\n' :: (fence3 ++ post)) := by
      simp [List.append_assoc]
    rw [hass]
    cases hcase : (fence3 ++ tag) ++ '\n' :: (joinSep ['\n'] bodyLines ++ '\n' :: (fence3 ++ post)) with
    | nil => exact absurd hcase (by simp)
    | cons c cs => rw [← hcase]; rfl
  rw [hstep]
  rw [splitGo_append_nl (fence3 ++ tag)
    (by intro c hc; rcases List.mem_append.mp hc with h | h
        · fin_cases h <;> decide
        · exact htag c h) _ []]
  rw [splitGo_joinSep bodyLines hne hbody]
  rw [splitGo_no_nl (fence3 ++ post)
    (by intro c hc; rcases List.mem_append.mp hc with h | h
        · fin_cases h <;> decide
        · exact hpost c h) []]
  simp


theorem fence_line_starts (x : Str) :
    strStartsWith (pyStrip (fence3 ++ x)) fence3 = true := by
  unfold pyStrip
  rw [show (fence3 ++ x : Str) = '`' :: ('`' :: '`' :: x) from rfl,
    pyLstrip_of_head (by decide)]
  rw [show ('`' :: '`' :: '`' :: x : Str) = fence3 ++ x from rfl]
  rw [pyRstrip_append x (by intro c hc; simp [fence3] at hc; subst hc; decide) (by decide)]
  unfold strStartsWith
  rw [List.isPrefixOf_iff_prefix]
  exact List.prefix_append fence3 (pyRstrip x)

theorem collectBody_after_open (bodyLines : List Str) (closing : Str)
    (hbody2 : ∀ line ∈ bodyLines, strStartsWith (pyStrip line) fence3 = false)
    (hclose : strStartsWith (pyStrip closing) fence3 = true) :
    collectBody (bodyLines ++ [closing]) true = bodyLines := by
  induction bodyLines with
  | nil => simp [collectBody, hclose]
  | cons l ls ih =>
    rw [List.cons_append, collectBody]
    simp only [hbody2 l (by simp), Bool.not_true, Bool.false_eq_true, if_false]
    rw [ih (fun line hline => hbody2 line (by simp [hline]))]

theorem strip_code_block_mkFenced (tag : Str) (bodyLines : List Str) (post : Str)
    (htag : ∀ c ∈ tag, isLineBoundary c = false)
    (hbody : ∀ line ∈ bodyLines, ∀ c ∈ line, isLineBoundary c = false)
    (hbody2 : ∀ line ∈ bodyLines, strStartsWith (pyStrip line) fence3 = false)
    (hne : bodyLines ≠ [])
    (hpost : ∀ c ∈ post, isLineBoundary c = false)
    (hlast : ∀ c, post.getLast? = some c → isPyWs c = false) :
    _strip_code_block (mkFenced tag bodyLines post) =
      pyStrip (joinSep ['\n'] bodyLines) := by
  have hshape : mkFenced tag bodyLines post =
      '`' :: ('`' :: '`' :: (tag ++ ['\n'] ++ joinSep ['\n'] bodyLines ++ ['\n'] ++ fence3 ++ post)) := by
    unfold mkFenced
    simp [fence3, List.append_assoc]
  have hstrip : pyStrip (mkFenced tag bodyLines post) = mkFenced tag bodyLines post := by
    rw [hshape]
    apply pyStrip_of_ends (by decide)
    intro d hd
    rw [show ('`' :: ('`' :: '`' :: (tag ++ ['\n'] ++ joinSep ['\n'] bodyLines ++ ['\n'] ++ fence3 ++ post)) : Str) =
      ('`' :: '`' :: '`' :: tag ++ ['\n'] ++ joinSep ['\n'] bodyLines ++ ['\n']) ++ (fence3 ++ post) from by
        simp [fence3, List.append_assoc]] at hd
    rw [List.getLast?_append_of_ne_nil _ (by simp [fence3])] at hd
    cases hpostcase : post with
    | nil =>
      subst hpostcase
      simp [fence3] at hd
      subst hd
      decide
    | cons p ps =>
      rw [hpostcase] at hd
      rw [List.getLast?_append_of_ne_nil _ (by simp)] at hd
      exact hlast d (by rw [hpostcase]; exact hd)
  unfold _strip_code_block
  rw [hstrip]
  have hfencecond : strStartsWith (mkFenced tag bodyLines post) fence3 = true := by
    rw [hshape]
    unfold strStartsWith
    rw [List.isPrefixOf_iff_prefix]
    exact ⟨tag ++ ['\n'] ++ joinSep ['\n'] bodyLines ++ ['\n'] ++ fence3 ++ post, by
      simp [fence3, List.append_assoc]⟩
  have hbodyeq : collectBody (pySplitlines (mkFenced tag bodyLines post)) false = bodyLines := by
    rw [pySplitlines_mkFenced tag bodyLines post htag hbody hpost hne]
    rw [show collectBody ((fence3 ++ tag) :: bodyLines ++ [fence3 ++ post]) false =
      collectBody (bodyLines ++ [fence3 ++ post])
        (false || strStartsWith (pyStrip (fence3 ++ tag)) fence3) from rfl]
    simp only [fence_line_starts tag, Bool.false_or]
    exact collectBody_after_open bodyLines (fence3 ++ post) hbody2 (fence_line_starts post)
  simp only [hfencecond, Bool.not_true, Bool.false_eq_true, if_false, hbodyeq]
  rw [if_neg (by simpa using hne)]


theorem append_split {P u r rest2 : Str} (h : u ++ r = P ++ rest2)
    (hl : P.length ≤ u.length) :
    u = P ++ u.drop P.length ∧ rest2 = u.drop P.length ++ r := by
  constructor
  · have h1 : u.take P.length = P := by
      have h2 : (u ++ r).take P.length = (P ++ rest2).take P.length := by rw [h]
      rwa [List.take_append_of_le_length hl, List.take_append_of_le_length (le_refl _),
        List.take_length] at h2
    conv_lhs => rw [← List.take_append_drop P.length u]
    rw [h1]
  · have h2 : (u ++ r).drop P.length = (P ++ rest2).drop P.length := by rw [h]
    rw [List.drop_append_of_le_length hl, List.drop_append_of_le_length (le_refl _),
      List.drop_length] at h2
    simpa using h2.symm

theorem takeWhile_append_all {p : Char → Bool} {x : Str} (y : Str)
    (h : x.all p) : (x ++ y).takeWhile p = x ++ y.takeWhile p := by
  induction x with
  | nil => simp
  | cons c cs ih =>
    simp only [List.all_cons, Bool.and_eq_true] at h
    simp [List.takeWhile_cons, h.1, ih h.2]

theorem takeWhile_append_stop {p : Char → Bool} {x : Str} (y : Str)
    (h : x.dropWhile p ≠ []) : (x ++ y).takeWhile p = x.takeWhile p := by
  induction x with
  | nil => simp [List.dropWhile] at h
  | cons c cs ih =>
    rw [List.cons_append, List.takeWhile_cons, List.takeWhile_cons]
    by_cases hc : p c
    · rw [if_pos hc, if_pos hc]
      rw [List.dropWhile_cons, if_pos hc] at h
      rw [ih h]
    · rw [if_neg hc, if_neg hc]


theorem jsonWs_cases {c : Char} (h : isJsonWs c = true) :
    c = '\t' ∨ c = '\n' ∨ c = '\r' ∨ c = ' ' := by
  unfold isJsonWs at h
  simp only [Bool.or_eq_true, decide_eq_true_eq] at h
  tauto

theorem numFrac_consumed (s2 : Str) : s2 = (numFrac s2).1 ++ (numFrac s2).2 := by
  unfold numFrac
  cases s2 with
  | nil => rfl
  | cons c r2 =>
    by_cases hc : c = '.'
    · subst hc
      by_cases hds : (r2.takeWhile isDigitCh).isEmpty
      · simp [hds]
      · simp only [hds, Bool.false_eq_true, if_false]
        simp [List.takeWhile_append_dropWhile]
    · cases c <;> simp_all


theorem jsonWs_not_tokens {c : Char} (h : isJsonWs c = true) :
    isDigitCh c = false ∧ ('1' ≤ c && c ≤ '9') = false ∧ c ≠ '.' ∧ c ≠ 'e' ∧ c ≠ 'E' ∧
    c ≠ '+' ∧ c ≠ '-' ∧ c ≠ '0' ∧ c ≠ '"' ∧ c ≠ '\x7b' ∧ c ≠ '[' ∧ c ≠ '\x7d' ∧
    c ≠ ']' ∧ c ≠ ',' ∧ c ≠ ':' ∧ c ≠ 'n' ∧ c ≠ 't' ∧ c ≠ 'f' ∧ c ≠ 'N' ∧ c ≠ 'I' := by
  rcases jsonWs_cases h with h | h | h | h <;> subst h <;> decide

theorem jsonWs_isPyWs {c : Char} (h : isJsonWs c = true) : isPyWs c = true := by
  rcases jsonWs_cases h with h | h | h | h <;> subst h <;> decide

theorem allWs_takeWhile_digits {r : Str} (hr : r.all isJsonWs) :
    r.takeWhile isDigitCh = [] ∧ r.dropWhile isDigitCh = r := by
  cases r with
  | nil => simp
  | cons c cs =>
    simp only [List.all_cons, Bool.and_eq_true] at hr
    have := (jsonWs_not_tokens hr.1).1
    simp [List.takeWhile_cons, List.dropWhile_cons, this]

theorem append_left_nil {z r : Str} (h : z ++ r = r) : z = [] := by
  have := congrArg List.length h
  simp at this
  exact this


theorem numFrac_cons_ne {c : Char} {s : Str} (hc : c ≠ '.') :
    numFrac (c :: s) = ([], c :: s) := by
  unfold numFrac
  split
  · next r2 heq =>
      injection heq with h1 h2
      exact absurd h1 hc
  · rfl

theorem numFrac_allWs {r : Str} (hr : r.all isJsonWs) : numFrac r = ([], r) := by
  cases r with
  | nil => rfl
  | cons c cs =>
    simp only [List.all_cons, Bool.and_eq_true] at hr
    exact numFrac_cons_ne (jsonWs_not_tokens hr.1).2.2.1


theorem cons_append_cancel {c : Char} {z r x2 : Str} (h : z ++ r = c :: (x2 ++ r)) :
    z = c :: x2 := by
  have : z ++ r = (c :: x2) ++ r := by simpa using h
  exact List.append_cancel_right this

theorem numFrac_swap {x r r' fr z : Str} (hr : r.all isJsonWs) (hr' : r'.all isJsonWs)
    (h : numFrac (x ++ r) = (fr, z ++ r)) : numFrac (x ++ r') = (fr, z ++ r') := by
  cases x with
  | nil =>
    rw [List.nil_append] at h ⊢
    rw [numFrac_allWs hr] at h
    injection h with h1 h2
    have hz : z = [] := append_left_nil h2.symm
    subst hz
    rw [numFrac_allWs hr', ← h1]
    simp
  | cons c x2 =>
    by_cases hc : c = '.'
    · subst hc
      rw [List.cons_append] at h ⊢
      unfold numFrac at h ⊢
      simp only [] at h ⊢
      by_cases hstop : x2.dropWhile isDigitCh = []
      · have hall : x2.all isDigitCh := by
          rw [List.all_eq_true]
          intro a ha
          exact List.dropWhile_eq_nil_iff.mp hstop a ha
        rw [takeWhile_append_all _ hall, (allWs_takeWhile_digits hr).1,
          dropWhile_append_all _ hall, (allWs_takeWhile_digits hr).2] at h
        rw [takeWhile_append_all _ hall, (allWs_takeWhile_digits hr').1,
          dropWhile_append_all _ hall, (allWs_takeWhile_digits hr').2]
        cases hx2 : x2 with
        | nil =>
          subst hx2
          simp only [List.append_nil, List.isEmpty_nil, if_true] at h ⊢
          injection h with h1 h2
          have hz : z = '.' :: [] := cons_append_cancel (by simpa using h2.symm)
          subst hz
          rw [← h1]
          simp
        | cons d ds =>
          subst hx2
          simp only [List.append_nil, List.isEmpty_cons, if_false, Bool.false_eq_true] at h ⊢
          injection h with h1 h2
          have hz : z = [] := append_left_nil h2.symm
          subst hz
          rw [← h1]
          simp
      · rw [takeWhile_append_stop _ hstop, dropWhile_append_stop _ hstop] at h
        rw [takeWhile_append_stop _ hstop, dropWhile_append_stop _ hstop]
        by_cases hemp : (x2.takeWhile isDigitCh).isEmpty
        · simp only [hemp, if_true] at h ⊢
          injection h with h1 h2
          have hz : z = '.' :: x2 := cons_append_cancel h2.symm
          subst hz
          rw [← h1]
          simp
        · simp only [hemp, if_false, Bool.false_eq_true] at h ⊢
          injection h with h1 h2
          have hz : z = x2.dropWhile isDigitCh := List.append_cancel_right h2.symm
          subst hz
          rw [← h1]
    · rw [List.cons_append] at h
      rw [List.cons_append]
      rw [numFrac_cons_ne hc] at h
      rw [numFrac_cons_ne hc]
      injection h with h1 h2
      have hz : z = c :: x2 := cons_append_cancel h2.symm
      subst hz
      rw [← h1]
      simp


theorem takeWhile_digits_ws (x : Str) {r : Str} (hr : r.all isJsonWs) :
    (x ++ r).takeWhile isDigitCh = x.takeWhile isDigitCh ∧
    (x ++ r).dropWhile isDigitCh = x.dropWhile isDigitCh ++ r := by
  by_cases hstop : x.dropWhile isDigitCh = []
  · have hall : x.all isDigitCh := by
      rw [List.all_eq_true]
      intro a ha
      exact List.dropWhile_eq_nil_iff.mp hstop a ha
    rw [takeWhile_append_all _ hall, dropWhile_append_all _ hall,
      (allWs_takeWhile_digits hr).1, (allWs_takeWhile_digits hr).2, hstop]
    constructor
    · rw [List.append_nil, List.takeWhile_eq_self_iff.mpr ?_]
      intro a ha
      exact List.dropWhile_eq_nil_iff.mp hstop a ha
    · simp
  · exact ⟨takeWhile_append_stop _ hstop, dropWhile_append_stop _ hstop⟩

theorem numExp_cons (c : Char) (s : Str) :
    numExp (c :: s) =
      if (c = 'e' || c = 'E') = true then
        (let p := expSgn s
         let ds := p.2.takeWhile isDigitCh
         if ds.isEmpty then ([], c :: s)
         else (c :: p.1 ++ ds, p.2.dropWhile isDigitCh))
      else ([], c :: s) := by
  rfl

theorem numExp_cons_ne {c : Char} {s : Str} (hc1 : c ≠ 'e') (hc2 : c ≠ 'E') :
    numExp (c :: s) = ([], c :: s) := by
  rw [numExp_cons, if_neg (by simp [hc1, hc2])]

theorem expSgn_of_ne {d : Char} {x3 : Str} (hd1 : d ≠ '+') (hd2 : d ≠ '-') :
    expSgn (d :: x3) = ([], d :: x3) := by
  unfold expSgn
  split
  · next heq => injection heq with hh _; exact absurd hh hd1
  · next heq => injection heq with hh _; exact absurd hh hd2
  · rfl

theorem expSgn_nil : expSgn [] = ([], []) := rfl

theorem expSgn_allWs {r : Str} (hr : r.all isJsonWs) : expSgn r = ([], r) := by
  cases r with
  | nil => rfl
  | cons a as =>
    simp only [List.all_cons, Bool.and_eq_true] at hr
    have hf := jsonWs_not_tokens hr.1
    exact expSgn_of_ne hf.2.2.2.2.2.1 hf.2.2.2.2.2.2.1

theorem numExp_allWs {r : Str} (hr : r.all isJsonWs) : numExp r = ([], r) := by
  cases r with
  | nil => rfl
  | cons c cs =>
    simp only [List.all_cons, Bool.and_eq_true] at hr
    have hf := jsonWs_not_tokens hr.1
    exact numExp_cons_ne hf.2.2.2.1 hf.2.2.2.2.1

theorem numExp_swap {x r r' fr z : Str} (hr : r.all isJsonWs) (hr' : r'.all isJsonWs)
    (h : numExp (x ++ r) = (fr, z ++ r)) : numExp (x ++ r') = (fr, z ++ r') := by
  cases x with
  | nil =>
    rw [List.nil_append] at h ⊢
    rw [numExp_allWs hr] at h
    injection h with h1 h2
    have hz : z = [] := append_left_nil h2.symm
    subst hz
    rw [numExp_allWs hr', ← h1]
    simp
  | cons c x2 =>
    by_cases hc : c = 'e' ∨ c = 'E'
    · rw [List.cons_append] at h ⊢
      rw [numExp_cons] at h
      rw [numExp_cons]
      rw [if_pos (by rcases hc with h | h <;> simp [h])] at h
      rw [if_pos (by rcases hc with h | h <;> simp [h])]
      simp only [] at h ⊢
      cases x2 with
      | nil =>
        rw [List.nil_append] at h ⊢
        rw [expSgn_allWs hr] at h
        rw [expSgn_allWs hr']
        simp only [(allWs_takeWhile_digits hr).1, (allWs_takeWhile_digits hr').1,
          List.isEmpty_nil, if_true] at h ⊢
        injection h with h1 h2
        have hz : z = [c] := cons_append_cancel h2.symm
        subst hz
        rw [← h1]
        simp
      | cons d x3 =>
        rw [List.cons_append] at h ⊢
        by_cases hd : d = '+' ∨ d = '-'
        · have hstep : ∀ (y : Str), expSgn (d :: (x3 ++ y)) = ([d], x3 ++ y) := by
            intro y
            rcases hd with hd | hd <;> subst hd <;> rfl
          rw [hstep r] at h
          rw [hstep r']
          simp only [(takeWhile_digits_ws x3 hr).1, (takeWhile_digits_ws x3 hr).2,
            (takeWhile_digits_ws x3 hr').1, (takeWhile_digits_ws x3 hr').2] at h ⊢
          by_cases hemp : (x3.takeWhile isDigitCh).isEmpty
          · simp only [hemp, if_true] at h ⊢
            injection h with h1 h2
            have hz : z = c :: d :: x3 := by
              have h3 : z ++ r = (c :: d :: x3) ++ r := by simpa using h2.symm
              exact List.append_cancel_right h3
            subst hz
            rw [← h1]
            simp
          · simp only [hemp, Bool.false_eq_true, if_false] at h ⊢
            injection h with h1 h2
            have hz : z = x3.dropWhile isDigitCh := List.append_cancel_right h2.symm
            subst hz
            rw [← h1]
        · push_neg at hd
          rw [expSgn_of_ne hd.1 hd.2] at h
          rw [expSgn_of_ne hd.1 hd.2]
          simp only [← List.cons_append] at h ⊢
          simp only [(takeWhile_digits_ws (d :: x3) hr).1,
            (takeWhile_digits_ws (d :: x3) hr).2,
            (takeWhile_digits_ws (d :: x3) hr').1,
            (takeWhile_digits_ws (d :: x3) hr').2] at h ⊢
          by_cases hemp : ((d :: x3).takeWhile isDigitCh).isEmpty
          · simp only [hemp, if_true] at h ⊢
            injection h with h1 h2
            have hz : z = c :: d :: x3 := by
              have h3 : z ++ r = (c :: d :: x3) ++ r := by
                rw [← h2]
              exact List.append_cancel_right h3
            subst hz
            rw [← h1]
          · simp only [hemp, Bool.false_eq_true, if_false] at h ⊢
            injection h with h1 h2
            have hz : z = (d :: x3).dropWhile isDigitCh := List.append_cancel_right h2.symm
            subst hz
            rw [← h1]
    · push_neg at hc
      rw [List.cons_append] at h ⊢
      rw [numExp_cons_ne hc.1 hc.2] at h
      rw [numExp_cons_ne hc.1 hc.2]
      injection h with h1 h2
      have hz : z = c :: x2 := cons_append_cancel h2.symm
      subst hz
      rw [← h1]
      simp


theorem strq_red (fuel : Nat) (x : Str) :
    parseStrBody (fuel + 1) ('"' :: x) = some ([], x) := rfl

theorem strnil_red (fuel : Nat) : parseStrBody (fuel + 1) [] = none := rfl

theorem str12_red (fuel : Nat) (a b c d e f g h : Char) (rest2 : Str) :
    parseStrBody (fuel + 1)
        ('\\' :: 'u' :: a :: b :: c :: d :: '\\' :: 'u' :: e :: f :: g :: h :: rest2) =
      match hexQuad a b c d with
      | none => none
      | some n =>
        if 0xD800 ≤ n && n ≤ 0xDBFF then
          match hexQuad e f g h with
          | none => none
          | some m =>
            if 0xDC00 ≤ m && m ≤ 0xDFFF then
              (parseStrBody fuel rest2).map (fun p =>
                (Char.ofNat (0x10000 + (n - 0xD800) * 0x400 + (m - 0xDC00)) :: p.1, p.2))
            else
              (parseStrBody fuel ('\\' :: 'u' :: e :: f :: g :: h :: rest2)).map
                (fun p => (Char.ofNat 0xFFFD :: p.1, p.2))
        else if 0xDC00 ≤ n && n ≤ 0xDFFF then
          (parseStrBody fuel ('\\' :: 'u' :: e :: f :: g :: h :: rest2)).map
            (fun p => (Char.ofNat 0xFFFD :: p.1, p.2))
        else
          (parseStrBody fuel ('\\' :: 'u' :: e :: f :: g :: h :: rest2)).map
            (fun p => (Char.ofNat n :: p.1, p.2)) := by
  rfl

theorem str6_red (fuel : Nat) (a b c d : Char) (rest : Str)
    (hno : ∀ (e f g h : Char) (t : Str), rest = '\\' :: 'u' :: e :: f :: g :: h :: t → False) :
    parseStrBody (fuel + 1) ('\\' :: 'u' :: a :: b :: c :: d :: rest) =
      match hexQuad a b c d with
      | none => none
      | some n =>
        if (0xD800 ≤ n && n ≤ 0xDBFF) || (0xDC00 ≤ n && n ≤ 0xDFFF) then
          (parseStrBody fuel rest).map (fun p => (Char.ofNat 0xFFFD :: p.1, p.2))
        else
          (parseStrBody fuel rest).map (fun p => (Char.ofNat n :: p.1, p.2)) := by
  rw [parseStrBody.eq_def]
  split
  · rename_i heq
    exact absurd heq (by omega)
  · rename_i heq hdum
    exact absurd heq (by simp)
  · rename_i heq hdum
    exact absurd heq (by simp)
  · rename_i hfu heq
    injection heq with h1 heq; injection heq with h2 heq; injection heq with h3 heq
    injection heq with h4 heq; injection heq with h5 heq; injection heq with h6 heq
    exact absurd (hno _ _ _ _ _ heq) (by simp)
  · rename_i hcon hfu heq
    injection heq with h1 heq; injection heq with h2 heq; injection heq with h3 heq
    injection heq with h4 heq; injection heq with h5 heq; injection heq with h6 heq
    injection hfu with hfu2
    subst h3 h4 h5 h6 heq hfu2
    rfl
  · rename_i tl heq h0 h12 h6
    injection heq with h1 heq; injection heq with h2 heq
    exact absurd (h6 fuel a b c d rest rfl heq.symm) (by simp)
  · rename_i h12 h6 hnu hfu heq
    injection heq with h1 heq; injection heq with he heq
    exact absurd (hnu he.symm) (by simp)
  · rename_i heq hdum
    exact absurd heq (by simp)
  · rename_i hq h12 h6 hshort hesc hnil hfu heq
    injection heq with hc hrest
    exact absurd (hesc 'u' (a :: b :: c :: d :: rest) hc.symm hrest.symm) (by simp)

theorem stresc_red (fuel : Nat) (e : Char) (rest : Str) (hnu : e ≠ 'u') :
    parseStrBody (fuel + 1) ('\\' :: e :: rest) =
      match
        (if e = '"' then some '"'
         else if e = '\\' then some '\\'
         else if e = '/' then some '/'
         else if e = 'b' then some (Char.ofNat 0x08)
         else if e = 'f' then some (Char.ofNat 0x0c)
         else if e = 'n' then some '\n'
         else if e = 'r' then some '\r'
         else if e = 't' then some '\t'
         else none) with
      | none => none
      | some ch => (parseStrBody fuel rest).map (fun p => (ch :: p.1, p.2)) := by
  rw [parseStrBody.eq_def]
  split
  · rename_i heq
    exact absurd heq (by omega)
  · rename_i heq hdum
    exact absurd heq (by simp)
  · rename_i heq hdum
    exact absurd heq (by simp)
  · rename_i hfu heq
    injection heq with h1 heq; injection heq with h2 heq
    exact absurd h2 hnu
  · rename_i hcon hfu heq
    injection heq with h1 heq; injection heq with h2 heq
    exact absurd h2 hnu
  · rename_i tl heq h0 h12 h6
    injection heq with h1 heq; injection heq with h2 heq
    exact absurd h2 hnu
  · rename_i h12 h6 hnu2 hfu heq
    injection heq with h1 heq; injection heq with he heq
    injection hfu with hfu2
    subst he heq hfu2
    rfl
  · rename_i heq hdum
    exact absurd heq (by simp)
  · rename_i hq h12 h6 hshort hesc hnil hfu heq
    injection heq with hc hrest
    exact absurd (hesc e rest hc.symm hrest.symm) (by simp)

theorem strdef_red (fuel : Nat) (c : Char) (rest : Str) (hq : c ≠ '"') (hb : c ≠ '\\') :
    parseStrBody (fuel + 1) (c :: rest) =
      if c.toNat < 0x20 then none
      else (parseStrBody fuel rest).map (fun p => (c :: p.1, p.2)) := by
  rw [parseStrBody.eq_def]
  split
  · rename_i heq
    exact absurd heq (by omega)
  · rename_i heq hdum
    exact absurd heq (by simp)
  · rename_i heq hdum
    injection heq with h1 heq
    exact absurd h1 hq
  · rename_i hfu heq
    injection heq with h1 heq
    exact absurd h1 hb
  · rename_i hcon hfu heq
    injection heq with h1 heq
    exact absurd h1 hb
  · rename_i tl heq h0 h12 h6
    injection heq with h1 heq
    exact absurd h1 hb
  · rename_i h12 h6 hnu hfu heq
    injection heq with h1 heq
    exact absurd h1 hb
  · rename_i heq hdum
    injection heq with h1 heq
    exact absurd h1 hb
  · rename_i hq2 h12 h6 hshort hesc hnil hfu heq
    injection heq with hc hrest
    injection hfu with hfu2
    subst hc hrest hfu2
    rfl

theorem getLast_cons_ne {c : Char} {u : Str} (h : u ≠ []) :
    (c :: u).getLast? = u.getLast? := by
  rw [show (c :: u) = [c] ++ u from rfl, List.getLast?_append_of_ne_nil _ h]

theorem exists_cons4 (l : Str) (h : 4 ≤ l.length) :
    ∃ a b c d t, l = a :: b :: c :: d :: t := by
  rcases l with _ | ⟨a, _ | ⟨b, _ | ⟨c, _ | ⟨d, t⟩⟩⟩⟩
  · simp at h
  · simp at h
  · simp at h
  · simp at h
  · exact ⟨a, b, c, d, t, rfl⟩

theorem parseStrBody_splice (f : Nat) : ∀ (s sv rest : Str),
    parseStrBody f s = some (sv, rest) →
    ∃ u, s = u ++ rest ∧ u ≠ [] ∧ u.getLast? = some '"' ∧
      (∀ t, u = '\\' :: 'u' :: t → 5 ≤ t.length) ∧
      (∀ (g : Nat) (rest2 : Str), u.length + 1 ≤ g →
        parseStrBody g (u ++ rest2) = some (sv, rest2)) := by
  induction f with
  | zero =>
    intro s sv rest h
    exact absurd h (by simp [parseStrBody])
  | succ f ih =>
    intro s sv rest h
    rw [parseStrBody.eq_def] at h
    split at h
    · simp at h
    · simp at h
    · rename_i rst hdum
      injection h with h2
      rw [Prod.mk.injEq] at h2
      obtain ⟨hsv, hrst⟩ := h2
      subst hrst
      subst hsv
      refine ⟨['"'], by simp, by simp, rfl, ?_, ?_⟩
      · intro t ht; exact absurd ht (by simp)
      · intro g rest2 hg
        cases g with
        | zero => omega
        | succ g => exact strq_red g rest2
    · rename_i fuel a b c d e1 f1 g1 h1 rest2 heq
      have hfu : f = fuel := by omega
      subst hfu
      have hs6 : ∀ (ch : Char),
          (∀ (g' : Nat) (X : Str),
            parseStrBody (g' + 1)
                ('\\' :: 'u' :: a :: b :: c :: d :: '\\' :: 'u' :: e1 :: f1 :: g1 :: h1 :: X) =
              (parseStrBody g' ('\\' :: 'u' :: e1 :: f1 :: g1 :: h1 :: X)).map
                (fun p => (ch :: p.1, p.2))) →
          (parseStrBody f ('\\' :: 'u' :: e1 :: f1 :: g1 :: h1 :: rest2)).map
              (fun p => (ch :: p.1, p.2)) = some (sv, rest) →
          ∃ u, ('\\' :: 'u' :: a :: b :: c :: d :: '\\' :: 'u' :: e1 :: f1 :: g1 :: h1 :: rest2 : Str) = u ++ rest ∧
            u ≠ [] ∧ u.getLast? = some '"' ∧
            (∀ t, u = '\\' :: 'u' :: t → 5 ≤ t.length) ∧
            (∀ (g : Nat) (rest2' : Str), u.length + 1 ≤ g →
              parseStrBody g (u ++ rest2') = some (sv, rest2')) := by
        intro ch hred hmapped
        rcases hp : parseStrBody f ('\\' :: 'u' :: e1 :: f1 :: g1 :: h1 :: rest2) with _ | p
        · rw [hp] at hmapped; simp at hmapped
        · rw [hp] at hmapped; simp at hmapped
          obtain ⟨hsv, hrest⟩ := hmapped
          obtain ⟨u0, hsp0, hne0, hlast0, hesc0, hrep0⟩ := ih _ _ _ hp
          rcases u0 with _ | ⟨w, u0'⟩
          · exact absurd rfl hne0
          rcases u0' with _ | ⟨w2, u0''⟩
          · rw [show ([w] : Str).getLast? = some w from rfl] at hlast0
            injection hlast0 with hw
            subst hw
            rw [List.cons_append, List.nil_append] at hsp0
            injection hsp0 with hwq
            exact absurd hwq (by decide)
          have hw : w = '\\' := by
            rw [List.cons_append] at hsp0
            injection hsp0 with hh _
            exact hh.symm
          have hw2 : w2 = 'u' := by
            rw [List.cons_append, List.cons_append] at hsp0
            injection hsp0 with _ h2
            injection h2 with hh _
            exact hh.symm
          subst hw hw2
          have hlen5 : 5 ≤ u0''.length := hesc0 u0'' rfl
          obtain ⟨q1, q2, q3, q4, u3, hu0''⟩ := exists_cons4 u0'' (by omega)
          subst hu0''
          have heq1 : e1 = q1 ∧ f1 = q2 ∧ g1 = q3 ∧ h1 = q4 ∧ rest2 = u3 ++ p.2 := by
            simp only [List.cons_append] at hsp0
            injection hsp0 with _ h2; injection h2 with _ h2
            injection h2 with hq1 h2; injection h2 with hq2 h2
            injection h2 with hq3 h2; injection h2 with hq4 h2
            exact ⟨hq1, hq2, hq3, hq4, h2⟩
          obtain ⟨hq1, hq2, hq3, hq4, hrest2⟩ := heq1
          subst hq1 hq2 hq3 hq4
          subst hrest2
          refine ⟨'\\' :: 'u' :: a :: b :: c :: d :: '\\' :: 'u' :: e1 :: f1 :: g1 :: h1 :: u3,
            ?_, by simp, ?_, ?_, ?_⟩
          · rw [← hrest]; simp
          · rw [show ('\\' :: 'u' :: a :: b :: c :: d :: '\\' :: 'u' :: e1 :: f1 :: g1 :: h1 :: u3 : Str) =
              ['\\', 'u', a, b, c, d, '\\', 'u', e1, f1, g1] ++ (h1 :: u3) from by simp,
              List.getLast?_append_of_ne_nil _ (by simp)]
            rw [show ('\\' :: 'u' :: e1 :: f1 :: g1 :: h1 :: u3 : Str) =
              ['\\', 'u', e1, f1, g1] ++ (h1 :: u3) from by simp,
              List.getLast?_append_of_ne_nil _ (by simp)] at hlast0
            exact hlast0
          · intro t ht
            injection ht with _ h2; injection h2 with _ h2
            rw [← h2]
            simp
          · intro g2 X hg2
            simp only [List.length_cons] at hg2
            cases g2 with
            | zero => omega
            | succ g2' =>
              simp only [List.cons_append]
              rw [hred g2' (u3 ++ X)]
              rw [show ('\\' :: 'u' :: e1 :: f1 :: g1 :: h1 :: (u3 ++ X) : Str) =
                ('\\' :: 'u' :: e1 :: f1 :: g1 :: h1 :: u3) ++ X from by simp]
              rw [hrep0 g2' X (by simp only [List.length_cons]; omega)]
              simp [← hsv]
      split at h
      · simp at h
      · rename_i n heqn
        split at h
        · rename_i hyn
          split at h
          · simp at h
          · rename_i m heqm
            split at h
            · rename_i hym
              rcases hp : parseStrBody f rest2 with _ | p
              · rw [hp] at h; simp at h
              · rw [hp] at h; simp at h
                obtain ⟨hsv, hrest⟩ := h
                obtain ⟨u0, hsp0, hne0, hlast0, hesc0, hrep0⟩ := ih _ _ _ hp
                subst hsp0
                refine ⟨'\\' :: 'u' :: a :: b :: c :: d :: '\\' :: 'u' :: e1 :: f1 :: g1 :: h1 :: u0,
                  ?_, by simp, ?_, ?_, ?_⟩
                · rw [← hrest]; simp
                · rw [show ('\\' :: 'u' :: a :: b :: c :: d :: '\\' :: 'u' :: e1 :: f1 :: g1 :: h1 :: u0 : Str) =
                    ['\\', 'u', a, b, c, d, '\\', 'u', e1, f1, g1, h1] ++ u0 from by simp,
                    List.getLast?_append_of_ne_nil _ hne0]
                  exact hlast0
                · intro t ht
                  injection ht with _ h2; injection h2 with _ h2
                  rw [← h2]
                  simp
                · intro g2 X hg2
                  simp only [List.length_cons] at hg2
                  cases g2 with
                  | zero => omega
                  | succ g2' =>
                    simp only [List.cons_append]
                    rw [str12_red, heqn]
                    simp only [hyn, if_true, heqm, hym, if_true]
                    rw [hrep0 g2' X (by omega)]
                    simp [← hsv]
            · rename_i hym
              refine hs6 _ ?_ h
              intro g' X
              rw [str12_red, heqn]
              simp only [hyn, if_true, heqm, hym]
              simp
        · rename_i hyn
          split at h
          · rename_i hln
            refine hs6 _ ?_ h
            intro g' X
            rw [str12_red, heqn]
            simp only [hyn, hln, if_true]
            simp
          · rename_i hln
            refine hs6 _ ?_ h
            intro g' X
            rw [str12_red, heqn]
            simp only [hyn, hln]
            simp
    · rename_i fuel a b c d rst h12na heq
      have hfu : f = fuel := by omega
      subst hfu
      split at h
      · simp at h
      · rename_i n heqn
        have hcommon : ∀ (ch : Char),
            ((0xD800 ≤ n && n ≤ 0xDBFF) || (0xDC00 ≤ n && n ≤ 0xDFFF)) = true ∧ ch = Char.ofNat 0xFFFD ∨
              ((0xD800 ≤ n && n ≤ 0xDBFF) || (0xDC00 ≤ n && n ≤ 0xDFFF)) = false ∧ ch = Char.ofNat n →
            (parseStrBody f rst).map (fun p => (ch :: p.1, p.2)) = some (sv, rest) →
            ∃ u, ('\\' :: 'u' :: a :: b :: c :: d :: rst : Str) = u ++ rest ∧
              u ≠ [] ∧ u.getLast? = some '"' ∧
              (∀ t, u = '\\' :: 'u' :: t → 5 ≤ t.length) ∧
              (∀ (g : Nat) (rest2' : Str), u.length + 1 ≤ g →
                parseStrBody g (u ++ rest2') = some (sv, rest2')) := by
          intro ch hbr hmapped
          rcases hp : parseStrBody f rst with _ | p
          · rw [hp] at hmapped; simp at hmapped
          · rw [hp] at hmapped; simp at hmapped
            obtain ⟨hsv, hrest⟩ := hmapped
            obtain ⟨u0, hsp0, hne0, hlast0, hesc0, hrep0⟩ := ih _ _ _ hp
            have hnoX : ∀ (X0 : Str) (e' f' g' h' : Char) (t : Str),
                u0 ++ X0 = '\\' :: 'u' :: e' :: f' :: g' :: h' :: t → False := by
              intro X0 e' f' g' h' t hbad
              rcases u0 with _ | ⟨w, u0'⟩
              · exact hne0 rfl
              rcases u0' with _ | ⟨w2, u0''⟩
              · rw [show ([w] : Str).getLast? = some w from rfl] at hlast0
                injection hlast0 with hwq
                rw [List.cons_append, List.nil_append] at hbad
                injection hbad with hw2 _
                rw [hw2] at hwq
                exact absurd hwq (by decide)
              simp only [List.cons_append, List.cons.injEq] at hbad
              obtain ⟨hw, hw2, hbad2⟩ := hbad
              subst hw hw2
              have hlen5 : 5 ≤ u0''.length := hesc0 u0'' rfl
              obtain ⟨q1, q2, q3, q4, u3, hu0''⟩ := exists_cons4 u0'' (by omega)
              subst hu0''
              simp only [List.cons_append] at hsp0
              exact h12na q1 q2 q3 q4 (u3 ++ p.2) hsp0
            subst hsp0
            refine ⟨'\\' :: 'u' :: a :: b :: c :: d :: u0, ?_, by simp, ?_, ?_, ?_⟩
            · rw [← hrest]; simp
            · rw [show ('\\' :: 'u' :: a :: b :: c :: d :: u0 : Str) =
                ['\\', 'u', a, b, c, d] ++ u0 from by simp,
                List.getLast?_append_of_ne_nil _ hne0]
              exact hlast0
            · intro t ht
              injection ht with _ h2; injection h2 with _ h2
              rw [← h2]
              have : 1 ≤ u0.length := List.length_pos.mpr hne0
              simp
              omega
            · intro g2 X hg2
              simp only [List.length_cons] at hg2
              cases g2 with
              | zero => omega
              | succ g2' =>
                simp only [List.cons_append]
                rw [str6_red g2' a b c d (u0 ++ X) (hnoX X), heqn]
                rcases hbr with ⟨hcnd, hch⟩ | ⟨hcnd, hch⟩
                · simp only [hcnd, if_true]
                  rw [hrep0 g2' X (by omega)]
                  simp [← hsv, hch]
                · simp only [hcnd, Bool.false_eq_true, if_false]
                  rw [hrep0 g2' X (by omega)]
                  simp [← hsv, hch]
        split at h
        · rename_i hcnd
          exact hcommon _ (Or.inl ⟨hcnd, rfl⟩) h
        · rename_i hcnd
          exact hcommon _ (Or.inr ⟨by simpa using hcnd, rfl⟩) h
    · simp at h
    · rename_i fuel e1 rst h12 h6 hnu heq
      have hfu : f = fuel := by omega
      subst hfu
      split at h
      · simp at h
      · rename_i ch heqch
        rcases hp : parseStrBody f rst with _ | p
        · rw [hp] at h; simp at h
        · rw [hp] at h; simp at h
          obtain ⟨hsv, hrest⟩ := h
          obtain ⟨u0, hsp0, hne0, hlast0, hesc0, hrep0⟩ := ih _ _ _ hp
          subst hsp0
          refine ⟨'\\' :: e1 :: u0, ?_, by simp, ?_, ?_, ?_⟩
          · rw [← hrest]; simp
          · rw [show ('\\' :: e1 :: u0 : Str) = ['\\', e1] ++ u0 from by simp,
              List.getLast?_append_of_ne_nil _ hne0]
            exact hlast0
          · intro t ht
            injection ht with _ h2
            injection h2 with he _
            exact absurd (hnu he) (by simp)
          · intro g2 X hg2
            simp only [List.length_cons] at hg2
            cases g2 with
            | zero => omega
            | succ g2' =>
              simp only [List.cons_append]
              rw [stresc_red g2' e1 (u0 ++ X) (fun hh => hnu hh)]
              rw [heqch]
              rw [hrep0 g2' X (by omega)]
              simp [← hsv]
    · simp at h
    · rename_i fuel c1 rst hq h12 h6 hshort hesc hnil heq
      have hfu : f = fuel := by omega
      subst hfu
      split at h
      · simp at h
      · rename_i hctrl
        rcases hp : parseStrBody f rst with _ | p
        · rw [hp] at h; simp at h
        · rw [hp] at h; simp at h
          obtain ⟨hsv, hrest⟩ := h
          obtain ⟨u0, hsp0, hne0, hlast0, hesc0, hrep0⟩ := ih _ _ _ hp
          subst hsp0
          have hbs : c1 ≠ '\\' := by
            intro hc
            rcases hrst : (u0 ++ p.2 : Str) with _ | ⟨w, rt⟩
            · exact hnil hc hrst
            · exact hesc w rt hc hrst
          have hqne : c1 ≠ '"' := fun hh => hq hh
          refine ⟨c1 :: u0, ?_, by simp, ?_, ?_, ?_⟩
          · rw [← hrest]; simp
          · rw [show (c1 :: u0 : Str) = [c1] ++ u0 from by simp,
              List.getLast?_append_of_ne_nil _ hne0]
            exact hlast0
          · intro t ht
            injection ht with hc _
            exact absurd hc hbs
          · intro g2 X hg2
            simp only [List.length_cons] at hg2
            cases g2 with
            | zero => omega
            | succ g2' =>
              simp only [List.cons_append]
              rw [strdef_red g2' c1 (u0 ++ X) hqne hbs]
              rw [if_neg hctrl]
              rw [hrep0 g2' X (by omega)]
              simp [← hsv]

theorem numSign_cons_ne {c : Char} {s : Str} (hc : c ≠ '-') :
    numSign (c :: s) = ([], c :: s) := by
  unfold numSign
  split
  · next heq => injection heq with hh _; exact absurd hh hc
  · rfl

theorem digit_ne_neg {c : Char} (h : ('1' ≤ c && c ≤ '9') = true) : c ≠ '-' := by
  intro hc; subst hc; exact absurd h (by decide)

theorem digit_ne_zero {c : Char} (h : ('1' ≤ c && c ≤ '9') = true) : c ≠ '0' := by
  intro hc; subst hc; exact absurd h (by decide)

theorem parseNum_nil : parseNum [] = none := rfl

theorem parseNum_neg_nil : parseNum ['-'] = none := rfl

theorem parseNum_c0 (s : Str) :
    parseNum ('0' :: s) = some (parseNum.assemble [] ['0'] s) := rfl

theorem parseNum_neg0 (s : Str) :
    parseNum ('-' :: '0' :: s) = some (parseNum.assemble ['-'] ['0'] s) := rfl

theorem parseNum_digit {c : Char} (s : Str) (h1 : ('1' ≤ c && c ≤ '9') = true) :
    parseNum (c :: s) =
      some (parseNum.assemble [] (c :: s.takeWhile isDigitCh) (s.dropWhile isDigitCh)) := by
  unfold parseNum
  rw [numSign_cons_ne (digit_ne_neg h1)]
  simp only [if_neg (by simpa using digit_ne_zero h1), h1, if_true]

theorem parseNum_negdigit {c : Char} (s : Str) (h1 : ('1' ≤ c && c ≤ '9') = true) :
    parseNum ('-' :: c :: s) =
      some (parseNum.assemble ['-'] (c :: s.takeWhile isDigitCh) (s.dropWhile isDigitCh)) := by
  unfold parseNum numSign
  simp only [if_neg (by simpa using digit_ne_zero h1), h1, if_true]

theorem parseNum_cons_none {c : Char} (s : Str) (hne : c ≠ '-') (h0 : c ≠ '0')
    (h19 : ('1' ≤ c && c ≤ '9') = false) : parseNum (c :: s) = none := by
  unfold parseNum
  rw [numSign_cons_ne hne]
  simp only [if_neg (by simpa using h0), h19, Bool.false_eq_true, if_false]

theorem parseNum_neg_cons_none {c : Char} (s : Str) (h0 : c ≠ '0')
    (h19 : ('1' ≤ c && c ≤ '9') = false) : parseNum ('-' :: c :: s) = none := by
  unfold parseNum numSign
  simp only [if_neg (by simpa using h0), h19, Bool.false_eq_true, if_false]

theorem expSgn_consumed (s : Str) : s = (expSgn s).1 ++ (expSgn s).2 := by
  unfold expSgn
  split <;> rfl

theorem numExp_consumed (s : Str) : s = (numExp s).1 ++ (numExp s).2 := by
  cases s with
  | nil => rfl
  | cons c s =>
    rw [numExp_cons]
    by_cases hc : (c = 'e' || c = 'E') = true
    · rw [if_pos hc]
      simp only []
      by_cases hemp : ((expSgn s).2.takeWhile isDigitCh).isEmpty
      · rw [if_pos hemp]
        rfl
      · rw [if_neg hemp]
        simp only [List.cons_append, List.cons.injEq, true_and]
        rw [List.append_assoc, List.takeWhile_append_dropWhile]
        exact expSgn_consumed s
    · rw [if_neg hc]
      rfl

theorem numFrac_last_digit {s f2 : Str} {fr : Str} (h : numFrac s = (fr, f2)) (hne : fr ≠ []) :
    ∀ d, fr.getLast? = some d → isDigitCh d = true := by
  intro d hd
  unfold numFrac at h
  split at h
  · rename_i r2
    by_cases hemp : (r2.takeWhile isDigitCh).isEmpty
    · rw [if_pos hemp] at h
      injection h with h1 _
      exact absurd h1.symm hne
    · rw [if_neg hemp] at h
      injection h with h1 _
      rw [← h1] at hd
      rw [getLast_cons_ne (by simpa [List.isEmpty_iff] using hemp)] at hd
      have hmem := List.mem_takeWhile_imp (List.mem_of_mem_getLast? hd)
      exact hmem
  · injection h with h1 _
    exact absurd h1.symm hne

theorem numExp_last_digit {s e2 : Str} {e1 : Str} (h : numExp s = (e1, e2)) (hne : e1 ≠ []) :
    ∀ d, e1.getLast? = some d → isDigitCh d = true := by
  intro d hd
  cases s with
  | nil =>
    injection h with h1 _
    exact absurd h1.symm hne
  | cons c s =>
    rw [numExp_cons] at h
    by_cases hc : (c = 'e' || c = 'E') = true
    · rw [if_pos hc] at h
      simp only [] at h
      by_cases hemp : ((expSgn s).2.takeWhile isDigitCh).isEmpty
      · rw [if_pos hemp] at h
        injection h with h1 _
        exact absurd h1.symm hne
      · rw [if_neg hemp] at h
        injection h with h1 _
        rw [← h1] at hd
        rw [show (c :: (expSgn s).1 ++ (expSgn s).2.takeWhile isDigitCh : Str) =
          (c :: (expSgn s).1) ++ (expSgn s).2.takeWhile isDigitCh from rfl] at hd
        rw [List.getLast?_append_of_ne_nil _ (by simpa [List.isEmpty_iff] using hemp)] at hd
        exact List.mem_takeWhile_imp (List.mem_of_mem_getLast? hd)
    · rw [if_neg hc] at h
      injection h with h1 _
      exact absurd h1.symm hne

theorem assemble_eq (sign ip s2 : Str) :
    parseNum.assemble sign ip s2 =
      (sign ++ ip ++ (numFrac s2).1 ++ (numExp (numFrac s2).2).1,
       (numExp (numFrac s2).2).2) := rfl

theorem digit19_isDigit {c : Char} (h : ('1' ≤ c && c ≤ '9') = true) :
    isDigitCh c = true := by
  rw [Bool.and_eq_true, decide_eq_true_eq, decide_eq_true_eq] at h
  unfold isDigitCh
  rw [Bool.and_eq_true, decide_eq_true_eq, decide_eq_true_eq]
  exact ⟨le_trans (by decide : ('0' : Char) ≤ '1') h.1, h.2⟩

theorem digit_not_pyWs {c : Char} (h : isDigitCh c = true) : isPyWs c = false := by
  unfold isDigitCh at h
  rw [Bool.and_eq_true, decide_eq_true_eq, decide_eq_true_eq] at h
  obtain ⟨h0, h9⟩ := h
  rw [Char.le_def] at h0 h9
  unfold isPyWs
  simp only [Bool.or_eq_false_iff, Bool.and_eq_false_iff, decide_eq_false_iff_not, Char.ext_iff,
    Char.le_def]
  repeat' apply And.intro
  all_goals first
  | (intro hbad; rw [hbad] at h0; exact absurd h0 (by decide))
  | (intro hbad; rw [hbad] at h9; exact absurd h9 (by decide))
  | (apply Or.inl; intro hbad;
     have h2 : (Char.ofNat 0x2000).val.toNat ≤ ('9' : Char).val.toNat := Nat.le_trans hbad h9
     exact absurd h2 (by decide))

theorem assemble_facts {sign ip s2 lex rest : Str}
    (h : parseNum.assemble sign ip s2 = (lex, rest))
    (hsign : sign = [] ∨ sign = ['-'])
    (hip : ip ≠ [])
    (hlastip : ∀ d, ip.getLast? = some d → isDigitCh d = true)
    (hheadip : ∀ d, ip.head? = some d → isDigitCh d = true) :
    (sign ++ ip) ++ s2 = lex ++ rest ∧ lex ≠ [] ∧
    (∀ d, lex.getLast? = some d → isDigitCh d = true) ∧
    (∀ d, lex.head? = some d → d = '-' ∨ isDigitCh d = true) := by
  rw [assemble_eq] at h
  rw [Prod.mk.injEq] at h
  obtain ⟨hlex, hrest⟩ := h
  have hs2 : s2 = (numFrac s2).1 ++ ((numExp (numFrac s2).2).1 ++ (numExp (numFrac s2).2).2) := by
    conv_lhs => rw [numFrac_consumed s2]
    rw [← numExp_consumed]
  refine ⟨?_, ?_, ?_, ?_⟩
  · conv_lhs => rw [hs2]
    rw [← hlex, ← hrest]
    simp [List.append_assoc]
  · rw [← hlex]
    intro hbad
    rcases List.append_eq_nil.mp (List.append_eq_nil.mp (List.append_eq_nil.mp hbad).1).1 with ⟨_, hip2⟩
    exact hip hip2
  · intro d hd
    rw [← hlex] at hd
    by_cases he1 : (numExp (numFrac s2).2).1 = []
    · rw [he1, List.append_nil] at hd
      by_cases hf1 : (numFrac s2).1 = []
      · rw [hf1, List.append_nil] at hd
        rw [List.getLast?_append_of_ne_nil _ hip] at hd
        exact hlastip d hd
      · rw [List.getLast?_append_of_ne_nil _ hf1] at hd
        exact numFrac_last_digit Prod.mk.eta.symm hf1 d hd
    · rw [List.getLast?_append_of_ne_nil _ he1] at hd
      exact numExp_last_digit Prod.mk.eta.symm he1 d hd
  · intro d hd
    rw [← hlex] at hd
    rcases hsign with hs | hs
    · subst hs
      rcases hipc : ip with _ | ⟨i, ip'⟩
      · exact absurd hipc hip
      · subst hipc
        simp at hd
        subst hd
        exact Or.inr (hheadip i rfl)
    · subst hs
      simp at hd
      subst hd
      exact Or.inl rfl

theorem parseNum_consume {s lex rest : Str} (h : parseNum s = some (lex, rest)) :
    s = lex ++ rest ∧ lex ≠ [] ∧
    (∀ d, lex.getLast? = some d → isDigitCh d = true) ∧
    (∀ d, lex.head? = some d → d = '-' ∨ isDigitCh d = true) := by
  cases s with
  | nil => exact absurd h (by rw [parseNum_nil]; simp)
  | cons c s1 =>
    by_cases hcn : c = '-'
    · subst hcn
      cases s1 with
      | nil => exact absurd h (by rw [parseNum_neg_nil]; simp)
      | cons c2 s2 =>
        by_cases h0 : c2 = '0'
        · subst h0
          rw [parseNum_neg0] at h
          injection h with h
          have := assemble_facts h (Or.inr rfl) (by simp)
            (fun d hd => by injection hd with hd; subst hd; decide)
            (fun d hd => by injection hd with hd; subst hd; decide)
          simpa using this
        · by_cases h19 : ('1' ≤ c2 && c2 ≤ '9') = true
          · rw [parseNum_negdigit s2 h19] at h
            injection h with h
            have := assemble_facts h (Or.inr rfl) (by simp)
              (fun d hd => by
                by_cases htw : s2.takeWhile isDigitCh = []
                · rw [htw] at hd
                  injection hd with hd
                  subst hd
                  exact digit19_isDigit h19
                · rw [getLast_cons_ne htw] at hd
                  exact List.mem_takeWhile_imp (List.mem_of_mem_getLast? hd))
              (fun d hd => by
                injection hd with hd
                subst hd
                exact digit19_isDigit h19)
            have h2 := this.1
            refine ⟨?_, this.2.1, this.2.2.1, this.2.2.2⟩
            rw [← h2]
            simp [List.takeWhile_append_dropWhile]
          · exact absurd h (by rw [parseNum_neg_cons_none s2 h0 (by simpa using h19)]; simp)
    · by_cases h0 : c = '0'
      · subst h0
        rw [parseNum_c0] at h
        injection h with h
        have := assemble_facts h (Or.inl rfl) (by simp)
          (fun d hd => by injection hd with hd; subst hd; decide)
          (fun d hd => by injection hd with hd; subst hd; decide)
        simpa using this
      · by_cases h19 : ('1' ≤ c && c ≤ '9') = true
        · rw [parseNum_digit s1 h19] at h
          injection h with h
          have := assemble_facts h (Or.inl rfl) (by simp)
            (fun d hd => by
              by_cases htw : s1.takeWhile isDigitCh = []
              · rw [htw] at hd
                injection hd with hd
                subst hd
                exact digit19_isDigit h19
              · rw [getLast_cons_ne htw] at hd
                exact List.mem_takeWhile_imp (List.mem_of_mem_getLast? hd))
            (fun d hd => by
              injection hd with hd
              subst hd
              exact digit19_isDigit h19)
          have h2 := this.1
          refine ⟨?_, this.2.1, this.2.2.1, this.2.2.2⟩
          rw [← h2]
          simp [List.takeWhile_append_dropWhile]
        · exact absurd h
            (by rw [parseNum_cons_none s1 hcn h0 (by simpa using h19)]; simp)

theorem assemble_swap {sign ip y r r' lex z : Str}
    (hr : r.all isJsonWs = true) (hr' : r'.all isJsonWs = true)
    (h : parseNum.assemble sign ip (y ++ r) = (lex, z ++ r)) :
    parseNum.assemble sign ip (y ++ r') = (lex, z ++ r') := by
  rw [assemble_eq] at h ⊢
  rw [Prod.mk.injEq] at h ⊢
  obtain ⟨hlex, hrest⟩ := h
  have hf2 : (numFrac (y ++ r)).2 = ((numExp (numFrac (y ++ r)).2).1 ++ z) ++ r := by
    conv_lhs => rw [numExp_consumed ((numFrac (y ++ r)).2)]
    rw [hrest, List.append_assoc]
  have hfr : numFrac (y ++ r) =
      ((numFrac (y ++ r)).1, ((numExp (numFrac (y ++ r)).2).1 ++ z) ++ r) := by
    rw [← hf2]
  have hfr' := numFrac_swap hr hr' hfr
  have hex : numExp (((numExp (numFrac (y ++ r)).2).1 ++ z) ++ r) =
      ((numExp (numFrac (y ++ r)).2).1, z ++ r) := by
    rw [← hf2]
    rw [← hrest]
  have hex' := numExp_swap hr hr' hex
  rw [hfr']
  simp only [hex']
  exact ⟨hlex, trivial⟩

theorem parseNum_swap {x r r' lex z : Str}
    (hr : r.all isJsonWs = true) (hr' : r'.all isJsonWs = true)
    (h : parseNum (x ++ r) = some (lex, z ++ r)) :
    parseNum (x ++ r') = some (lex, z ++ r') := by
  cases x with
  | nil =>
    exfalso
    rw [List.nil_append] at h
    cases r with
    | nil => rw [parseNum_nil] at h; simp at h
    | cons w ws =>
      rw [List.all_cons, Bool.and_eq_true] at hr
      have hw := jsonWs_not_tokens hr.1
      rw [parseNum_cons_none ws hw.2.2.2.2.2.2.1 hw.2.2.2.2.2.2.2.1 hw.2.1] at h
      simp at h
  | cons c x1 =>
    by_cases hcn : c = '-'
    · subst hcn
      cases x1 with
      | nil =>
        exfalso
        rw [List.cons_append, List.nil_append] at h
        cases r with
        | nil => rw [parseNum_neg_nil] at h; simp at h
        | cons w ws =>
          rw [List.all_cons, Bool.and_eq_true] at hr
          have hw := jsonWs_not_tokens hr.1
          rw [parseNum_neg_cons_none ws hw.2.2.2.2.2.2.2.1 hw.2.1] at h
          simp at h
      | cons c2 x2 =>
        rw [show (('-' :: c2 :: x2 : Str) ++ r) = '-' :: c2 :: (x2 ++ r) from rfl] at h
        rw [show (('-' :: c2 :: x2 : Str) ++ r') = '-' :: c2 :: (x2 ++ r') from rfl]
        by_cases h0 : c2 = '0'
        · subst h0
          rw [parseNum_neg0] at h
          injection h with h
          rw [parseNum_neg0, assemble_swap hr hr' h]
        · by_cases h19 : ('1' ≤ c2 && c2 ≤ '9') = true
          · rw [parseNum_negdigit _ h19] at h
            injection h with h
            rw [(takeWhile_digits_ws x2 hr).1, (takeWhile_digits_ws x2 hr).2] at h
            rw [parseNum_negdigit _ h19, (takeWhile_digits_ws x2 hr').1,
              (takeWhile_digits_ws x2 hr').2, assemble_swap hr hr' h]
          · exfalso
            rw [parseNum_neg_cons_none _ h0 (by simpa using h19)] at h
            simp at h
    · rw [List.cons_append] at h
      rw [List.cons_append]
      by_cases h0 : c = '0'
      · subst h0
        rw [parseNum_c0] at h
        injection h with h
        rw [parseNum_c0, assemble_swap hr hr' h]
      · by_cases h19 : ('1' ≤ c && c ≤ '9') = true
        · rw [parseNum_digit _ h19] at h
          injection h with h
          rw [(takeWhile_digits_ws x1 hr).1, (takeWhile_digits_ws x1 hr).2] at h
          rw [parseNum_digit _ h19, (takeWhile_digits_ws x1 hr').1,
            (takeWhile_digits_ws x1 hr').2, assemble_swap hr hr' h]
        · exfalso
          rw [parseNum_cons_none _ hcn h0 (by simpa using h19)] at h
          simp at h

theorem stripLit_some {lit : Str} : ∀ {s r : Str}, stripLit lit s = some r ↔ s = lit ++ r := by
  induction lit with
  | nil => intro s r; simp [stripLit]
  | cons l ls ih =>
    intro s r
    cases s with
    | nil => simp [stripLit]
    | cons c cs =>
      by_cases hc : c = l
      · subst hc
        simp [stripLit, ih]
      · simp [stripLit, hc, Ne.symm hc]

theorem parseVal_zero (s : Str) : parseVal 0 s = none := rfl

theorem parseVal_succ_nil (fuel : Nat) : parseVal (fuel + 1) [] = none := rfl

theorem parseVal_succ_cons (fuel : Nat) (c : Char) (rest : Str) :
    parseVal (fuel + 1) (c :: rest) =
      (if c = '"' then (parseStrBody (rest.length + 1) rest).map (fun p => (.str p.1, p.2))
      else if c = '\x7b' then
        (if (skipWs rest).head? = some '\x7d' then some (.obj [], (skipWs rest).tail)
         else parseObjRest fuel (skipWs rest) [])
      else if c = '[' then
        (if (skipWs rest).head? = some ']' then some (.arr [], (skipWs rest).tail)
         else
           match parseVal fuel (skipWs rest) with
           | none => none
           | some (v, r2) => parseArrRest fuel (skipWs r2) [v])
      else if c = 'n' then
        (match stripLit ['u', 'l', 'l'] rest with
         | some r => some (.null, r)
         | none => (parseNum (c :: rest)).map (fun p => (.num p.1, p.2)))
      else if c = 't' then
        (match stripLit ['r', 'u', 'e'] rest with
         | some r => some (.bool true, r)
         | none => (parseNum (c :: rest)).map (fun p => (.num p.1, p.2)))
      else if c = 'f' then
        (match stripLit ['a', 'l', 's', 'e'] rest with
         | some r => some (.bool false, r)
         | none => (parseNum (c :: rest)).map (fun p => (.num p.1, p.2)))
      else if c = 'N' then
        (match stripLit ['a', 'N'] rest with
         | some r => some (.num ['N', 'a', 'N'], r)
         | none => (parseNum (c :: rest)).map (fun p => (.num p.1, p.2)))
      else if c = 'I' then
        (match stripLit ['n', 'f', 'i', 'n', 'i', 't', 'y'] rest with
         | some r => some (.num ['I', 'n', 'f', 'i', 'n', 'i', 't', 'y'], r)
         | none => (parseNum (c :: rest)).map (fun p => (.num p.1, p.2)))
      else if c = '-' then
        (match stripLit ['I', 'n', 'f', 'i', 'n', 'i', 't', 'y'] rest with
         | some r => some (.num ['-', 'I', 'n', 'f', 'i', 'n', 'i', 't', 'y'], r)
         | none => (parseNum (c :: rest)).map (fun p => (.num p.1, p.2)))
      else (parseNum (c :: rest)).map (fun p => (.num p.1, p.2))) := rfl

theorem parseObjRest_zero (s : Str) (acc : List (Str × Json)) :
    parseObjRest 0 s acc = none := rfl

theorem parseObjRest_succ_nil (fuel : Nat) (acc : List (Str × Json)) :
    parseObjRest (fuel + 1) [] acc = none := rfl

theorem parseObjRest_succ_cons (fuel : Nat) (c : Char) (r1 : Str) (acc : List (Str × Json)) :
    parseObjRest (fuel + 1) (c :: r1) acc =
      (if c = '"' then
        (match parseStrBody (r1.length + 1) r1 with
         | none => none
         | some (key, r2) =>
           if (skipWs r2).head? = some ':' then
             match parseVal fuel (skipWs ((skipWs r2).tail)) with
             | none => none
             | some (v, r4) =>
               if (skipWs r4).head? = some ',' then
                 parseObjRest fuel (skipWs ((skipWs r4).tail)) (objInsert acc key v)
               else if (skipWs r4).head? = some '\x7d' then
                 some (.obj (objInsert acc key v), (skipWs r4).tail)
               else none
           else none)
      else none) := rfl

theorem parseArrRest_zero (s : Str) (acc : List Json) : parseArrRest 0 s acc = none := rfl

theorem parseArrRest_succ_nil (fuel : Nat) (acc : List Json) :
    parseArrRest (fuel + 1) [] acc = none := rfl

theorem parseArrRest_succ_cons (fuel : Nat) (c : Char) (r : Str) (acc : List Json) :
    parseArrRest (fuel + 1) (c :: r) acc =
      (if c = ']' then some (.arr acc.reverse, r)
      else if c = ',' then
        (match parseVal fuel (skipWs r) with
         | none => none
         | some (v, r2) => parseArrRest fuel (skipWs r2) (v :: acc))
      else none) := rfl

theorem skipWs_decomp (l : Str) : l = l.takeWhile isJsonWs ++ skipWs l :=
  (List.takeWhile_append_dropWhile isJsonWs l).symm

theorem skipWs_all_nil {r : Str} (h : r.all isJsonWs = true) : skipWs r = [] := by
  unfold skipWs
  rw [List.dropWhile_eq_nil_iff]
  intro x hx
  exact (List.all_eq_true.mp h) x hx

theorem head_some_shape {l : Str} {a : Char} (h : l.head? = some a) : l = a :: l.tail := by
  cases l with
  | nil => simp at h
  | cons d q =>
    simp at h
    subst h
    rfl

theorem skipWs_append_not_all {x : Str} (r : Str) (h : x.all isJsonWs = false) :
    skipWs (x ++ r) = skipWs x ++ r := by
  unfold skipWs
  induction x with
  | nil => simp at h
  | cons c cs ih =>
    by_cases hc : isJsonWs c = true
    · rw [List.all_cons, hc, Bool.true_and] at h
      rw [List.cons_append, List.dropWhile_cons_of_pos hc, List.dropWhile_cons_of_pos hc]
      exact ih h
    · rw [List.cons_append, List.dropWhile_cons_of_neg hc, List.dropWhile_cons_of_neg hc]
      rfl

theorem skipWs_head_false {t : Str} {c : Char} {q : Str} (h : skipWs t = c :: q) :
    isJsonWs c = false := by
  unfold skipWs at h
  induction t with
  | nil => simp at h
  | cons d t2 ih =>
    by_cases hd : isJsonWs d = true
    · rw [List.dropWhile_cons_of_pos hd] at h
      exact ih h
    · rw [List.dropWhile_cons_of_neg hd] at h
      injection h with h1 _
      rw [← h1]
      exact Bool.not_eq_true _ ▸ (by simpa using hd)

theorem parsers_consume : ∀ (f : Nat),
    (∀ (s : Str) (v : Json) (rest : Str), parseVal f s = some (v, rest) →
      ∃ w c, s = w ++ c :: rest ∧ isPyWs c = false) ∧
    (∀ (s : Str) (acc : List (Str × Json)) (v : Json) (rest : Str),
      parseObjRest f s acc = some (v, rest) →
      ∃ w c, s = w ++ c :: rest ∧ isPyWs c = false) ∧
    (∀ (s : Str) (acc : List Json) (v : Json) (rest : Str),
      parseArrRest f s acc = some (v, rest) →
      ∃ w c, s = w ++ c :: rest ∧ isPyWs c = false) := by
  intro f
  induction f with
  | zero =>
    refine ⟨?_, ?_, ?_⟩
    · intro s v rest h; rw [parseVal_zero] at h; simp at h
    · intro s acc v rest h; rw [parseObjRest_zero] at h; simp at h
    · intro s acc v rest h; rw [parseArrRest_zero] at h; simp at h
  | succ f ih =>
    obtain ⟨ihv, iho, iha⟩ := ih
    have numcase : ∀ (s' : Str) (v : Json) (rest : Str),
        (parseNum s').map (fun p => (Json.num p.1, p.2)) = some (v, rest) →
        ∃ w c, s' = w ++ c :: rest ∧ isPyWs c = false := by
      intro s' v rest h
      rcases hp : parseNum s' with _ | ⟨lex, rest2⟩
      · rw [hp] at h; simp at h
      · rw [hp] at h; simp at h
        obtain ⟨hv, hrest⟩ := h
        obtain ⟨hs, hne, hlast, hhead⟩ := parseNum_consume hp
        rcases List.eq_nil_or_concat lex with hlex | ⟨w0, d, hlex⟩
        · exact absurd hlex hne
        · subst hlex
          refine ⟨w0, d, ?_, ?_⟩
          · rw [hs, hrest]; simp
          · exact digit_not_pyWs (hlast d (by simp))
    refine ⟨?_, ?_, ?_⟩
    · intro s v rest h
      cases s with
      | nil => rw [parseVal_succ_nil] at h; simp at h
      | cons c rest0 =>
        rw [parseVal_succ_cons] at h
        by_cases hq : c = '"'
        · subst hq
          rw [if_pos rfl] at h
          rcases hp : parseStrBody (rest0.length + 1) rest0 with _ | p
          · rw [hp] at h; simp at h
          · rw [hp] at h; simp at h
            obtain ⟨hv, hrest⟩ := h
            obtain ⟨u, hspl, hune, hulast, _, _⟩ := parseStrBody_splice _ _ _ _ hp
            rcases List.eq_nil_or_concat u with hu | ⟨w0, cl, hu⟩
            · exact absurd hu hune
            · subst hu
              rw [List.concat_eq_append] at hspl hulast
              rw [List.getLast?_concat] at hulast
              injection hulast with hcl
              refine ⟨'"' :: w0, cl, ?_, ?_⟩
              · rw [hspl, hrest]; simp
              · rw [hcl]; decide
        · rw [if_neg hq] at h
          by_cases hb : c = '\x7b'
          · subst hb
            rw [if_pos rfl] at h
            by_cases hh : (skipWs rest0).head? = some '\x7d'
            · rw [if_pos hh] at h
              rcases hsw : skipWs rest0 with _ | ⟨d, q⟩
              · rw [hsw] at hh; simp at hh
              · rw [hsw] at hh h
                simp at hh
                subst hh
                injection h with h
                rw [Prod.mk.injEq] at h
                obtain ⟨hv, hrest⟩ := h
                simp at hrest
                refine ⟨'\x7b' :: rest0.takeWhile isJsonWs, '\x7d', ?_, by decide⟩
                conv_lhs => rw [skipWs_decomp rest0]
                rw [hsw, ← hrest]
                simp
            · rw [if_neg hh] at h
              obtain ⟨w2, c2, hsw, hc2⟩ := iho _ _ _ _ h
              refine ⟨'\x7b' :: (rest0.takeWhile isJsonWs ++ w2), c2, ?_, hc2⟩
              conv_lhs => rw [skipWs_decomp rest0]
              rw [hsw]
              simp
          · rw [if_neg hb] at h
            by_cases hbr : c = '['
            · subst hbr
              rw [if_pos rfl] at h
              by_cases hh : (skipWs rest0).head? = some ']'
              · rw [if_pos hh] at h
                rcases hsw : skipWs rest0 with _ | ⟨d, q⟩
                · rw [hsw] at hh; simp at hh
                · rw [hsw] at hh h
                  simp at hh
                  subst hh
                  injection h with h
                  rw [Prod.mk.injEq] at h
                  obtain ⟨hv, hrest⟩ := h
                  simp at hrest
                  refine ⟨'[' :: rest0.takeWhile isJsonWs, ']', ?_, by decide⟩
                  conv_lhs => rw [skipWs_decomp rest0]
                  rw [hsw, ← hrest]
                  simp
              · rw [if_neg hh] at h
                rcases hpv : parseVal f (skipWs rest0) with _ | ⟨v1, r2⟩
                · rw [hpv] at h; simp at h
                · rw [hpv] at h
                  obtain ⟨wv, cv, hswv, hcv⟩ := ihv _ _ _ hpv
                  obtain ⟨w3, c3, hsw3, hc3⟩ := iha _ _ _ _ h
                  refine ⟨'[' :: (rest0.takeWhile isJsonWs ++ wv ++ cv ::
                    (r2.takeWhile isJsonWs ++ w3)), c3, ?_, hc3⟩
                  conv_lhs => rw [skipWs_decomp rest0]
                  rw [hswv]
                  conv_lhs => rw [skipWs_decomp r2]
                  rw [hsw3]
                  simp
            · rw [if_neg hbr] at h
              by_cases hn : c = 'n'
              · subst hn
                rw [if_pos rfl] at h
                rcases hsl : stripLit ['u', 'l', 'l'] rest0 with _ | r
                · rw [hsl] at h
                  exact numcase _ _ _ h
                · rw [hsl] at h
                  injection h with h
                  rw [Prod.mk.injEq] at h
                  obtain ⟨hv, hrest⟩ := h
                  rw [stripLit_some] at hsl
                  refine ⟨['n', 'u', 'l'], 'l', ?_, by decide⟩
                  rw [hsl, hrest]
                  simp
              · rw [if_neg hn] at h
                by_cases ht : c = 't'
                · subst ht
                  rw [if_pos rfl] at h
                  rcases hsl : stripLit ['r', 'u', 'e'] rest0 with _ | r
                  · rw [hsl] at h
                    exact numcase _ _ _ h
                  · rw [hsl] at h
                    injection h with h
                    rw [Prod.mk.injEq] at h
                    obtain ⟨hv, hrest⟩ := h
                    rw [stripLit_some] at hsl
                    refine ⟨['t', 'r', 'u'], 'e', ?_, by decide⟩
                    rw [hsl, hrest]
                    simp
                · rw [if_neg ht] at h
                  by_cases hf : c = 'f'
                  · subst hf
                    rw [if_pos rfl] at h
                    rcases hsl : stripLit ['a', 'l', 's', 'e'] rest0 with _ | r
                    · rw [hsl] at h
                      exact numcase _ _ _ h
                    · rw [hsl] at h
                      injection h with h
                      rw [Prod.mk.injEq] at h
                      obtain ⟨hv, hrest⟩ := h
                      rw [stripLit_some] at hsl
                      refine ⟨['f', 'a', 'l', 's'], 'e', ?_, by decide⟩
                      rw [hsl, hrest]
                      simp
                  · rw [if_neg hf] at h
                    by_cases hN : c = 'N'
                    · subst hN
                      rw [if_pos rfl] at h
                      rcases hsl : stripLit ['a', 'N'] rest0 with _ | r
                      · rw [hsl] at h
                        exact numcase _ _ _ h
                      · rw [hsl] at h
                        injection h with h
                        rw [Prod.mk.injEq] at h
                        obtain ⟨hv, hrest⟩ := h
                        rw [stripLit_some] at hsl
                        refine ⟨['N', 'a'], 'N', ?_, by decide⟩
                        rw [hsl, hrest]
                        simp
                    · rw [if_neg hN] at h
                      by_cases hI : c = 'I'
                      · subst hI
                        rw [if_pos rfl] at h
                        rcases hsl : stripLit ['n', 'f', 'i', 'n', 'i', 't', 'y'] rest0 with _ | r
                        · rw [hsl] at h
                          exact numcase _ _ _ h
                        · rw [hsl] at h
                          injection h with h
                          rw [Prod.mk.injEq] at h
                          obtain ⟨hv, hrest⟩ := h
                          rw [stripLit_some] at hsl
                          refine ⟨['I', 'n', 'f', 'i', 'n', 'i', 't'], 'y', ?_, by decide⟩
                          rw [hsl, hrest]
                          simp
                      · rw [if_neg hI] at h
                        by_cases hm : c = '-'
                        · subst hm
                          rw [if_pos rfl] at h
                          rcases hsl : stripLit ['I', 'n', 'f', 'i', 'n', 'i', 't', 'y'] rest0 with _ | r
                          · rw [hsl] at h
                            exact numcase _ _ _ h
                          · rw [hsl] at h
                            injection h with h
                            rw [Prod.mk.injEq] at h
                            obtain ⟨hv, hrest⟩ := h
                            rw [stripLit_some] at hsl
                            refine ⟨['-', 'I', 'n', 'f', 'i', 'n', 'i', 't'], 'y', ?_, by decide⟩
                            rw [hsl, hrest]
                            simp
                        · rw [if_neg hm] at h
                          exact numcase _ _ _ h
    · intro s acc v rest h
      cases s with
      | nil => rw [parseObjRest_succ_nil] at h; simp at h
      | cons c r1 =>
        rw [parseObjRest_succ_cons] at h
        by_cases hq : c = '"'
        · subst hq
          rw [if_pos rfl] at h
          rcases hp : parseStrBody (r1.length + 1) r1 with _ | ⟨key, r2⟩
          · rw [hp] at h; simp at h
          · rw [hp] at h
            simp only [] at h
            obtain ⟨uk, hspl, hukne, huklast, _, _⟩ := parseStrBody_splice _ _ _ _ hp
            by_cases hcol : (skipWs r2).head? = some ':'
            · rw [if_pos hcol] at h
              rcases hsw2 : skipWs r2 with _ | ⟨d2, q2⟩
              · rw [hsw2] at hcol; simp at hcol
              · rw [hsw2] at hcol h
                simp at hcol
                subst hcol
                simp only [List.tail_cons] at h
                rcases hpv : parseVal f (skipWs q2) with _ | ⟨v1, r4⟩
                · rw [hpv] at h; simp at h
                · rw [hpv] at h
                  simp only [] at h
                  obtain ⟨wv, cv, hswv, hcv⟩ := ihv _ _ _ hpv
                  by_cases hcm : (skipWs r4).head? = some ','
                  · rw [if_pos hcm] at h
                    rcases hsw4 : skipWs r4 with _ | ⟨d4, q5⟩
                    · rw [hsw4] at hcm; simp at hcm
                    · rw [hsw4] at hcm h
                      simp at hcm
                      subst hcm
                      simp only [List.tail_cons] at h
                      obtain ⟨w5, c5, hsw5, hc5⟩ := iho _ _ _ _ h
                      refine ⟨'"' :: (uk ++ (r2.takeWhile isJsonWs ++ ':' ::
                        (q2.takeWhile isJsonWs ++ wv ++ cv :: (r4.takeWhile isJsonWs ++ ',' ::
                        (q5.takeWhile isJsonWs ++ w5))))), c5, ?_, hc5⟩
                      rw [hspl]
                      conv_lhs => rw [skipWs_decomp r2]
                      rw [hsw2]
                      conv_lhs => rw [skipWs_decomp q2]
                      rw [hswv]
                      conv_lhs => rw [skipWs_decomp r4]
                      rw [hsw4]
                      conv_lhs => rw [skipWs_decomp q5]
                      rw [hsw5]
                      simp
                  · rw [if_neg hcm] at h
                    by_cases hcb : (skipWs r4).head? = some '\x7d'
                    · rw [if_pos hcb] at h
                      rcases hsw4 : skipWs r4 with _ | ⟨d4, q5⟩
                      · rw [hsw4] at hcb; simp at hcb
                      · rw [hsw4] at hcb h
                        simp at hcb
                        subst hcb
                        injection h with h
                        rw [Prod.mk.injEq] at h
                        obtain ⟨hv, hrest⟩ := h
                        simp at hrest
                        refine ⟨'"' :: (uk ++ (r2.takeWhile isJsonWs ++ ':' ::
                          (q2.takeWhile isJsonWs ++ wv ++ cv :: r4.takeWhile isJsonWs))),
                          '\x7d', ?_, by decide⟩
                        rw [hspl]
                        conv_lhs => rw [skipWs_decomp r2]
                        rw [hsw2]
                        conv_lhs => rw [skipWs_decomp q2]
                        rw [hswv]
                        conv_lhs => rw [skipWs_decomp r4]
                        rw [hsw4, ← hrest]
                        simp
                    · rw [if_neg hcb] at h; simp at h
            · rw [if_neg hcol] at h; simp at h
        · rw [if_neg hq] at h; simp at h
    · intro s acc v rest h
      cases s with
      | nil => rw [parseArrRest_succ_nil] at h; simp at h
      | cons c r =>
        rw [parseArrRest_succ_cons] at h
        by_cases hb : c = ']'
        · subst hb
          rw [if_pos rfl] at h
          injection h with h
          rw [Prod.mk.injEq] at h
          obtain ⟨hv, hrest⟩ := h
          exact ⟨[], ']', by rw [hrest]; simp, by decide⟩
        · rw [if_neg hb] at h
          by_cases hc : c = ','
          · subst hc
            rw [if_pos rfl] at h
            rcases hpv : parseVal f (skipWs r) with _ | ⟨v1, r2⟩
            · rw [hpv] at h; simp at h
            · rw [hpv] at h
              obtain ⟨wv, cv, hswv, hcv⟩ := ihv _ _ _ hpv
              obtain ⟨w3, c3, hsw3, hc3⟩ := iha _ _ _ _ h
              refine ⟨',' :: (r.takeWhile isJsonWs ++ wv ++ cv ::
                (r2.takeWhile isJsonWs ++ w3)), c3, ?_, hc3⟩
              conv_lhs => rw [skipWs_decomp r]
              rw [hswv]
              conv_lhs => rw [skipWs_decomp r2]
              rw [hsw3]
              simp
          · rw [if_neg hc] at h; simp at h

theorem parseVal_nil_any (f : Nat) : parseVal f [] = none := by
  cases f <;> rfl

theorem parseObjRest_nil_any (f : Nat) (acc : List (Str × Json)) :
    parseObjRest f [] acc = none := by
  cases f <;> rfl

theorem parseArrRest_nil_any (f : Nat) (acc : List Json) :
    parseArrRest f [] acc = none := by
  cases f <;> rfl

theorem parseVal_allWs_none {r : Str} (hr : r.all isJsonWs = true) (f : Nat) :
    parseVal f r = none := by
  cases f with
  | zero => rfl
  | succ f =>
    cases r with
    | nil => rfl
    | cons c cs =>
      rw [List.all_cons, Bool.and_eq_true] at hr
      have hw := jsonWs_not_tokens hr.1
      rw [parseVal_succ_cons,
        if_neg hw.2.2.2.2.2.2.2.2.1,
        if_neg hw.2.2.2.2.2.2.2.2.2.1,
        if_neg hw.2.2.2.2.2.2.2.2.2.2.1,
        if_neg hw.2.2.2.2.2.2.2.2.2.2.2.2.2.2.2.1,
        if_neg hw.2.2.2.2.2.2.2.2.2.2.2.2.2.2.2.2.1,
        if_neg hw.2.2.2.2.2.2.2.2.2.2.2.2.2.2.2.2.2.1,
        if_neg hw.2.2.2.2.2.2.2.2.2.2.2.2.2.2.2.2.2.2.1,
        if_neg hw.2.2.2.2.2.2.2.2.2.2.2.2.2.2.2.2.2.2.2,
        if_neg hw.2.2.2.2.2.2.1]
      rw [parseNum_cons_none cs hw.2.2.2.2.2.2.1 hw.2.2.2.2.2.2.2.1 hw.2.1]
      rfl

theorem parseObjRest_allWs_none {r : Str} (hr : r.all isJsonWs = true) (f : Nat)
    (acc : List (Str × Json)) : parseObjRest f r acc = none := by
  cases f with
  | zero => rfl
  | succ f =>
    cases r with
    | nil => rfl
    | cons c cs =>
      rw [List.all_cons, Bool.and_eq_true] at hr
      have hw := jsonWs_not_tokens hr.1
      rw [parseObjRest_succ_cons, if_neg hw.2.2.2.2.2.2.2.2.1]

theorem parseArrRest_allWs_none {r : Str} (hr : r.all isJsonWs = true) (f : Nat)
    (acc : List Json) : parseArrRest f r acc = none := by
  cases f with
  | zero => rfl
  | succ f =>
    cases r with
    | nil => rfl
    | cons c cs =>
      rw [List.all_cons, Bool.and_eq_true] at hr
      have hw := jsonWs_not_tokens hr.1
      rw [parseArrRest_succ_cons, if_neg hw.2.2.2.2.2.2.2.2.2.2.2.2.1,
        if_neg hw.2.2.2.2.2.2.2.2.2.2.2.2.2.1]

theorem skipWs_eq_nil_iff {l : Str} : skipWs l = [] ↔ l.all isJsonWs = true := by
  unfold skipWs
  rw [List.dropWhile_eq_nil_iff, List.all_eq_true]

theorem not_all_of_skipWs_cons {y : Str} {d : Char} {q : Str} (h : skipWs y = d :: q) :
    y.all isJsonWs = false := by
  by_contra hb
  rw [Bool.not_eq_false] at hb
  rw [skipWs_eq_nil_iff.mpr hb] at h
  simp at h

theorem seg_split (x1 r uk r2 : Str) (hr : r.all isJsonWs = true)
    (hne : uk ≠ []) (hlast : ∀ d, uk.getLast? = some d → isJsonWs d = false)
    (heq : x1 ++ r = uk ++ r2) :
    ∃ y2, x1 = uk ++ y2 ∧ r2 = y2 ++ r := by
  by_cases hlen : uk.length ≤ x1.length
  · obtain ⟨h1, h2⟩ := append_split heq hlen
    exact ⟨x1.drop uk.length, h1, h2⟩
  · exfalso
    have hlen2 : x1.length ≤ uk.length := by omega
    obtain ⟨h1, h2⟩ := append_split heq.symm hlen2
    rcases hmid : uk.drop x1.length with _ | ⟨m, mid⟩
    · rw [hmid] at h1
      have : uk.length = x1.length := by rw [h1]; simp
      omega
    · rw [hmid] at h1 h2
      rcases hgl : (m :: mid : Str).getLast? with _ | gl
      · rw [List.getLast?_eq_none_iff] at hgl
        simp at hgl
      · have hlast2 := hlast gl
          (by rw [h1, List.getLast?_append_of_ne_nil _ (by simp : (m :: mid : Str) ≠ [])]
              exact hgl)
        have hmem : gl ∈ (m :: mid : Str) := List.mem_of_mem_getLast? hgl
        have hws : isJsonWs gl = true := by
          rw [h2, List.all_append, Bool.and_eq_true] at hr
          exact List.all_eq_true.mp hr.1 _ hmem
        rw [hlast2] at hws
        simp at hws

theorem stripLit_head_ne {l c : Char} {ls cs : Str} (h : c ≠ l) :
    stripLit (l :: ls) (c :: cs) = none := by
  unfold stripLit
  rw [if_neg h]

theorem length_skipWs_le (l : Str) : (skipWs l).length ≤ l.length := by
  unfold skipWs
  exact List.IsSuffix.length_le (List.dropWhile_suffix _)

theorem parsers_swap : ∀ (f : Nat),
    (∀ (x r r' z : Str) (g : Nat) (v : Json),
      r.all isJsonWs = true → r'.all isJsonWs = true → x.length + 1 ≤ g →
      parseVal f (x ++ r) = some (v, z ++ r) →
      parseVal g (x ++ r') = some (v, z ++ r')) ∧
    (∀ (x r r' z : Str) (g : Nat) (acc : List (Str × Json)) (v : Json),
      r.all isJsonWs = true → r'.all isJsonWs = true → x.length + 1 ≤ g →
      parseObjRest f (x ++ r) acc = some (v, z ++ r) →
      parseObjRest g (x ++ r') acc = some (v, z ++ r')) ∧
    (∀ (x r r' z : Str) (g : Nat) (acc : List Json) (v : Json),
      r.all isJsonWs = true → r'.all isJsonWs = true → x.length + 1 ≤ g →
      parseArrRest f (x ++ r) acc = some (v, z ++ r) →
      parseArrRest g (x ++ r') acc = some (v, z ++ r')) := by
  intro f
  induction f with
  | zero =>
    refine ⟨?_, ?_, ?_⟩
    · intro x r r' z g v _ _ _ h; rw [parseVal_zero] at h; simp at h
    · intro x r r' z g acc v _ _ _ h; rw [parseObjRest_zero] at h; simp at h
    · intro x r r' z g acc v _ _ _ h; rw [parseArrRest_zero] at h; simp at h
  | succ f ih =>
    obtain ⟨ihv, iho, iha⟩ := ih
    refine ⟨?_, ?_, ?_⟩
    · intro x r r' z g v hr hr' hg h
      cases g with
      | zero => simp at hg
      | succ g0 =>
      cases x with
      | nil =>
        rw [List.nil_append] at h
        rw [parseVal_allWs_none hr (f + 1)] at h
        simp at h
      | cons c x1 =>
        have hgx : x1.length + 1 ≤ g0 := by
          simp only [List.length_cons] at hg
          omega
        rw [List.cons_append] at h ⊢
        rw [parseVal_succ_cons] at h
        rw [parseVal_succ_cons]
        by_cases hq : c = '"'
        · subst hq
          rw [if_pos rfl] at h ⊢
          rcases hp : parseStrBody ((x1 ++ r).length + 1) (x1 ++ r) with _ | p
          · rw [hp] at h; simp at h
          · rw [hp] at h; simp at h
            obtain ⟨hv, hrest⟩ := h
            obtain ⟨u, hspl, hune, hulast, _, hreplay⟩ := parseStrBody_splice _ _ _ _ hp
            rw [hrest] at hspl
            have hx1 : x1 = u ++ z := by
              have h2 : x1 ++ r = (u ++ z) ++ r := by rw [hspl]; simp [List.append_assoc]
              exact List.append_cancel_right h2
            rw [show x1 ++ r' = u ++ (z ++ r') from by rw [hx1]; simp]
            rw [hreplay _ _ (by simp)]
            simp [← hv]
        · rw [if_neg hq] at h ⊢
          by_cases hb : c = '\x7b'
          · subst hb
            rw [if_pos rfl] at h ⊢
            by_cases hall : x1.all isJsonWs = true
            · exfalso
              have hnil : skipWs (x1 ++ r) = [] :=
                skipWs_eq_nil_iff.mpr (by rw [List.all_append]; simp [hall, hr])
              rw [hnil] at h
              rw [if_neg (by simp)] at h
              rw [parseObjRest_nil_any] at h
              simp at h
            · have hnall : x1.all isJsonWs = false := by simpa using hall
              have hsw := skipWs_append_not_all r hnall
              have hsw' := skipWs_append_not_all r' hnall
              rcases hswx : skipWs x1 with _ | ⟨d, q⟩
              · rw [skipWs_eq_nil_iff] at hswx
                rw [hswx] at hnall
                simp at hnall
              · have hlq : q.length + 1 ≤ x1.length := by
                  have h1 := length_skipWs_le x1
                  rw [hswx] at h1
                  simpa using h1
                rw [hsw, hswx] at h
                rw [hsw', hswx]
                simp only [List.cons_append, List.head?_cons] at h ⊢
                by_cases hd : d = '\x7d'
                · subst hd
                  rw [if_pos rfl] at h ⊢
                  simp only [List.tail_cons] at h ⊢
                  injection h with h
                  rw [Prod.mk.injEq] at h
                  obtain ⟨hv, hrest⟩ := h
                  have hz : q = z := List.append_cancel_right hrest
                  rw [← hv, hz]
                · rw [if_neg (by simp [hd])] at h ⊢
                  exact iho (d :: q) r r' z g0 [] v hr hr' (by simp; omega) h
          · rw [if_neg hb] at h ⊢
            by_cases hbr : c = '['
            · subst hbr
              rw [if_pos rfl] at h ⊢
              by_cases hall : x1.all isJsonWs = true
              · exfalso
                have hnil : skipWs (x1 ++ r) = [] :=
                  skipWs_eq_nil_iff.mpr (by rw [List.all_append]; simp [hall, hr])
                rw [hnil] at h
                rw [if_neg (by simp)] at h
                rw [parseVal_nil_any] at h
                simp at h
              · have hnall : x1.all isJsonWs = false := by simpa using hall
                have hsw := skipWs_append_not_all r hnall
                have hsw' := skipWs_append_not_all r' hnall
                rcases hswx : skipWs x1 with _ | ⟨d, q⟩
                · rw [skipWs_eq_nil_iff] at hswx
                  rw [hswx] at hnall
                  simp at hnall
                · have hlq : q.length + 1 ≤ x1.length := by
                    have h1 := length_skipWs_le x1
                    rw [hswx] at h1
                    simpa using h1
                  rw [hsw, hswx] at h
                  rw [hsw', hswx]
                  simp only [List.cons_append, List.head?_cons] at h ⊢
                  by_cases hd : d = ']'
                  · subst hd
                    rw [if_pos rfl] at h ⊢
                    simp only [List.tail_cons] at h ⊢
                    injection h with h
                    rw [Prod.mk.injEq] at h
                    obtain ⟨hv, hrest⟩ := h
                    have hz : q = z := List.append_cancel_right hrest
                    rw [← hv, hz]
                  · rw [if_neg (by simp [hd])] at h ⊢
                    rcases hpv : parseVal f (d :: q ++ r) with _ | ⟨v1, r2⟩
                    · rw [show (d :: (q ++ r) : Str) = d :: q ++ r from by simp] at h
                      rw [hpv] at h
                      simp at h
                    · rw [show (d :: (q ++ r) : Str) = d :: q ++ r from by simp] at h
                      rw [hpv] at h
                      simp only [] at h
                      obtain ⟨w6, c6, hcs, hc6⟩ := (parsers_consume f).2.2 _ _ _ _ h
                      obtain ⟨w7, c7, hcs7, hc7⟩ := (parsers_consume f).1 _ _ _ hpv
                      obtain ⟨y2, hy1, hy2⟩ := seg_split (d :: q) r (w7 ++ [c7]) r2 hr
                        (by simp)
                        (fun dd hdd => by
                          rw [List.getLast?_concat] at hdd
                          injection hdd with hdd
                          subst hdd
                          by_contra hws
                          rw [Bool.not_eq_false] at hws
                          rw [jsonWs_isPyWs hws] at hc7
                          simp at hc7)
                        (by rw [hcs7]; simp)
                      subst hy2
                      have hpv2 := ihv (d :: q) r r' y2 g0 v1 hr hr'
                        (by simp only [List.length_cons]; omega) hpv
                      rw [show (d :: (q ++ r') : Str) = d :: q ++ r' from by simp]
                      rw [hpv2]
                      simp only []
                      have hy2nall : y2.all isJsonWs = false := by
                        by_contra hb2
                        rw [Bool.not_eq_false] at hb2
                        have : skipWs (y2 ++ r) = [] :=
                          skipWs_eq_nil_iff.mpr (by rw [List.all_append]; simp [hb2, hr])
                        rw [this] at hcs
                        exact absurd hcs.symm (by simp)
                      have hsw2 := skipWs_append_not_all r hy2nall
                      have hsw2' := skipWs_append_not_all r' hy2nall
                      rw [hsw2] at h
                      rw [hsw2']
                      have hLy2 : q.length = w7.length + y2.length := by
                        have := congrArg List.length hy1
                        simp at this
                        omega
                      exact iha (skipWs y2) r r' z g0 [v1] v hr hr'
                        (by have := length_skipWs_le y2; omega) h
            · rw [if_neg hbr] at h ⊢
              by_cases hn : c = 'n'
              · subst hn
                rw [if_pos rfl] at h ⊢
                rcases hsl : stripLit ['u', 'l', 'l'] (x1 ++ r) with _ | r0
                · rw [hsl] at h
                  rw [parseNum_cons_none (x1 ++ r) (by decide) (by decide) (by decide)] at h
                  simp at h
                · rw [hsl] at h
                  injection h with h
                  rw [Prod.mk.injEq] at h
                  obtain ⟨hv, hrest⟩ := h
                  rw [stripLit_some] at hsl
                  rw [hrest] at hsl
                  have hx1 : x1 = ['u', 'l', 'l'] ++ z := by
                    have h2 : x1 ++ r = (['u', 'l', 'l'] ++ z) ++ r := by
                      rw [hsl]; simp [List.append_assoc]
                    exact List.append_cancel_right h2
                  rw [show stripLit ['u', 'l', 'l'] (x1 ++ r') = some (z ++ r') from
                    stripLit_some.mpr (by rw [hx1]; simp [List.append_assoc])]
                  rw [← hv]
              · rw [if_neg hn] at h ⊢
                by_cases ht : c = 't'
                · subst ht
                  rw [if_pos rfl] at h ⊢
                  rcases hsl : stripLit ['r', 'u', 'e'] (x1 ++ r) with _ | r0
                  · rw [hsl] at h
                    rw [parseNum_cons_none (x1 ++ r) (by decide) (by decide) (by decide)] at h
                    simp at h
                  · rw [hsl] at h
                    injection h with h
                    rw [Prod.mk.injEq] at h
                    obtain ⟨hv, hrest⟩ := h
                    rw [stripLit_some] at hsl
                    rw [hrest] at hsl
                    have hx1 : x1 = ['r', 'u', 'e'] ++ z := by
                      have h2 : x1 ++ r = (['r', 'u', 'e'] ++ z) ++ r := by
                        rw [hsl]; simp [List.append_assoc]
                      exact List.append_cancel_right h2
                    rw [show stripLit ['r', 'u', 'e'] (x1 ++ r') = some (z ++ r') from
                      stripLit_some.mpr (by rw [hx1]; simp [List.append_assoc])]
                    rw [← hv]
                · rw [if_neg ht] at h ⊢
                  by_cases hf : c = 'f'
                  · subst hf
                    rw [if_pos rfl] at h ⊢
                    rcases hsl : stripLit ['a', 'l', 's', 'e'] (x1 ++ r) with _ | r0
                    · rw [hsl] at h
                      rw [parseNum_cons_none (x1 ++ r) (by decide) (by decide) (by decide)] at h
                      simp at h
                    · rw [hsl] at h
                      injection h with h
                      rw [Prod.mk.injEq] at h
                      obtain ⟨hv, hrest⟩ := h
                      rw [stripLit_some] at hsl
                      rw [hrest] at hsl
                      have hx1 : x1 = ['a', 'l', 's', 'e'] ++ z := by
                        have h2 : x1 ++ r = (['a', 'l', 's', 'e'] ++ z) ++ r := by
                          rw [hsl]; simp [List.append_assoc]
                        exact List.append_cancel_right h2
                      rw [show stripLit ['a', 'l', 's', 'e'] (x1 ++ r') = some (z ++ r') from
                        stripLit_some.mpr (by rw [hx1]; simp [List.append_assoc])]
                      rw [← hv]
                  · rw [if_neg hf] at h ⊢
                    by_cases hN : c = 'N'
                    · subst hN
                      rw [if_pos rfl] at h ⊢
                      rcases hsl : stripLit ['a', 'N'] (x1 ++ r) with _ | r0
                      · rw [hsl] at h
                        rw [parseNum_cons_none (x1 ++ r) (by decide) (by decide) (by decide)] at h
                        simp at h
                      · rw [hsl] at h
                        injection h with h
                        rw [Prod.mk.injEq] at h
                        obtain ⟨hv, hrest⟩ := h
                        rw [stripLit_some] at hsl
                        rw [hrest] at hsl
                        have hx1 : x1 = ['a', 'N'] ++ z := by
                          have h2 : x1 ++ r = (['a', 'N'] ++ z) ++ r := by
                            rw [hsl]; simp [List.append_assoc]
                          exact List.append_cancel_right h2
                        rw [show stripLit ['a', 'N'] (x1 ++ r') = some (z ++ r') from
                          stripLit_some.mpr (by rw [hx1]; simp [List.append_assoc])]
                        rw [← hv]
                    · rw [if_neg hN] at h ⊢
                      by_cases hI : c = 'I'
                      · subst hI
                        rw [if_pos rfl] at h ⊢
                        rcases hsl : stripLit ['n', 'f', 'i', 'n', 'i', 't', 'y'] (x1 ++ r) with _ | r0
                        · rw [hsl] at h
                          rw [parseNum_cons_none (x1 ++ r) (by decide) (by decide) (by decide)] at h
                          simp at h
                        · rw [hsl] at h
                          injection h with h
                          rw [Prod.mk.injEq] at h
                          obtain ⟨hv, hrest⟩ := h
                          rw [stripLit_some] at hsl
                          rw [hrest] at hsl
                          have hx1 : x1 = ['n', 'f', 'i', 'n', 'i', 't', 'y'] ++ z := by
                            have h2 : x1 ++ r = (['n', 'f', 'i', 'n', 'i', 't', 'y'] ++ z) ++ r := by
                              rw [hsl]; simp [List.append_assoc]
                            exact List.append_cancel_right h2
                          rw [show stripLit ['n', 'f', 'i', 'n', 'i', 't', 'y'] (x1 ++ r') =
                              some (z ++ r') from
                            stripLit_some.mpr (by rw [hx1]; simp [List.append_assoc])]
                          rw [← hv]
                      · rw [if_neg hI] at h ⊢
                        by_cases hm : c = '-'
                        · subst hm
                          rw [if_pos rfl] at h ⊢
                          rcases hsl : stripLit ['I', 'n', 'f', 'i', 'n', 'i', 't', 'y'] (x1 ++ r)
                            with _ | r0
                          · rw [hsl] at h
                            rcases hp : parseNum ('-' :: (x1 ++ r)) with _ | ⟨lex, rest2⟩
                            · rw [hp] at h; simp at h
                            · rw [hp] at h; simp at h
                              obtain ⟨hv, hrest⟩ := h
                              rw [hrest] at hp
                              have hp2 : parseNum (('-' :: x1) ++ r) = some (lex, z ++ r) := by
                                rw [List.cons_append]; exact hp
                              have hp3 := parseNum_swap hr hr' hp2
                              rcases hx1c : x1 with _ | ⟨c2, x2⟩
                              · exfalso
                                subst hx1c
                                rw [List.nil_append] at hp
                                cases r with
                                | nil => rw [parseNum_neg_nil] at hp; simp at hp
                                | cons w ws =>
                                  rw [List.all_cons, Bool.and_eq_true] at hr
                                  have hw := jsonWs_not_tokens hr.1
                                  rw [parseNum_neg_cons_none ws hw.2.2.2.2.2.2.2.1 hw.2.1] at hp
                                  simp at hp
                              · subst hx1c
                                have hc2 : c2 ≠ 'I' := by
                                  rw [show ('-' :: (c2 :: x2 ++ r) : Str) =
                                    '-' :: c2 :: (x2 ++ r) from rfl] at hp
                                  by_cases h0 : c2 = '0'
                                  · subst h0; decide
                                  · by_cases h19 : ('1' ≤ c2 && c2 ≤ '9') = true
                                    · intro hceq
                                      subst hceq
                                      exact absurd h19 (by decide)
                                    · rw [parseNum_neg_cons_none _ h0 (by simpa using h19)] at hp
                                      simp at hp
                                rw [show (c2 :: x2 ++ r' : Str) = c2 :: (x2 ++ r') from rfl,
                                  stripLit_head_ne hc2]
                                simp only []
                                rw [show ('-' :: c2 :: (x2 ++ r') : Str) =
                                  ('-' :: c2 :: x2) ++ r' from rfl]
                                rw [hp3]
                                simp [← hv]
                          · rw [hsl] at h
                            injection h with h
                            rw [Prod.mk.injEq] at h
                            obtain ⟨hv, hrest⟩ := h
                            rw [stripLit_some] at hsl
                            rw [hrest] at hsl
                            have hx1 : x1 = ['I', 'n', 'f', 'i', 'n', 'i', 't', 'y'] ++ z := by
                              have h2 : x1 ++ r =
                                  (['I', 'n', 'f', 'i', 'n', 'i', 't', 'y'] ++ z) ++ r := by
                                rw [hsl]; simp [List.append_assoc]
                              exact List.append_cancel_right h2
                            rw [show stripLit ['I', 'n', 'f', 'i', 'n', 'i', 't', 'y'] (x1 ++ r') =
                                some (z ++ r') from
                              stripLit_some.mpr (by rw [hx1]; simp [List.append_assoc])]
                            rw [← hv]
                        · rw [if_neg hm] at h ⊢
                          rcases hp : parseNum (c :: (x1 ++ r)) with _ | ⟨lex, rest2⟩
                          · rw [hp] at h; simp at h
                          · rw [hp] at h; simp at h
                            obtain ⟨hv, hrest⟩ := h
                            rw [hrest] at hp
                            have hp2 : parseNum ((c :: x1) ++ r) = some (lex, z ++ r) := by
                              rw [List.cons_append]; exact hp
                            have hp3 := parseNum_swap hr hr' hp2
                            rw [show (c :: (x1 ++ r') : Str) = (c :: x1) ++ r' from rfl, hp3]
                            simp [← hv]
    · intro x r r' z g acc v hr hr' hg h
      cases g with
      | zero => simp at hg
      | succ g0 =>
      cases x with
      | nil =>
        rw [List.nil_append] at h
        rw [parseObjRest_allWs_none hr (f + 1)] at h
        simp at h
      | cons c x1 =>
        have hgx : x1.length + 1 ≤ g0 := by
          simp only [List.length_cons] at hg
          omega
        rw [List.cons_append] at h ⊢
        rw [parseObjRest_succ_cons] at h
        rw [parseObjRest_succ_cons]
        by_cases hq : c = '"'
        · subst hq
          rw [if_pos rfl] at h ⊢
          rcases hp : parseStrBody ((x1 ++ r).length + 1) (x1 ++ r) with _ | ⟨key, r2⟩
          · rw [hp] at h; simp at h
          · rw [hp] at h
            simp only [] at h
            obtain ⟨uk, hspl, hukne, huklast, _, hreplay⟩ := parseStrBody_splice _ _ _ _ hp
            obtain ⟨y2, hy1, hy2⟩ := seg_split x1 r uk r2 hr hukne
              (fun dd hdd => by
                rw [huklast] at hdd
                injection hdd with hdd
                subst hdd
                decide)
              hspl
            subst hy2
            rw [show x1 ++ r' = uk ++ (y2 ++ r') from by rw [hy1]; simp]
            rw [hreplay _ _ (by simp)]
            simp only []
            have hLuk : uk.length + y2.length = x1.length := by rw [hy1]; simp
            have hLuk1 : 1 ≤ uk.length := List.length_pos.mpr hukne
            by_cases hcol : (skipWs (y2 ++ r)).head? = some ':'
            · rcases hswy : skipWs y2 with _ | ⟨d2, q2⟩
              · exfalso
                have hall : y2.all isJsonWs = true := skipWs_eq_nil_iff.mp hswy
                have hn2 : skipWs (y2 ++ r) = [] :=
                  skipWs_eq_nil_iff.mpr (by rw [List.all_append]; simp [hall, hr])
                rw [hn2] at hcol
                simp at hcol
              · have hnall := not_all_of_skipWs_cons hswy
                have hsw := skipWs_append_not_all r hnall
                have hsw' := skipWs_append_not_all r' hnall
                rw [hsw, hswy] at h hcol
                rw [hsw', hswy]
                simp only [List.cons_append, List.head?_cons] at h hcol ⊢
                injection hcol with hd2
                subst hd2
                rw [if_pos rfl] at h ⊢
                simp only [List.tail_cons] at h ⊢
                have hLq2 : q2.length + 1 ≤ y2.length := by
                  have h1 := length_skipWs_le y2
                  rw [hswy] at h1
                  simpa using h1
                by_cases hallq : q2.all isJsonWs = true
                · exfalso
                  have hn2 : skipWs (q2 ++ r) = [] :=
                    skipWs_eq_nil_iff.mpr (by rw [List.all_append]; simp [hallq, hr])
                  rw [hn2, parseVal_nil_any] at h
                  simp at h
                · have hnallq : q2.all isJsonWs = false := by simpa using hallq
                  have hswq := skipWs_append_not_all r hnallq
                  have hswq' := skipWs_append_not_all r' hnallq
                  rw [hswq] at h
                  rw [hswq']
                  rcases hpv : parseVal f (skipWs q2 ++ r) with _ | ⟨v1, r4⟩
                  · rw [hpv] at h; simp at h
                  · rw [hpv] at h
                    simp only [] at h
                    obtain ⟨w7, c7, hcs7, hc7⟩ := (parsers_consume f).1 _ _ _ hpv
                    obtain ⟨y4, hy41, hy42⟩ := seg_split (skipWs q2) r (w7 ++ [c7]) r4 hr
                      (by simp)
                      (fun dd hdd => by
                        rw [List.getLast?_concat] at hdd
                        injection hdd with hdd
                        subst hdd
                        by_contra hws
                        rw [Bool.not_eq_false] at hws
                        rw [jsonWs_isPyWs hws] at hc7
                        simp at hc7)
                      (by rw [hcs7]; simp)
                    subst hy42
                    have hLq2s := length_skipWs_le q2
                    have hpv2 := ihv (skipWs q2) r r' y4 g0 v1 hr hr' (by omega) hpv
                    rw [hpv2]
                    simp only []
                    have hLy4 : y4.length + 1 ≤ (skipWs q2).length := by
                      have := congrArg List.length hy41
                      simp at this
                      omega
                    by_cases hally4 : y4.all isJsonWs = true
                    · exfalso
                      have hn4 : skipWs (y4 ++ r) = [] :=
                        skipWs_eq_nil_iff.mpr (by rw [List.all_append]; simp [hally4, hr])
                      rw [hn4] at h
                      rw [if_neg (by simp), if_neg (by simp)] at h
                      simp at h
                    · have hnall4 : y4.all isJsonWs = false := by simpa using hally4
                      have hsw4 := skipWs_append_not_all r hnall4
                      have hsw4' := skipWs_append_not_all r' hnall4
                      rw [hsw4] at h
                      rw [hsw4']
                      rcases hswy4 : skipWs y4 with _ | ⟨d4, q5⟩
                      · rw [skipWs_eq_nil_iff] at hswy4
                        rw [hswy4] at hnall4
                        simp at hnall4
                      · rw [hswy4] at h
                        simp only [List.cons_append, List.head?_cons, List.tail_cons] at h ⊢
                        have hLq5 : q5.length + 1 ≤ y4.length := by
                          have h1 := length_skipWs_le y4
                          rw [hswy4] at h1
                          simpa using h1
                        by_cases hd4 : d4 = ','
                        · subst hd4
                          rw [if_pos rfl] at h ⊢
                          by_cases hallq5 : q5.all isJsonWs = true
                          · exfalso
                            have hn5 : skipWs (q5 ++ r) = [] :=
                              skipWs_eq_nil_iff.mpr
                                (by rw [List.all_append]; simp [hallq5, hr])
                            rw [hn5, parseObjRest_nil_any] at h
                            simp at h
                          · have hnallq5 : q5.all isJsonWs = false := by simpa using hallq5
                            have hswq5 := skipWs_append_not_all r hnallq5
                            have hswq5' := skipWs_append_not_all r' hnallq5
                            rw [hswq5] at h
                            rw [hswq5']
                            have hLq5s := length_skipWs_le q5
                            exact iho (skipWs q5) r r' z g0 _ v hr hr' (by omega) h
                        · rw [if_neg (by simp [hd4])] at h ⊢
                          by_cases hd4b : d4 = '\x7d'
                          · subst hd4b
                            rw [if_pos rfl] at h ⊢
                            injection h with h
                            rw [Prod.mk.injEq] at h
                            obtain ⟨hv, hrest⟩ := h
                            have hz : q5 = z := List.append_cancel_right hrest
                            rw [← hv, hz]
                          · rw [if_neg (by simp [hd4b])] at h
                            simp at h
            · exfalso
              rw [if_neg hcol] at h
              simp at h
        · rw [if_neg hq] at h
          simp at h
    · intro x r r' z g acc v hr hr' hg h
      cases g with
      | zero => simp at hg
      | succ g0 =>
      cases x with
      | nil =>
        rw [List.nil_append] at h
        rw [parseArrRest_allWs_none hr (f + 1)] at h
        simp at h
      | cons c x1 =>
        have hgx : x1.length + 1 ≤ g0 := by
          simp only [List.length_cons] at hg
          omega
        rw [List.cons_append] at h ⊢
        rw [parseArrRest_succ_cons] at h
        rw [parseArrRest_succ_cons]
        by_cases hb : c = ']'
        · subst hb
          rw [if_pos rfl] at h ⊢
          injection h with h
          rw [Prod.mk.injEq] at h
          obtain ⟨hv, hrest⟩ := h
          have hz : x1 = z := List.append_cancel_right hrest
          rw [← hv, hz]
        · rw [if_neg hb] at h ⊢
          by_cases hc : c = ','
          · subst hc
            rw [if_pos rfl] at h ⊢
            by_cases hall : x1.all isJsonWs = true
            · exfalso
              have hn1 : skipWs (x1 ++ r) = [] :=
                skipWs_eq_nil_iff.mpr (by rw [List.all_append]; simp [hall, hr])
              rw [hn1, parseVal_nil_any] at h
              simp at h
            · have hnall : x1.all isJsonWs = false := by simpa using hall
              have hsw := skipWs_append_not_all r hnall
              have hsw' := skipWs_append_not_all r' hnall
              rw [hsw] at h
              rw [hsw']
              rcases hpv : parseVal f (skipWs x1 ++ r) with _ | ⟨v1, r2⟩
              · rw [hpv] at h; simp at h
              · rw [hpv] at h
                simp only [] at h
                obtain ⟨w7, c7, hcs7, hc7⟩ := (parsers_consume f).1 _ _ _ hpv
                obtain ⟨y2, hy1, hy2⟩ := seg_split (skipWs x1) r (w7 ++ [c7]) r2 hr
                  (by simp)
                  (fun dd hdd => by
                    rw [List.getLast?_concat] at hdd
                    injection hdd with hdd
                    subst hdd
                    by_contra hws
                    rw [Bool.not_eq_false] at hws
                    rw [jsonWs_isPyWs hws] at hc7
                    simp at hc7)
                  (by rw [hcs7]; simp)
                subst hy2
                have hLx1 := length_skipWs_le x1
                have hpv2 := ihv (skipWs x1) r r' y2 g0 v1 hr hr' (by omega) hpv
                rw [hpv2]
                simp only []
                have hLy2 : y2.length + 1 ≤ (skipWs x1).length := by
                  have := congrArg List.length hy1
                  simp at this
                  omega
                by_cases hally2 : y2.all isJsonWs = true
                · exfalso
                  have hn2 : skipWs (y2 ++ r) = [] :=
                    skipWs_eq_nil_iff.mpr (by rw [List.all_append]; simp [hally2, hr])
                  rw [hn2, parseArrRest_nil_any] at h
                  simp at h
                · have hnall2 : y2.all isJsonWs = false := by simpa using hally2
                  have hsw2 := skipWs_append_not_all r hnall2
                  have hsw2' := skipWs_append_not_all r' hnall2
                  rw [hsw2] at h
                  rw [hsw2']
                  have hLy2s := length_skipWs_le y2
                  exact iha (skipWs y2) r r' z g0 _ v hr hr' (by omega) h
          · rw [if_neg hc] at h
            simp at h

theorem parseVal_head_not_pyWs {f : Nat} {s : Str} {v : Json} {rest : Str}
    (h : parseVal f s = some (v, rest)) :
    ∀ hc, s.head? = some hc → isPyWs hc = false ∧ hc ≠ '`' := by
  intro hc hh
  cases f with
  | zero => rw [parseVal_zero] at h; simp at h
  | succ f =>
    cases s with
    | nil => simp at hh
    | cons c s1 =>
      simp only [List.head?_cons] at hh
      injection hh with hh
      subst hh
      rw [parseVal_succ_cons] at h
      by_cases hq : c = '"'
      · subst hq; decide
      · rw [if_neg hq] at h
        by_cases hb : c = '\x7b'
        · subst hb; decide
        · rw [if_neg hb] at h
          by_cases hbr : c = '['
          · subst hbr; decide
          · rw [if_neg hbr] at h
            by_cases hn : c = 'n'
            · subst hn; decide
            · rw [if_neg hn] at h
              by_cases ht : c = 't'
              · subst ht; decide
              · rw [if_neg ht] at h
                by_cases hf : c = 'f'
                · subst hf; decide
                · rw [if_neg hf] at h
                  by_cases hN : c = 'N'
                  · subst hN; decide
                  · rw [if_neg hN] at h
                    by_cases hI : c = 'I'
                    · subst hI; decide
                    · rw [if_neg hI] at h
                      by_cases hm : c = '-'
                      · subst hm; decide
                      · rw [if_neg hm] at h
                        rcases hp : parseNum (c :: s1) with _ | ⟨lex, rest2⟩
                        · rw [hp] at h; simp at h
                        · obtain ⟨hs, hne, hdig, hhead⟩ := parseNum_consume hp
                          rcases hlex : lex with _ | ⟨l0, lex1⟩
                          · exact absurd hlex hne
                          · subst hlex
                            rw [List.cons_append] at hs
                            injection hs with hs1 _
                            rw [hs1]
                            rcases hhead l0 rfl with hl | hl
                            · subst hl; decide
                            · exact ⟨digit_not_pyWs hl, by
                                intro heq
                                subst heq
                                exact absurd hl (by decide)⟩

theorem pyRstrip_allWs {r : Str} (h : r.all isJsonWs = true) : pyRstrip r = [] := by
  unfold pyRstrip
  rw [List.dropWhile_eq_nil_iff.mpr, List.reverse_nil]
  intro x hx
  exact jsonWs_isPyWs (List.all_eq_true.mp h x (by simpa using hx))

theorem strStartsWith_fence_false {h0 : Char} {t0 : Str} (h : h0 ≠ '`') :
    strStartsWith (h0 :: t0) fence3 = false := by
  unfold strStartsWith fence3
  simp [List.isPrefixOf]
  intro hb
  exact absurd hb.symm h

theorem json_loads_pyStrip {t : Str} {v : Json} (h : json_loads t = some v) :
    json_loads (pyStrip t) = some v ∧ strStartsWith (pyStrip t) fence3 = false := by
  unfold json_loads at h
  rcases hpv : parseVal (2 * t.length + 2) (skipWs t) with _ | ⟨v1, rest⟩
  · rw [hpv] at h; simp at h
  · rw [hpv] at h
    simp only [] at h
    by_cases hemp : (skipWs rest).isEmpty
    · rw [if_pos hemp] at h
      injection h with h
      subst h
      have hrws : rest.all isJsonWs = true := by
        rw [← skipWs_eq_nil_iff]
        exact List.isEmpty_iff.mp (by simpa using hemp)
      obtain ⟨w, cl, hcs, hcl⟩ := (parsers_consume _).1 _ _ _ hpv
      have hsrc : parseVal (2 * t.length + 2) ((w ++ [cl]) ++ rest) = some (v1, [] ++ rest) := by
        rw [List.nil_append]
        rw [show (w ++ [cl]) ++ rest = w ++ cl :: rest from by simp]
        rw [← hcs]
        exact hpv
      have htgt := (parsers_swap _).1 (w ++ [cl]) rest [] []
        (2 * (w ++ [cl]).length + 2) v1 hrws (by simp) (by simp; omega) hsrc
      rw [List.append_nil, List.nil_append] at htgt
      have hhead : ∀ hc, (skipWs t).head? = some hc → isPyWs hc = false :=
        fun hc hh => (parseVal_head_not_pyWs hpv hc hh).1
      have hlstrip : pyLstrip t = skipWs t := by
        unfold pyLstrip
        conv_lhs => rw [skipWs_decomp t]
        rw [dropWhile_append_all _ (by
          rw [List.all_eq_true]
          exact fun x hx => jsonWs_isPyWs (List.mem_takeWhile_imp hx))]
        rw [hcs]
        rw [show w ++ cl :: rest = (w ++ [cl]) ++ rest from by simp]
        rcases hwc : w ++ [cl] with _ | ⟨h0, t0⟩
        · exact absurd hwc (by simp)
        · rw [List.cons_append, List.dropWhile_cons, if_neg]
          rw [Bool.not_eq_true]
          apply hhead
          rw [hcs, show w ++ cl :: rest = (w ++ [cl]) ++ rest from by simp, hwc]
          rfl
      have hstrip : pyStrip t = w ++ [cl] := by
        unfold pyStrip
        rw [hlstrip, hcs, show w ++ cl :: rest = (w ++ [cl]) ++ rest from by simp]
        rw [pyRstrip_append rest
          (fun d hd => by
            rw [List.getLast?_concat] at hd
            injection hd with hd
            subst hd
            exact hcl)
          (by simp)]
        rw [pyRstrip_allWs hrws, List.append_nil]
      refine ⟨?_, ?_⟩
      swap
      · rw [hstrip]
        rcases hwc : w ++ [cl] with _ | ⟨h0, t0⟩
        · exact absurd hwc (by simp)
        · apply strStartsWith_fence_false
          apply (parseVal_head_not_pyWs hpv h0 ?_).2
          rw [hcs, show w ++ cl :: rest = (w ++ [cl]) ++ rest from by simp, hwc]
          rfl
      unfold json_loads
      rw [hstrip]
      have hskipid : skipWs (w ++ [cl]) = w ++ [cl] := by
        rcases hwc : w ++ [cl] with _ | ⟨h0, t0⟩
        · exact absurd hwc (by simp)
        · unfold skipWs
          rw [List.dropWhile_cons, if_neg]
          rw [Bool.not_eq_true]
          have hpy : isPyWs h0 = false := by
            apply hhead
            rw [hcs, show w ++ cl :: rest = (w ++ [cl]) ++ rest from by simp, hwc]
            rfl
          by_contra hjs
          rw [Bool.not_eq_false] at hjs
          rw [jsonWs_isPyWs hjs] at hpy
          simp at hpy
      rw [hskipid, htgt]
      rfl
    · rw [if_neg hemp] at h
      simp at h

/-- C6 (amended): the bare half of the round-trip holds universally —
if the text decodes strictly as JSON, `_parse_summary_text` returns
exactly that decoded value (strict decoding of a complete value is
insensitive to the surrounding whitespace that `str.strip` removes).
The fenced half holds only under the amendment's proviso: no character
of the fence tag, the body lines or the trailing text is one of
`str.splitlines`' line boundaries (`claim_C6_counterexample` refutes
the unrestricted fenced claim: a body line with a raw U+2028 inside a
JSON string is well-formed JSON, yet splitlines cuts it and the parser
fails).  Under that proviso the fence is stripped and the body's
decoded value is returned. -/
theorem claim_C6_amended :
    (∀ (t : Str) (v : Json), json_loads t = some v → _parse_summary_text t = .ok v) ∧
    (∀ (tag : Str) (bodyLines : List Str) (post : Str) (v : Json),
      (∀ c ∈ tag, isLineBoundary c = false) →
      (∀ line ∈ bodyLines, ∀ c ∈ line, isLineBoundary c = false) →
      (∀ line ∈ bodyLines, strStartsWith (pyStrip line) fence3 = false) →
      bodyLines ≠ [] →
      (∀ c ∈ post, isLineBoundary c = false) →
      (∀ c, post.getLast? = some c → isPyWs c = false) →
      json_loads (joinSep ['\n'] bodyLines) = some v →
      _parse_summary_text (mkFenced tag bodyLines post) = .ok v) := by
  constructor
  · intro t v hj
    obtain ⟨hj2, hnf⟩ := json_loads_pyStrip hj
    have hsb : _strip_code_block t = pyStrip t := by
      unfold _strip_code_block
      simp only [hnf, Bool.not_false, if_true]
    unfold _parse_summary_text
    simp only [hsb, hj2]
  · intro tag bodyLines post v htag hbody hbody2 hne hpost hlast hj
    unfold _parse_summary_text
    simp only [strip_code_block_mkFenced tag bodyLines post htag hbody hbody2 hne hpost hlast,
      (json_loads_pyStrip hj).1]

/-- C6 counterexample (refuting the unrestricted fenced round-trip):
the body line below is strict-decodable JSON whose string value holds a
raw U+2028, a character `json.loads` accepts unescaped but
`str.splitlines` treats as a line boundary.  It contains no `\n` or
`\r` and is not itself a fence, yet the fence stripper splits it, the
re-joined body carries a raw newline inside the string literal, strict
decoding and partial recovery both fail, and the parser reports the
invalid-JSON `ContentError` instead of the decoded mapping. -/
theorem claim_C6_counterexample :
    json_loads "\x7b\"a\u2028b\": 1\x7d".data =
      some (.obj [("a\u2028b".data, .num "1".data)]) ∧
    (∀ c ∈ "\x7b\"a\u2028b\": 1\x7d".data, c ≠ '\n' ∧ c ≠ '\r') ∧
    strStartsWith (pyStrip "\x7b\"a\u2028b\": 1\x7d".data) fence3 = false ∧
    _parse_summary_text
        (mkFenced "json".data ["\x7b\"a\u2028b\": 1\x7d".data] []) =
      .error (invalidJsonMsg ++ "\x7b\"a b\": 1\x7d".data) := by
  refine ⟨by rfl, by decide, by decide, by rfl⟩

/-- C6 witness: the bare object text and its json-fenced wrapping both
parse to the same mapping. -/
theorem claim_C6_amended_witness :
    _parse_summary_text ("\x7b\"a\": 1\x7d".data) =
      .ok (.obj [("a".data, .num "1".data)]) ∧
    _parse_summary_text (mkFenced "json".data ["\x7b\"a\": 1\x7d".data] []) =
      .ok (.obj [("a".data, .num "1".data)]) := by
  constructor
  · exact claim_C6_amended.1 _ _ (by rfl)
  · exact claim_C6_amended.2 "json".data _ [] _ (by decide) (by decide)
      (by decide) (by simp) (by simp) (fun c hc => by simp at hc) (by rfl)
